import Mathlib

/-!
# A skip-list index over an explicit heap

Shallow embedding of `skiplist.c` / `skiplist.h`, of `record.c`, of
`save_database` and `load_database` of `persistence.c`, of the commands `add`
and `del` of `main.c` and of `shuffle_ids` of `test.c`.  A pointer is an index into a heap of cells, `NULL` is `none`, a
freed cell is `none` inside the heap.  Every function that dereferences a
pointer returns `none` when the dereference is invalid (freed cell, index
outside an array, read of a never-written slot of the local `update` array) or
when a `while` loop has not finished within the given number of steps `fuel`.
-/

namespace SkipListIndex

/-! ## Data model (`record.h`, `skiplist.h`) -/

/-- The constant `MAX_LEVEL` of `skiplist.h`. -/
def MAX_LEVEL : Nat := 32

/-- The largest `size_t` (64-bit target). -/
def SIZE_MAX : Nat := 2 ^ 64 - 1

/-- The struct `Record` of `record.h`: `id`, the bytes of `name`, and the bits
of the `double value` (never computed with, only copied). -/
structure Record where
  id : Int
  name : List Nat
  value : Nat
deriving DecidableEq, Repr

/-- The struct `SkipListNode`: `forward` is the malloc-ed array of `level + 1`
nullable node pointers; `value` is the nullable `Record *` (a record pointer is
identified with the record it points to). -/
structure SkipListNode where
  key : Int
  value : Option Record
  level : Nat
  forward : List (Option Nat)
deriving DecidableEq, Repr

/-- The heap region holding the nodes of one list: cell `p` is `some n` while
the node at address `p` is allocated and `none` once it has been freed. -/
abbrev Heap := List (Option SkipListNode)

/-- The struct `SkipList` together with the heap its node pointers point into.
`level` is the C `int` (never negative in a list built by this module), `size`
the C `size_t`: `size++` is the successor, since the count of nodes a process
can hold stays below `SIZE_MAX`, and `size--` wraps at 0 as in C. -/
structure SkipList where
  mem : Heap
  header : Nat
  level : Nat
  size : Nat
deriving DecidableEq, Repr

/-- Dereference of a node pointer: `none` for a freed or never allocated cell. -/
def nodeAt (mem : Heap) (p : Nat) : Option SkipListNode :=
  (mem[p]?).join

/-- The read `p->forward[i]`: `none` when `p` is not a live node or `i` is
outside its forward array, `some none` when the link is `NULL`. -/
def fwd (mem : Heap) (p i : Nat) : Option (Option Nat) :=
  (nodeAt mem p).bind (fun n => n.forward[i]?)

/-- The write `p->forward[i] = q`: `none` when the access is invalid. -/
def setFwd (mem : Heap) (p i : Nat) (q : Option Nat) : Option Heap :=
  match nodeAt mem p with
  | some n =>
    if i < n.forward.length then
      some (mem.set p (some { n with forward := n.forward.set i q }))
    else none
  | none => none

/-! ## `create_node`, `random_level`, `create_skiplist` -/

/-- The function `create_node`: returns `none` (the C `NULL`) when one of its two
`malloc` calls fails (`alloc_ok = false`), and otherwise the address of the new
node, a fresh cell at the end of the heap, with all `level + 1` links `NULL`. -/
def create_node (mem : Heap) (alloc_ok : Bool) (level : Nat) (key : Int)
    (value : Option Record) : Option (Nat × Heap) :=
  if alloc_ok then
    some (mem.length,
      mem ++ [some { key := key, value := value, level := level,
                     forward := List.replicate (level + 1) none }])
  else none

/-- The loop of `random_level`: `coins n` is the outcome of the comparison
`rand() < SKIPLIST_P * RAND_MAX` at the `n`-th evaluation of the loop condition
(the draw made while `level = n`). -/
def random_level_loop (coins : Nat → Bool) : Nat → Nat → Nat
  | 0, level => level
  | fuel + 1, level =>
    if coins level && decide (level < MAX_LEVEL - 1) then
      random_level_loop coins fuel (level + 1)
    else level

/-- The function `random_level`; the loop makes at most `MAX_LEVEL - 1`
increments, so `MAX_LEVEL` steps always reach its exit. -/
def random_level (coins : Nat → Bool) : Nat :=
  random_level_loop coins MAX_LEVEL 0

/-- The function `create_skiplist`: `none` is the `NULL` returned when an
allocation fails. -/
def create_skiplist (alloc_ok : Bool) : Option SkipList :=
  match create_node [] alloc_ok (MAX_LEVEL - 1) (-1) none with
  | none => none
  | some (header, mem) => some { mem := mem, header := header, level := 0, size := 0 }

/-! ## `search_skiplist` -/

/-- The inner loop
`while (current->forward[i] && current->forward[i]->key < key) current = current->forward[i];`
shared by search, insert and delete. -/
def advance (mem : Heap) (i : Nat) (key : Int) : Nat → Nat → Option Nat
  | 0, _ => none
  | fuel + 1, current =>
    match fwd mem current i with
    | none => none
    | some none => some current
    | some (some next) =>
      match nodeAt mem next with
      | none => none
      | some n => if n.key < key then advance mem i key fuel next else some current

/-- The loop `for (int i = list->level; i >= 0; i--)` of `search_skiplist`,
entered at level `i` with the given `current`. -/
def search_levels (fuel : Nat) (mem : Heap) (key : Int) : Nat → Nat → Option Nat
  | 0, current => advance mem 0 key fuel current
  | i + 1, current =>
    (advance mem (i + 1) key fuel current).bind (search_levels fuel mem key i)

/-- The function `search_skiplist`: `some none` is the returned `NULL`,
`some (some r)` a returned record. -/
def search_skiplist (fuel : Nat) (list : Option SkipList) (search_key : Int) :
    Option (Option Record) :=
  match list with
  | none => some none
  | some l =>
    match search_levels fuel l.mem search_key l.level l.header with
    | none => none
    | some current =>
      match fwd l.mem current 0 with
      | none => none
      | some none => some none
      | some (some c) =>
        match nodeAt l.mem c with
        | none => none
        | some n => if n.key = search_key then some n.value else some none

/-! ## `insert_skiplist` -/

/-- The local array `SkipListNode *update[MAX_LEVEL]` before any write: a slot
holding `none` has not been written. -/
def update_init : List (Option Nat) := List.replicate MAX_LEVEL none

/-- The descent loop of `insert_skiplist` and `delete_skiplist`:
`for (int i = list->level; i >= 0; i--) { while (...) ...; update[i] = current; }`. -/
def find_update (fuel : Nat) (mem : Heap) (key : Int) :
    Nat → Nat → List (Option Nat) → Option (Nat × List (Option Nat))
  | 0, current, update =>
    match advance mem 0 key fuel current with
    | none => none
    | some c => if 0 < update.length then some (c, update.set 0 (some c)) else none
  | i + 1, current, update =>
    match advance mem (i + 1) key fuel current with
    | none => none
    | some c =>
      if i + 1 < update.length then
        find_update fuel mem key i c (update.set (i + 1) (some c))
      else none

/-- The loop `for (int i = list->level + 1; i <= new_level; i++) update[i] = list->header;`
entered at `i` with `cnt` iterations left. -/
def raise_update (header : Nat) : Nat → Nat → List (Option Nat) → Option (List (Option Nat))
  | _, 0, update => some update
  | i, cnt + 1, update =>
    if i < update.length then raise_update header (i + 1) cnt (update.set i (some header))
    else none

/-- The loop `for (int i = 0; i <= new_level; i++)` that links the new node in,
entered at `i` with `cnt` iterations left. -/
def splice (new_node : Nat) (update : List (Option Nat)) : Nat → Nat → Heap → Option Heap
  | _, 0, mem => some mem
  | i, cnt + 1, mem =>
    match update[i]? with
    | some (some p) =>
      match fwd mem p i with
      | none => none
      | some q =>
        match setFwd mem new_node i q with
        | none => none
        | some mem1 =>
          match setFwd mem1 p i (some new_node) with
          | none => none
          | some mem2 => splice new_node update (i + 1) cnt mem2
    | _ => none

/-- The test `current && current->key == key`. -/
def key_matches (mem : Heap) (current : Option Nat) (key : Int) : Option Bool :=
  match current with
  | none => some false
  | some c => (nodeAt mem c).map (fun n => decide (n.key = key))

/-- The function `insert_skiplist`.  `coins` are the outcomes of the draws of
`random_level`, `alloc_ok` tells whether `create_node` gets its memory.  The
result is the returned `int` and the list the pointer `list` points to
afterwards. -/
def insert_skiplist (fuel : Nat) (list : Option SkipList) (key : Int) (value : Option Record)
    (coins : Nat → Bool) (alloc_ok : Bool) : Option (Int × Option SkipList) :=
  match list with
  | none => some (0, none)
  | some l =>
    if value = none ∨ key < 0 then some (0, some l)
    else
      match find_update fuel l.mem key l.level l.header update_init with
      | none => none
      | some (current, update) =>
        match fwd l.mem current 0 with
        | none => none
        | some cur0 =>
          match key_matches l.mem cur0 key with
          | none => none
          | some true => some (0, some l)
          | some false =>
            let new_level := random_level coins
            match (if new_level > l.level then
                     (raise_update l.header (l.level + 1) (new_level - l.level) update).map
                       (fun u => (u, { l with level := new_level }))
                   else some (update, l)) with
            | none => none
            | some (update, l) =>
              match create_node l.mem alloc_ok new_level key value with
              | none => some (0, some l)
              | some (new_node, mem) =>
                match splice new_node update 0 (new_level + 1) mem with
                | none => none
                | some mem => some (1, some { l with mem := mem, size := l.size + 1 })

/-! ## `delete_skiplist` -/

/-- The loop `for (int i = 0; i <= current->level; i++)` of `delete_skiplist`,
entered at `i` with `cnt` iterations left. -/
def unlink (current : Nat) (update : List (Option Nat)) : Nat → Nat → Heap → Option Heap
  | _, 0, mem => some mem
  | i, cnt + 1, mem =>
    match update[i]? with
    | some (some p) =>
      match fwd mem p i with
      | none => none
      | some q =>
        if q = some current then
          match fwd mem current i with
          | none => none
          | some r =>
            match setFwd mem p i r with
            | none => none
            | some mem1 => unlink current update (i + 1) cnt mem1
        else unlink current update (i + 1) cnt mem
    | _ => none

/-- The loop
`while (list->level > 0 && list->header->forward[list->level] == NULL) list->level--;`. -/
def shrink_level (mem : Heap) (header : Nat) : Nat → Option Nat
  | 0 => some 0
  | l + 1 =>
    match fwd mem header (l + 1) with
    | none => none
    | some none => shrink_level mem header l
    | some (some _) => some (l + 1)

/-- The function `delete_skiplist`: the returned `int` and the list afterwards.
The three `free` calls turn the cell of the node into a freed one. -/
def delete_skiplist (fuel : Nat) (list : Option SkipList) (key : Int) :
    Option (Int × Option SkipList) :=
  match list with
  | none => some (0, none)
  | some l =>
    if key < 0 then some (0, some l)
    else
      match find_update fuel l.mem key l.level l.header update_init with
      | none => none
      | some (current, update) =>
        match fwd l.mem current 0 with
        | none => none
        | some none => some (0, some l)
        | some (some c) =>
          match nodeAt l.mem c with
          | none => none
          | some n =>
            if n.key = key then
              match unlink c update 0 (n.level + 1) l.mem with
              | none => none
              | some mem =>
                let mem := mem.set c none
                match shrink_level mem l.header l.level with
                | none => none
                | some level =>
                  some (1, some { l with mem := mem, level := level,
                                         size := if l.size = 0 then SIZE_MAX else l.size - 1 })
            else some (0, some l)

/-! ## Ordered traversal and the well-formedness invariant -/

/-- The key stored in the node at `p` (0 when `p` is not a live node). -/
def keyOf (mem : Heap) (p : Nat) : Int :=
  match nodeAt mem p with
  | some n => n.key
  | none => 0

/-- The value stored in the node at `p`. -/
def valueOf (mem : Heap) (p : Nat) : Option Record :=
  match nodeAt mem p with
  | some n => n.value
  | none => none

/-- The field `level` of the node at `p`. -/
def levelOf (mem : Heap) (p : Nat) : Nat :=
  match nodeAt mem p with
  | some n => n.level
  | none => 0

/-- Everything of the node at `p` except the contents of its links: key, value,
level and the number of slots of its forward array. -/
def shape (mem : Heap) (p : Nat) : Option (Int × Option Record × Nat × Nat) :=
  (nodeAt mem p).map (fun n => (n.key, n.value, n.level, n.forward.length))

/-- The loop `while (current) { ...; current = current->forward[0]; }` used by
`save_database`, `free_skiplist` and `display_skiplist_levels` to walk a level:
the addresses visited, in order, when the walk is entered with `current`. -/
def walk (mem : Heap) (i : Nat) : Nat → Option Nat → Option (List Nat)
  | _, none => some []
  | 0, some _ => none
  | fuel + 1, some c =>
    match fwd mem c i with
    | none => none
    | some next => (walk mem i fuel next).map (fun l => c :: l)

/-- The chain of level `i`: the nodes met from `list->header->forward[i]` on. -/
def level_chain (fuel : Nat) (s : SkipList) (i : Nat) : Option (List Nat) :=
  (fwd s.mem s.header i).bind (walk s.mem i fuel)

/-- The `(key, value)` pairs carried by the nodes `ns`, in order. -/
def entries (mem : Heap) (ns : List Nat) : List (Int × Option Record) :=
  ns.map (fun a => (keyOf mem a, valueOf mem a))

/-- The ordered traversal: the `(key, value)` pairs of the level-0 chain. -/
def traverse (fuel : Nat) (s : SkipList) : Option (List (Int × Option Record)) :=
  (level_chain fuel s 0).map (entries s.mem)

/-- Starting at node `a` and following the level-`i` links, the nodes met are
exactly `l`, and the link of the last one is `e`. -/
def seg (mem : Heap) (i : Nat) : Nat → List Nat → Option Nat → Prop
  | a, [], e => fwd mem a i = some e
  | a, b :: l, e => fwd mem a i = some (some b) ∧ seg mem i b l e

/-- The last node of the path that starts at `a` and goes through `l`. -/
def lastFrom (a : Nat) : List Nat → Nat
  | [] => a
  | b :: l => lastFrom b l

/-- What a list owes each of its data nodes: the node is allocated, its forward
array has `level + 1` slots, its level does not exceed the level of the list,
its key is non-negative and its value is not `NULL`. -/
def nodeOK (s : SkipList) (a : Nat) : Prop :=
  match nodeAt s.mem a with
  | some n => n.forward.length = n.level + 1 ∧ n.level ≤ s.level ∧ 0 ≤ n.key ∧ n.value ≠ none
  | none => False

/-- The nodes of `ns` that take part in level `i`. -/
def atLevel (mem : Heap) (i : Nat) (ns : List Nat) : List Nat :=
  ns.filter (fun a => decide (i ≤ levelOf mem a))

/-- Well-formed list with level-0 chain `ns`: the header is a live node with
`MAX_LEVEL` links and is not a data node, `level` is a valid index, `size`
counts the data nodes, keys strictly increase along `ns`, and at every level
the chain from the header consists of the nodes of `ns` of at least that level,
in the same order, and ends with `NULL`. -/
def WF (s : SkipList) (ns : List Nat) : Prop :=
  s.level < MAX_LEVEL ∧
  s.size = ns.length ∧
  (nodeAt s.mem s.header).map (fun h => h.forward.length) = some MAX_LEVEL ∧
  s.header ∉ ns ∧
  (∀ a ∈ ns, nodeOK s a) ∧
  ns.Pairwise (fun a b => keyOf s.mem a < keyOf s.mem b) ∧
  ∀ i < MAX_LEVEL, seg s.mem i s.header (atLevel s.mem i ns) none

instance seg_decidable (mem : Heap) (i : Nat) :
    ∀ (a : Nat) (l : List Nat) (e : Option Nat), Decidable (seg mem i a l e)
  | _, [], _ => by unfold seg; infer_instance
  | _, b :: l, e => by
    unfold seg
    exact @instDecidableAnd _ _ _ (seg_decidable mem i b l e)

instance nodeOK_decidable (s : SkipList) (a : Nat) : Decidable (nodeOK s a) := by
  unfold nodeOK
  cases nodeAt s.mem a <;> infer_instance

instance WF_decidable (s : SkipList) (ns : List Nat) : Decidable (WF s ns) := by
  unfold WF
  infer_instance

/-- Plain left-to-right lookup of `key` in a sequence of `(key, value)` pairs:
the value of the first pair carrying that key, `none` (the C `NULL`) without
one. -/
def lookup (ps : List (Int × Option Record)) (key : Int) : Option Record :=
  match ps.find? (fun p => decide (p.1 = key)) with
  | some p => p.2
  | none => none

/-- A sequence of pairs without the pairs carrying `key`. -/
def remove_key (key : Int) (ps : List (Int × Option Record)) : List (Int × Option Record) :=
  ps.filter (fun p => decide (p.1 ≠ key))

/-- The value of the first node of `R` when it carries `key`. -/
def found_at (mem : Heap) (key : Int) : List Nat → Option Record
  | [] => none
  | c :: _ => if keyOf mem c = key then valueOf mem c else none

/-- The pair `(key, value)` put at its sorted position in a sequence of pairs. -/
def insert_pair (key : Int) (value : Option Record) :
    List (Int × Option Record) → List (Int × Option Record)
  | [] => [(key, value)]
  | p :: t => if key < p.1 then (key, value) :: p :: t else p :: insert_pair key value t

/-- The highest level among `0..i` at which the header has a link, 0 when it
has none. -/
def highest_from (mem : Heap) (header : Nat) : Nat → Nat
  | 0 => 0
  | i + 1 =>
    match fwd mem header (i + 1) with
    | some (some _) => i + 1
    | _ => highest_from mem header i

/-- The highest level at which `header.forward` is not `NULL`, 0 for an empty
list. -/
def highest_level (s : SkipList) : Nat :=
  highest_from s.mem s.header (MAX_LEVEL - 1)

/-- The level of the list is 0 or the level of one of its nodes. -/
def Tight (s : SkipList) (ns : List Nat) : Prop :=
  s.level = 0 ∨ ∃ a ∈ ns, levelOf s.mem a = s.level

/-! ## Sequences of calls -/

/-- A call of the engine: an insert with the outcomes of its coin flips and of
its allocation, or a delete. -/
inductive Op where
  | insert (key : Int) (value : Option Record) (coins : Nat → Bool) (alloc_ok : Bool)
  | delete (key : Int)

/-- One call on the list `list`. -/
def step (fuel : Nat) (list : Option SkipList) : Op → Option (Int × Option SkipList)
  | Op.insert key value coins alloc_ok => insert_skiplist fuel list key value coins alloc_ok
  | Op.delete key => delete_skiplist fuel list key

/-- The calls `ops` made one after the other on `list`: the final list and,
for each call in order, the value it returned. -/
def run (fuel : Nat) : Option SkipList → List Op → Option (Option SkipList × List (Op × Int))
  | list, [] => some (list, [])
  | list, op :: ops =>
    match step fuel list op with
    | none => none
    | some (r, list1) =>
      match run fuel list1 ops with
      | none => none
      | some (list2, tr) => some (list2, (op, r) :: tr)

/-- What a call does to the ordered sequence of stored pairs, and what it
returns: an insert is refused for a `NULL` value, a negative key, a key already
stored or a failed allocation and otherwise puts the pair at its sorted
position; a delete is refused for a negative or absent key and otherwise
removes the pair of that key. -/
def abstract_step (ps : List (Int × Option Record)) : Op → Int × List (Int × Option Record)
  | Op.insert key value _ alloc_ok =>
    if value = none ∨ key < 0 ∨ key ∈ ps.map Prod.fst ∨ alloc_ok = false then (0, ps)
    else (1, insert_pair key value ps)
  | Op.delete key =>
    if key < 0 ∨ key ∉ ps.map Prod.fst then (0, ps) else (1, remove_key key ps)

/-- The calls `ops` on the sequence of pairs `ps`: each call with the value it
returns, and the final sequence. -/
def abstract_run :
    List (Int × Option Record) → List Op → List (Op × Int) × List (Int × Option Record)
  | ps, [] => ([], ps)
  | ps, op :: ops =>
    ((op, (abstract_step ps op).1) :: (abstract_run (abstract_step ps op).2 ops).1,
      (abstract_run (abstract_step ps op).2 ops).2)

/-- The effect of one finished call on the table of stored values: an insert
that returned 1 stores its value, a delete that returned 1 removes the key. -/
def record_call (m : Int → Option Record) : Op × Int → Int → Option Record
  | (Op.insert key value _ _, r) => if r = 1 then Function.update m key value else m
  | (Op.delete key, r) => if r = 1 then Function.update m key none else m

/-- For each key, the value most recently inserted with success and not
deleted since, according to the calls and their return values. -/
def stored (tr : List (Op × Int)) : Int → Option Record :=
  tr.foldl record_call (fun _ => none)

/-- The lists reachable from a fresh one by insert and delete calls. -/
def Reachable (s : SkipList) : Prop :=
  ∃ fuel ops tr, run fuel (create_skiplist true) ops = some (some s, tr)

/-- The `alloc_ok` flag of a call (`true` for a delete, which allocates nothing). -/
def Op.allocates : Op → Bool
  | Op.insert _ _ _ alloc_ok => alloc_ok
  | Op.delete _ => true

/-- The lists reachable from a fresh one by calls in which no allocation fails. -/
def ReachableNoFail (s : SkipList) : Prop :=
  ∃ fuel ops tr, (∀ op ∈ ops, op.allocates = true) ∧
    run fuel (create_skiplist true) ops = some (some s, tr)

/-- The number of consecutive successful flips at the start of the stream
`coins`, capped at `cap`. -/
def count_heads (coins : Nat → Bool) : Nat → Nat
  | 0 => 0
  | cap + 1 => if coins 0 then 1 + count_heads (fun n => coins (n + 1)) cap else 0

/-! ## `persistence.c` -/

/-- The contents of a snapshot file: the `size_t` record count written first,
then the `Record` structs in the order written. -/
structure Snapshot where
  count : Nat
  records : List Record
deriving DecidableEq, Repr

/-- What a call of `save_database` does: the returned `int`, whether the file
was opened (`fopen` with mode `"wb"` reached and successful, which empties the
file), the count and the records written to it (`none` when the count was not
written), the final value of `records_written`, and whether the branch
`records_written != list->size` (the mismatch warning) is taken. -/
structure SaveResult where
  ret : Int
  opened : Bool
  file : Option Snapshot
  records_written : Nat
  warned : Bool
deriving DecidableEq, Repr

/-- The loop `while (current) { if (current->value) { if (fwrite(...) != 1) return 0;
records_written++; } current = current->forward[0]; }` of `save_database`.
`fwrite_ok n` tells whether the call number `n` of `fwrite` succeeds, the call
for the count being number 0, so that the next record is written by the call
number `records_written + 1`.  The result is the records written from
`current` on, in order, and whether the loop ran to its end (`false`: a failed
`fwrite` made the function return 0). -/
def save_loop (mem : Heap) (fwrite_ok : Nat → Bool) :
    Nat → Option Nat → Nat → Option (List Record × Bool)
  | _, none, _ => some ([], true)
  | 0, some _, _ => none
  | fuel + 1, some c, records_written =>
    match nodeAt mem c with
    | none => none
    | some node =>
      match node.value with
      | some r =>
        if fwrite_ok (records_written + 1) then
          match node.forward[0]? with
          | none => none
          | some next =>
            match save_loop mem fwrite_ok fuel next (records_written + 1) with
            | none => none
            | some (rest, finished) => some (r :: rest, finished)
        else some ([], false)
      | none =>
        match node.forward[0]? with
        | none => none
        | some next => save_loop mem fwrite_ok fuel next records_written

/-- The function `save_database`.  `filename` is `none` for a `NULL` file
name, `fopen_ok` tells whether `fopen` succeeds and `fwrite_ok n` whether the
call number `n` of `fwrite` does (number 0 writes the count).  The call
returns 0 for a `NULL` list or file name, for a failed `fopen`, for a failed
`fwrite` of the count and for a failed `fwrite` of a record; a failed `fwrite`
adds nothing to the file. -/
def save_database (fuel : Nat) (list : Option SkipList) (filename : Option (List Nat))
    (fopen_ok : Bool) (fwrite_ok : Nat → Bool) : Option SaveResult :=
  match list with
  | none => some { ret := 0, opened := false, file := none, records_written := 0,
                   warned := false }
  | some l =>
    match filename with
    | none => some { ret := 0, opened := false, file := none, records_written := 0,
                     warned := false }
    | some _ =>
      if fopen_ok then
        match fwd l.mem l.header 0 with
        | none => none
        | some current =>
          if fwrite_ok 0 then
            match save_loop l.mem fwrite_ok fuel current 0 with
            | none => none
            | some (recs, true) =>
              some { ret := 1, opened := true,
                     file := some { count := l.size, records := recs },
                     records_written := recs.length,
                     warned := decide (recs.length ≠ l.size) }
            | some (recs, false) =>
              some { ret := 0, opened := true,
                     file := some { count := l.size, records := recs },
                     records_written := recs.length, warned := false }
          else some { ret := 0, opened := true, file := none, records_written := 0,
                      warned := false }
      else some { ret := 0, opened := false, file := none, records_written := 0,
                  warned := false }

/-- The outcomes drawn while `load_database` handles one record: whether the
`malloc` of the record succeeds, the coin flips of the insert, and whether the
insert gets the memory of its node. -/
structure LoadDraw where
  record_ok : Bool
  coins : Nat → Bool
  node_ok : Bool

/-- The loop `while (fread(&temp_record, sizeof(Record), 1, fp) == 1)` of
`load_database` over the records left in the file, `i` being the index of the
next record and `records_read` the counter: a failed `malloc` of the record
returns the list as it is, a record refused by `insert_skiplist` is freed and
skipped, an inserted one is counted. -/
def load_loop (fuel : Nat) (draws : Nat → LoadDraw) :
    Nat → List Record → SkipList → Nat → Option (SkipList × Nat)
  | _, [], list, records_read => some (list, records_read)
  | i, r :: rest, list, records_read =>
    if (draws i).record_ok then
      match insert_skiplist fuel (some list) r.id (some r) (draws i).coins (draws i).node_ok with
      | some (ret, some list1) =>
        load_loop fuel draws (i + 1) rest list1 (if ret = 0 then records_read else records_read + 1)
      | _ => none
    else some (list, records_read)

/-- The function `load_database`: `file` is `none` when `fopen` fails,
`list_ok` tells whether `create_skiplist` gets its memory.  The result is the
returned list pointer and the final value of `records_read`; the record count
at the head of the file is read and not used. -/
def load_database (fuel : Nat) (file : Option Snapshot) (list_ok : Bool)
    (draws : Nat → LoadDraw) : Option (Option SkipList × Nat) :=
  match file with
  | none => some (create_skiplist list_ok, 0)
  | some f =>
    match create_skiplist list_ok with
    | none => some (none, 0)
    | some list =>
      match load_loop fuel draws 0 f.records list 0 with
      | none => none
      | some (l, records_read) => some (some l, records_read)

/-- The sequence of pairs after loading the records `recs` on top of `ps`: a
record with a negative id or an id already present is skipped, any other is
put at its sorted position under its id. -/
def load_pairs : List (Int × Option Record) → List Record → List (Int × Option Record)
  | ps, [] => ps
  | ps, r :: rest =>
    load_pairs (if r.id < 0 ∨ r.id ∈ ps.map Prod.fst then ps
                else insert_pair r.id (some r) ps) rest

/-- An insert that stores its record under the record's own id, as every
caller of the engine in this repository does (`insert_skiplist(list, rec->id, rec)`);
a delete, or an insert of `NULL`, counts as such. -/
def Op.keyed : Op → Bool
  | Op.insert key (some r) _ _ => decide (r.id = key)
  | _ => true

/-- Every pair carries a record whose id is the key. -/
def Keyed (ps : List (Int × Option Record)) : Prop :=
  ∀ p ∈ ps, ∃ r, p.2 = some r ∧ r.id = p.1

/-- The calls that insert the pairs `ps` one after the other, in that order,
the `i`-th with the coin flips `cs i` and a successful allocation. -/
def rebuild_ops (cs : Nat → Nat → Bool) : Nat → List (Int × Option Record) → List Op
  | _, [] => []
  | i, p :: rest => Op.insert p.1 p.2 (cs i) true :: rebuild_ops cs (i + 1) rest

/-- Draws for a load in which every allocation succeeds. -/
def draws_ok (cs : Nat → Nat → Bool) (i : Nat) : LoadDraw :=
  { record_ok := true, coins := cs i, node_ok := true }

/-! ## `record.c` -/

/-- The constant `MAX_NAME_LEN` of `record.h`. -/
def MAX_NAME_LEN : Nat := 64

/-- The C string held in the bytes `src`: the bytes before the first NUL (or
before the end of `src`, which stands for the terminating NUL). -/
def c_string (src : List Nat) : List Nat :=
  src.takeWhile (fun c => decide (c ≠ 0))

/-- The `n` bytes that `strncpy(dest, src, n)` writes to `dest`: the bytes of
`src` up to its terminating NUL, at most `n` of them, then NUL bytes up to `n`
bytes in all. -/
def strncpy (src : List Nat) : Nat → List Nat
  | 0 => []
  | n + 1 =>
    match src with
    | [] => List.replicate (n + 1) 0
    | c :: rest => if c = 0 then List.replicate (n + 1) 0 else c :: strncpy rest n

/-- The function `create_record`: `none` is the `NULL` returned when `malloc`
fails.  The field `name` is the array of `MAX_NAME_LEN` bytes: its first
`MAX_NAME_LEN - 1` bytes are written by `strncpy`, its last by
`rec->name[MAX_NAME_LEN - 1] = 0`. -/
def create_record (alloc_ok : Bool) (id : Int) (name : List Nat) (value : Nat) :
    Option Record :=
  if alloc_ok then
    some { id := id, name := strncpy name (MAX_NAME_LEN - 1) ++ [0], value := value }
  else none

/-! ## `main.c`: the commands `add` and `del` -/

/-- A call of the engine made by the command interpreter. -/
inductive EngineCall where
  | insert (key : Int)
  | delete (key : Int)
deriving DecidableEq, Repr

/-- The branch `add` of the command loop of `main`, after `sscanf` has read
`items_scanned` items into `id`, `name` and `value`: the engine calls it makes
and the list afterwards. -/
def command_add (fuel : Nat) (db_list : SkipList) (items_scanned : Nat) (id : Int)
    (name : List Nat) (value : Nat) (record_ok : Bool) (coins : Nat → Bool) (node_ok : Bool) :
    Option (List EngineCall × SkipList) :=
  if items_scanned = 3 then
    if id < 0 then some ([], db_list)
    else
      match create_record record_ok id name value with
      | none => some ([], db_list)
      | some new_rec =>
        match insert_skiplist fuel (some db_list) id (some new_rec) coins node_ok with
        | some (_, some l) => some ([EngineCall.insert id], l)
        | _ => none
  else some ([], db_list)

/-- The branch `del` of the command loop of `main`, after `sscanf` has read
`items_scanned` items into `id`. -/
def command_del (fuel : Nat) (db_list : SkipList) (items_scanned : Nat) (id : Int) :
    Option (List EngineCall × SkipList) :=
  if items_scanned = 1 then
    match delete_skiplist fuel (some db_list) id with
    | some (_, some l) => some ([EngineCall.delete id], l)
    | _ => none
  else some ([], db_list)

/-! ## Observers for the claims on the descent and on deletion -/

/-- The structure a search relies on, and no more: every node of the level-0
chain `ns` has a level not above the level of the list, keys strictly increase
along `ns`, and at every level up to the level of the list the chain from the
header consists of the nodes of `ns` of at least that level, in the same
order. -/
def Linked (s : SkipList) (ns : List Nat) : Prop :=
  (∀ a ∈ ns, levelOf s.mem a ≤ s.level) ∧
  ns.Pairwise (fun a b => keyOf s.mem a < keyOf s.mem b) ∧
  ∀ i, i ≤ s.level → seg s.mem i s.header (atLevel s.mem i ns) none

instance Linked_decidable (s : SkipList) (ns : List Nat) : Decidable (Linked s ns) := by
  unfold Linked
  infer_instance

/-- The loop `for (int i = 0; i <= current->level; i++)` of `delete_skiplist`
once more, returning the value the guard `update[i]->forward[i] == current`
takes at each iteration instead of the heap. -/
def unlink_guards (current : Nat) (update : List (Option Nat)) :
    Nat → Nat → Heap → Option (List Bool)
  | _, 0, _ => some []
  | i, cnt + 1, mem =>
    match update[i]? with
    | some (some p) =>
      match fwd mem p i with
      | none => none
      | some q =>
        if q = some current then
          match fwd mem current i with
          | none => none
          | some r =>
            match setFwd mem p i r with
            | none => none
            | some mem1 =>
              (unlink_guards current update (i + 1) cnt mem1).map (fun t => true :: t)
        else (unlink_guards current update (i + 1) cnt mem).map (fun t => false :: t)
    | _ => none

/-! ## Sequences of calls with searches -/

/-- A call of the engine without the coin flips of its insert: what the caller
chooses. -/
inductive Call where
  | insert (key : Int) (value : Option Record)
  | delete (key : Int)
  | search (key : Int)
deriving DecidableEq, Repr

/-- What a call returns: the `int` of an insert or delete, the `Record *` of a
search. -/
inductive Outcome where
  | code (r : Int)
  | found (v : Option Record)
deriving DecidableEq, Repr

/-- What is observed after a call: what it returned, the `size` of the list
and its level-0 sequence of pairs. -/
structure Observation where
  outcome : Outcome
  size : Nat
  pairs : List (Int × Option Record)
deriving DecidableEq, Repr

/-- One call on `s`, the insert with the coin flips `coins` and a successful
allocation: what it returns and the list afterwards. -/
def call_step (fuel : Nat) (coins : Nat → Bool) (s : SkipList) :
    Call → Option (Outcome × SkipList)
  | Call.insert key value =>
    match insert_skiplist fuel (some s) key value coins true with
    | some (r, some s1) => some (Outcome.code r, s1)
    | _ => none
  | Call.delete key =>
    match delete_skiplist fuel (some s) key with
    | some (r, some s1) => some (Outcome.code r, s1)
    | _ => none
  | Call.search key =>
    match search_skiplist fuel (some s) key with
    | some v => some (Outcome.found v, s)
    | none => none

/-- The calls `calls` made one after the other on `s`, the `i`-th call of the
run drawing the coin flips `cs i`: the observation after each call. -/
def run_calls (fuel : Nat) (cs : Nat → Nat → Bool) :
    Nat → SkipList → List Call → Option (List Observation)
  | _, _, [] => some []
  | i, s, c :: rest =>
    match call_step fuel (cs i) s c with
    | none => none
    | some (out, s1) =>
      match traverse fuel s1 with
      | none => none
      | some ps =>
        match run_calls fuel cs (i + 1) s1 rest with
        | none => none
        | some obs => some ({ outcome := out, size := s1.size, pairs := ps } :: obs)

/-- The observations of a sequence of calls, computed on the sequence of
pairs alone. -/
def abstract_calls : List (Int × Option Record) → List Call → List Observation
  | _, [] => []
  | ps, Call.insert key value :: rest =>
    { outcome := Outcome.code (abstract_step ps (Op.insert key value (fun _ => false) true)).1,
      size := (abstract_step ps (Op.insert key value (fun _ => false) true)).2.length,
      pairs := (abstract_step ps (Op.insert key value (fun _ => false) true)).2 }
      :: abstract_calls (abstract_step ps (Op.insert key value (fun _ => false) true)).2 rest
  | ps, Call.delete key :: rest =>
    { outcome := Outcome.code (abstract_step ps (Op.delete key)).1,
      size := (abstract_step ps (Op.delete key)).2.length,
      pairs := (abstract_step ps (Op.delete key)).2 }
      :: abstract_calls (abstract_step ps (Op.delete key)).2 rest
  | ps, Call.search key :: rest =>
    { outcome := Outcome.found (lookup ps key), size := ps.length, pairs := ps }
      :: abstract_calls ps rest

/-! ## `test.c`: `shuffle_ids` -/

/-- The three assignments `temp = array[i]; array[i] = array[j]; array[j] = temp;`:
`none` when an index is outside the array. -/
def swap_cells (array : List Int) (i j : Nat) : Option (List Int) :=
  match array[i]?, array[j]? with
  | some x, some y => some ((array.set i y).set j x)
  | _, _ => none

/-- The loop `for (size_t i = n - 1; i > 0; i--)` of `shuffle_ids`, entered with
`i = m` (so `m` iterations are left); `draws k` is the value of the `k`-th call
of `rand()`. -/
def shuffle_loop (draws : Nat → Nat) : Nat → Nat → List Int → Option (List Int)
  | 0, _, array => some array
  | m + 1, k, array =>
    match swap_cells array (m + 1) (draws k % (m + 1 + 1)) with
    | none => none
    | some array1 => shuffle_loop draws m (k + 1) array1

/-- The function `shuffle_ids(array, n)`. -/
def shuffle_ids (draws : Nat → Nat) (array : List Int) (n : Nat) : Option (List Int) :=
  if n > 1 then shuffle_loop draws (n - 1) 0 array else some array

/-! ## A worked example -/

/-- A record with the given id. -/
def demo_record (id : Int) : Record := { id := id, name := [], value := 0 }

/-- Four inserts, of the keys 5, 1, 9, 3, drawing the levels 1, 0, 2, 0. -/
def demo_ops : List Op :=
  [Op.insert 5 (some (demo_record 5)) (fun n => decide (n < 1)) true,
   Op.insert 1 (some (demo_record 1)) (fun _ => false) true,
   Op.insert 9 (some (demo_record 9)) (fun n => decide (n < 2)) true,
   Op.insert 3 (some (demo_record 3)) (fun _ => false) true]

/-- The calls of `demo_ops` with the values they return. -/
def demo_trace : List (Op × Int) := demo_ops.map (fun op => (op, 1))

/-- The list built by `demo_ops`: header at address 0, then the nodes of the
keys 5, 1, 9, 3 at the addresses 1, 2, 3, 4. -/
def demo_list : SkipList :=
  { mem := [some (SkipListNode.mk (-1) none 31
              ([some 2, some 1, some 3] ++ List.replicate 29 none)),
            some (SkipListNode.mk 5 (some (demo_record 5)) 1 [some 3, some 3]),
            some (SkipListNode.mk 1 (some (demo_record 1)) 0 [some 4]),
            some (SkipListNode.mk 9 (some (demo_record 9)) 2 [none, none, none]),
            some (SkipListNode.mk 3 (some (demo_record 3)) 0 [some 1])],
    header := 0, level := 2, size := 4 }

/-- The level-0 chain of `demo_list`. -/
def demo_chain : List Nat := [2, 4, 1, 3]

/-- A fresh list. -/
def fresh_list : SkipList :=
  { mem := [some (SkipListNode.mk (-1) none 31 (List.replicate 32 none))],
    header := 0, level := 0, size := 0 }

/-- The bytes of `DB_FILENAME` of `main.c`, `"crud_database.bin"`. -/
def DB_FILENAME : List Nat :=
  [99, 114, 117, 100, 95, 100, 97, 116, 97, 98, 97, 115, 101, 46, 98, 105, 110]

/-- One insert that stores under the key 5 a record whose id is 7. -/
def foreign_ops : List Op :=
  [Op.insert 5 (some (demo_record 7)) (fun _ => false) true]

/-- The list built by `foreign_ops`. -/
def foreign_list : SkipList :=
  { mem := [some (SkipListNode.mk (-1) none 31 ([some 1] ++ List.replicate 31 none)),
            some (SkipListNode.mk 5 (some (demo_record 7)) 0 [none])],
    header := 0, level := 0, size := 1 }

/-! ## Heap reads and writes -/

theorem nodeAt_lt {mem : Heap} {p : Nat} {n : SkipListNode} (h : nodeAt mem p = some n) :
    p < mem.length := by
  unfold nodeAt at h
  by_contra hlt
  rw [List.getElem?_eq_none (by omega)] at h
  simp at h

theorem nodeAt_eq_getElem {mem : Heap} {p : Nat} {n : SkipListNode} (h : nodeAt mem p = some n) :
    mem[p]? = some (some n) := by
  unfold nodeAt at h
  cases hm : mem[p]? with
  | none => rw [hm] at h; simp at h
  | some c => rw [hm] at h; simp at h; rw [h]

theorem nodeAt_append_left (mem : Heap) (c : Option SkipListNode) {p : Nat} (h : p < mem.length) :
    nodeAt (mem ++ [c]) p = nodeAt mem p := by
  unfold nodeAt
  rw [List.getElem?_append_left h]

theorem nodeAt_append_new (mem : Heap) (c : Option SkipListNode) :
    nodeAt (mem ++ [c]) mem.length = c := by
  unfold nodeAt
  simp

theorem nodeAt_set (mem : Heap) (p x : Nat) (c : Option SkipListNode) (hp : p < mem.length) :
    nodeAt (mem.set p c) x = if x = p then c else nodeAt mem x := by
  unfold nodeAt
  by_cases hx : x = p
  · subst hx
    simp [List.getElem?_set_self, hp]
  · simp [hx, List.getElem?_set_ne (Ne.symm hx)]

theorem nodeAt_set_ne (mem : Heap) {p x : Nat} (c : Option SkipListNode) (hx : x ≠ p) :
    nodeAt (mem.set p c) x = nodeAt mem x := by
  unfold nodeAt
  rw [List.getElem?_set_ne (Ne.symm hx)]

theorem fwd_eq_some {mem : Heap} {p i : Nat} {q : Option Nat} (h : fwd mem p i = some q) :
    ∃ n, nodeAt mem p = some n ∧ n.forward[i]? = some q := by
  unfold fwd at h
  cases hn : nodeAt mem p with
  | none => rw [hn] at h; simp at h
  | some n => rw [hn] at h; exact ⟨n, rfl, by simpa using h⟩

theorem fwd_of_nodeAt {mem : Heap} {p : Nat} {n : SkipListNode} (h : nodeAt mem p = some n)
    (i : Nat) : fwd mem p i = n.forward[i]? := by
  unfold fwd
  rw [h]
  rfl

theorem setFwd_eq {mem : Heap} {p i : Nat} {n : SkipListNode} (q : Option Nat)
    (h : nodeAt mem p = some n) (hi : i < n.forward.length) :
    setFwd mem p i q = some (mem.set p (some { n with forward := n.forward.set i q })) := by
  unfold setFwd
  rw [h]
  simp [hi]

theorem setFwd_some {mem mem1 : Heap} {p i : Nat} {q : Option Nat}
    (h : setFwd mem p i q = some mem1) :
    ∃ n, nodeAt mem p = some n ∧ i < n.forward.length ∧
      mem1 = mem.set p (some { n with forward := n.forward.set i q }) := by
  unfold setFwd at h
  cases hn : nodeAt mem p with
  | none => rw [hn] at h; simp at h
  | some n =>
    rw [hn] at h
    by_cases hi : i < n.forward.length
    · simp [hi] at h
      exact ⟨n, rfl, hi, h.symm⟩
    · simp [hi] at h

theorem setFwd_of_fwd {mem : Heap} {p i : Nat} {e : Option Nat} (q : Option Nat)
    (h : fwd mem p i = some e) : ∃ mem1, setFwd mem p i q = some mem1 := by
  obtain ⟨n, hn, hf⟩ := fwd_eq_some h
  have hi : i < n.forward.length := by
    by_contra hlt
    rw [List.getElem?_eq_none (by omega)] at hf
    simp at hf
  exact ⟨_, setFwd_eq q hn hi⟩

theorem setFwd_length {mem mem1 : Heap} {p i : Nat} {q : Option Nat}
    (h : setFwd mem p i q = some mem1) : mem1.length = mem.length := by
  obtain ⟨n, _, _, rfl⟩ := setFwd_some h
  simp

theorem nodeAt_setFwd {mem mem1 : Heap} {p i : Nat} {q : Option Nat}
    (h : setFwd mem p i q = some mem1) (x : Nat) :
    nodeAt mem1 x =
      (nodeAt mem x).map (fun n => if x = p then { n with forward := n.forward.set i q } else n) := by
  obtain ⟨n, hn, _, rfl⟩ := setFwd_some h
  by_cases hx : x = p
  · subst hx
    rw [nodeAt_set _ _ _ _ (nodeAt_lt hn), hn]
    simp
  · rw [nodeAt_set_ne _ _ hx]
    simp [hx]

theorem fwd_setFwd {mem mem1 : Heap} {p i : Nat} {q : Option Nat}
    (h : setFwd mem p i q = some mem1) (x j : Nat) :
    fwd mem1 x j = if x = p ∧ j = i then some q else fwd mem x j := by
  obtain ⟨n, hn, hi, _⟩ := setFwd_some h
  unfold fwd
  rw [nodeAt_setFwd h x]
  by_cases hx : x = p
  · subst hx
    rw [hn]
    by_cases hj : j = i
    · subst hj
      simp [List.getElem?_set_self, hi]
    · simp [hj, List.getElem?_set_ne (Ne.symm hj)]
  · cases hnx : nodeAt mem x <;> simp [hx]

theorem keyOf_setFwd {mem mem1 : Heap} {p i : Nat} {q : Option Nat}
    (h : setFwd mem p i q = some mem1) : keyOf mem1 = keyOf mem := by
  funext x
  unfold keyOf
  rw [nodeAt_setFwd h x]
  cases hnx : nodeAt mem x <;> simp
  split <;> rfl

theorem valueOf_setFwd {mem mem1 : Heap} {p i : Nat} {q : Option Nat}
    (h : setFwd mem p i q = some mem1) : valueOf mem1 = valueOf mem := by
  funext x
  unfold valueOf
  rw [nodeAt_setFwd h x]
  cases hnx : nodeAt mem x <;> simp
  split <;> rfl

theorem levelOf_setFwd {mem mem1 : Heap} {p i : Nat} {q : Option Nat}
    (h : setFwd mem p i q = some mem1) : levelOf mem1 = levelOf mem := by
  funext x
  unfold levelOf
  rw [nodeAt_setFwd h x]
  cases hnx : nodeAt mem x <;> simp
  split <;> rfl

theorem shape_setFwd {mem mem1 : Heap} {p i : Nat} {q : Option Nat}
    (h : setFwd mem p i q = some mem1) : shape mem1 = shape mem := by
  funext x
  unfold shape
  rw [nodeAt_setFwd h x]
  cases hnx : nodeAt mem x <;> simp
  split <;> simp

theorem keyOf_of_shape {mem mem1 : Heap} {x : Nat} (h : shape mem1 x = shape mem x) :
    keyOf mem1 x = keyOf mem x := by
  unfold shape at h
  unfold keyOf
  cases h1 : nodeAt mem1 x <;> cases h2 : nodeAt mem x <;> simp_all

theorem valueOf_of_shape {mem mem1 : Heap} {x : Nat} (h : shape mem1 x = shape mem x) :
    valueOf mem1 x = valueOf mem x := by
  unfold shape at h
  unfold valueOf
  cases h1 : nodeAt mem1 x <;> cases h2 : nodeAt mem x <;> simp_all

theorem levelOf_of_shape {mem mem1 : Heap} {x : Nat} (h : shape mem1 x = shape mem x) :
    levelOf mem1 x = levelOf mem x := by
  unfold shape at h
  unfold levelOf
  cases h1 : nodeAt mem1 x <;> cases h2 : nodeAt mem x <;> simp_all

theorem nodeAt_of_shape {mem mem1 : Heap} {x : Nat} {n : SkipListNode}
    (h : shape mem1 x = shape mem x) (hn : nodeAt mem x = some n) :
    ∃ n1, nodeAt mem1 x = some n1 ∧ n1.key = n.key ∧ n1.value = n.value ∧
      n1.level = n.level ∧ n1.forward.length = n.forward.length := by
  unfold shape at h
  rw [hn] at h
  cases h1 : nodeAt mem1 x with
  | none => rw [h1] at h; simp at h
  | some n1 =>
    rw [h1] at h
    simp at h
    exact ⟨n1, rfl, h.1, h.2.1, h.2.2.1, h.2.2.2⟩

theorem keyOf_eq {mem : Heap} {x : Nat} {n : SkipListNode} (h : nodeAt mem x = some n) :
    keyOf mem x = n.key := by
  unfold keyOf; rw [h]

theorem valueOf_eq {mem : Heap} {x : Nat} {n : SkipListNode} (h : nodeAt mem x = some n) :
    valueOf mem x = n.value := by
  unfold valueOf; rw [h]

theorem levelOf_eq {mem : Heap} {x : Nat} {n : SkipListNode} (h : nodeAt mem x = some n) :
    levelOf mem x = n.level := by
  unfold levelOf; rw [h]

/-! ## Segments of a level -/

theorem lastFrom_mem : ∀ (l : List Nat) (a : Nat), lastFrom a l ∈ a :: l
  | [], a => by simp [lastFrom]
  | b :: l, a => by
    simp only [lastFrom]
    exact List.mem_cons_of_mem _ (lastFrom_mem l b)

theorem lastFrom_append : ∀ (l1 l2 : List Nat) (a : Nat),
    lastFrom a (l1 ++ l2) = lastFrom (lastFrom a l1) l2
  | [], l2, a => by simp [lastFrom]
  | b :: l1, l2, a => by
    simp only [List.cons_append, lastFrom]
    exact lastFrom_append l1 l2 b

theorem lastFrom_cons_mem : ∀ (l : List Nat) (a b : Nat), lastFrom a (b :: l) ∈ b :: l
  | l, _, b => by
    simp only [lastFrom]
    exact lastFrom_mem l b

theorem seg_congr {mem mem1 : Heap} {i : Nat} :
    ∀ (l : List Nat) (a : Nat) (e : Option Nat),
      (∀ x ∈ a :: l, fwd mem1 x i = fwd mem x i) → seg mem i a l e → seg mem1 i a l e
  | [], a, e, hf, h => by
    unfold seg at *
    rw [hf a (by simp)]; exact h
  | b :: l, a, e, hf, h => by
    unfold seg at *
    refine ⟨by rw [hf a (by simp)]; exact h.1, ?_⟩
    exact seg_congr l b e (fun x hx => hf x (List.mem_cons_of_mem _ hx)) h.2

theorem seg_suffix {mem : Heap} {i : Nat} :
    ∀ (l1 : List Nat) (a : Nat) (l2 : List Nat) (e : Option Nat),
      seg mem i a (l1 ++ l2) e → seg mem i (lastFrom a l1) l2 e
  | [], a, l2, e, h => by simpa using h
  | b :: l1, a, l2, e, h => by
    simp only [List.cons_append, seg] at h
    exact seg_suffix l1 b l2 e h.2

theorem seg_live {mem : Heap} {i : Nat} :
    ∀ (l : List Nat) (a : Nat) (e : Option Nat), seg mem i a l e →
      ∀ x ∈ a :: l, ∃ q, fwd mem x i = some q
  | [], a, e, h, x, hx => by
    simp at hx; subst hx
    exact ⟨e, h⟩
  | b :: l, a, e, h, x, hx => by
    simp only [seg] at h
    rcases List.mem_cons.1 hx with rfl | hx
    · exact ⟨_, h.1⟩
    · exact seg_live l b e h.2 x hx

/-- The link out of the last node of a first part of a segment is the head of
the rest. -/
theorem seg_last_link {mem : Heap} {i : Nat} (l1 : List Nat) (a : Nat) (l2 : List Nat)
    (e : Option Nat) (h : seg mem i a (l1 ++ l2) e) :
    fwd mem (lastFrom a l1) i = some (match l2 with | [] => e | b :: _ => some b) := by
  have := seg_suffix l1 a l2 e h
  cases l2 with
  | nil => simpa [seg] using this
  | cons b l2 => simp only [seg] at this; exact this.1

theorem seg_insert {mem mem1 : Heap} {i c : Nat} :
    ∀ (l1 : List Nat) (a : Nat) (l2 : List Nat) (e : Option Nat),
      seg mem i a (l1 ++ l2) e → (a :: (l1 ++ l2)).Nodup → c ∉ a :: (l1 ++ l2) →
      fwd mem1 c i = fwd mem (lastFrom a l1) i →
      fwd mem1 (lastFrom a l1) i = some (some c) →
      (∀ x ∈ a :: (l1 ++ l2), x ≠ lastFrom a l1 → fwd mem1 x i = fwd mem x i) →
      seg mem1 i a (l1 ++ c :: l2) e
  | [], a, l2, e, h, hnd, hc, h1, h2, h3 => by
    simp only [List.nil_append, lastFrom] at *
    simp only [seg]
    refine ⟨h2, ?_⟩
    cases l2 with
    | nil =>
      simp only [seg] at *
      rw [h1]; exact h
    | cons b l2 =>
      simp only [seg] at *
      refine ⟨by rw [h1]; exact h.1, ?_⟩
      refine seg_congr l2 b e (fun x hx => h3 x (List.mem_cons_of_mem _ hx) ?_) h.2
      rintro rfl; exact (List.nodup_cons.1 hnd).1 hx
  | b :: l1, a, l2, e, h, hnd, hc, h1, h2, h3 => by
    simp only [List.cons_append, seg, lastFrom] at *
    have hlast : lastFrom b l1 ∈ b :: (l1 ++ l2) := by
      rcases List.mem_cons.1 (lastFrom_mem l1 b) with h0 | h0
      · rw [h0]; simp
      · exact List.mem_cons_of_mem _ (List.mem_append_left _ h0)
    refine ⟨?_, seg_insert l1 b l2 e h.2 (List.nodup_cons.1 hnd).2 ?_ h1 h2
      (fun x hx => h3 x (List.mem_cons_of_mem _ hx))⟩
    · rw [h3 a (by simp) ?_]
      · exact h.1
      · rintro rfl; exact (List.nodup_cons.1 hnd).1 hlast
    · intro hcm; exact hc (List.mem_cons_of_mem _ hcm)

theorem seg_remove {mem mem1 : Heap} {i c : Nat} :
    ∀ (l1 : List Nat) (a : Nat) (l2 : List Nat) (e : Option Nat),
      seg mem i a (l1 ++ c :: l2) e → (a :: (l1 ++ c :: l2)).Nodup →
      fwd mem1 (lastFrom a l1) i = fwd mem c i →
      (∀ x ∈ a :: (l1 ++ l2), x ≠ lastFrom a l1 → fwd mem1 x i = fwd mem x i) →
      seg mem1 i a (l1 ++ l2) e
  | [], a, l2, e, h, hnd, h1, h3 => by
    simp only [List.nil_append, lastFrom, seg] at *
    have hac : ∀ x ∈ l2, x ≠ a := by
      rintro x hx rfl
      exact (List.nodup_cons.1 hnd).1 (List.mem_cons_of_mem _ hx)
    cases l2 with
    | nil =>
      simp only [seg] at *
      rw [h1]; exact h.2
    | cons b l2 =>
      simp only [seg] at *
      refine ⟨by rw [h1]; exact h.2.1, ?_⟩
      exact seg_congr l2 b e (fun x hx => h3 x (List.mem_cons_of_mem _ hx) (hac x hx)) h.2.2
  | b :: l1, a, l2, e, h, hnd, h1, h3 => by
    simp only [List.cons_append, seg, lastFrom] at *
    have hlast : lastFrom b l1 ∈ b :: (l1 ++ c :: l2) := by
      rcases List.mem_cons.1 (lastFrom_mem l1 b) with h0 | h0
      · rw [h0]; simp
      · exact List.mem_cons_of_mem _ (List.mem_append_left _ h0)
    refine ⟨?_, seg_remove l1 b l2 e h.2 (List.nodup_cons.1 hnd).2 h1
      (fun x hx => h3 x (List.mem_cons_of_mem _ hx))⟩
    rw [h3 a (by simp) ?_]
    · exact h.1
    · rintro rfl; exact (List.nodup_cons.1 hnd).1 hlast

/-! ## The descent -/

theorem nodeAt_of_fwd {mem : Heap} {p i : Nat} {q : Option Nat} (h : fwd mem p i = some q) :
    ∃ n, nodeAt mem p = some n := by
  obtain ⟨n, hn, _⟩ := fwd_eq_some h
  exact ⟨n, hn⟩

theorem seg_head_node {mem : Heap} {i a : Nat} {l : List Nat} {e : Option Nat}
    (h : seg mem i a l e) : ∃ n, nodeAt mem a = some n := by
  obtain ⟨q, hq⟩ := seg_live l a e h a (by simp)
  exact nodeAt_of_fwd hq

/-- The inner loop stops at the last node whose key is below `key`. -/
theorem advance_seg {mem : Heap} {i : Nat} {key : Int} (l2 : List Nat) :
    ∀ (l1 : List Nat) (a fuel : Nat), seg mem i a (l1 ++ l2) none →
      (∀ x ∈ l1, keyOf mem x < key) → (∀ x ∈ l2, ¬ keyOf mem x < key) →
      l1.length < fuel → advance mem i key fuel a = some (lastFrom a l1)
  | [], a, fuel, h, _, h2, hf => by
    obtain ⟨f, rfl⟩ : ∃ f, fuel = f + 1 := ⟨fuel - 1, by simp at hf; omega⟩
    simp only [List.nil_append] at h
    unfold advance
    cases l2 with
    | nil =>
      simp only [seg] at h
      rw [h]; rfl
    | cons b l2 =>
      simp only [seg] at h
      obtain ⟨n, hn⟩ := seg_head_node h.2
      have hk := h2 b (by simp)
      rw [keyOf_eq hn] at hk
      rw [h.1]
      simp only [hn, hk, if_false, lastFrom]
  | b :: l1, a, fuel, h, h1, h2, hf => by
    obtain ⟨f, rfl⟩ : ∃ f, fuel = f + 1 := ⟨fuel - 1, by simp at hf; omega⟩
    simp only [List.cons_append, seg] at h
    unfold advance
    obtain ⟨n, hn⟩ := seg_head_node h.2
    have hk := h1 b (by simp)
    rw [keyOf_eq hn] at hk
    rw [h.1]
    simp only [hn, hk, if_true, lastFrom]
    exact advance_seg l2 l1 b f h.2 (fun x hx => h1 x (List.mem_cons_of_mem _ hx)) h2
      (by simp at hf; omega)

/-- Entering the inner loop at the start of a segment or at any node of its
first part gives the last node of the first part. -/
theorem advance_from {mem : Heap} {i : Nat} {key : Int} {a : Nat} {l1 l2 : List Nat}
    (h : seg mem i a (l1 ++ l2) none)
    (h1 : ∀ x ∈ l1, keyOf mem x < key) (h2 : ∀ x ∈ l2, ¬ keyOf mem x < key)
    {fuel : Nat} (hf : l1.length < fuel) {c : Nat} (hc : c = a ∨ c ∈ l1) :
    advance mem i key fuel c = some (lastFrom a l1) := by
  rcases hc with rfl | hc
  · exact advance_seg l2 l1 c fuel h h1 h2 hf
  · obtain ⟨A, B, rfl⟩ := List.append_of_mem hc
    have hs : seg mem i (lastFrom a (A ++ [c])) (B ++ l2) none := by
      apply seg_suffix (A ++ [c]) a (B ++ l2) none
      simpa using h
    have hl : lastFrom a (A ++ [c]) = c := by
      rw [lastFrom_append]; rfl
    rw [hl] at hs
    have := advance_seg l2 B c fuel hs (fun x hx => h1 x (by simp [hx])) h2
      (by simp at hf; omega)
    rw [this]
    have : A ++ c :: B = (A ++ [c]) ++ B := by simp
    rw [this, lastFrom_append, hl]

/-! ## Facts of a well-formed list -/

theorem atLevel_append (mem : Heap) (i : Nat) (l1 l2 : List Nat) :
    atLevel mem i (l1 ++ l2) = atLevel mem i l1 ++ atLevel mem i l2 := by
  unfold atLevel
  rw [List.filter_append]

theorem atLevel_zero (mem : Heap) (l : List Nat) : atLevel mem 0 l = l := by
  unfold atLevel
  simp

theorem mem_atLevel {mem : Heap} {i x : Nat} {l : List Nat} :
    x ∈ atLevel mem i l ↔ x ∈ l ∧ i ≤ levelOf mem x := by
  unfold atLevel
  simp [List.mem_filter]

theorem atLevel_sublist (mem : Heap) (i : Nat) (l : List Nat) : (atLevel mem i l).Sublist l := by
  unfold atLevel
  exact List.filter_sublist l

theorem atLevel_length_le (mem : Heap) (i : Nat) (l : List Nat) :
    (atLevel mem i l).length ≤ l.length :=
  (atLevel_sublist mem i l).length_le

theorem atLevel_eq_nil {mem : Heap} {i : Nat} {l : List Nat}
    (h : ∀ x ∈ l, levelOf mem x < i) : atLevel mem i l = [] := by
  unfold atLevel
  rw [List.filter_eq_nil_iff]
  intro x hx
  have := h x hx
  simp
  omega

theorem atLevel_congr {mem mem1 : Heap} {i : Nat} {l : List Nat}
    (h : ∀ x ∈ l, levelOf mem1 x = levelOf mem x) : atLevel mem1 i l = atLevel mem i l := by
  unfold atLevel
  apply List.filter_congr
  intro x hx
  rw [h x hx]

theorem nodeOK_iff {s : SkipList} {a : Nat} :
    nodeOK s a ↔ ∃ n, nodeAt s.mem a = some n ∧ n.forward.length = n.level + 1 ∧
      n.level ≤ s.level ∧ 0 ≤ n.key ∧ n.value ≠ none := by
  unfold nodeOK
  cases h : nodeAt s.mem a <;> simp

theorem wf_header {s : SkipList} {ns : List Nat} (h : WF s ns) :
    ∃ n, nodeAt s.mem s.header = some n ∧ n.forward.length = MAX_LEVEL := by
  have := h.2.2.1
  cases hn : nodeAt s.mem s.header with
  | none => rw [hn] at this; simp at this
  | some n => rw [hn] at this; exact ⟨n, rfl, by simpa using this⟩

theorem wf_node {s : SkipList} {ns : List Nat} (h : WF s ns) {a : Nat} (ha : a ∈ ns) :
    ∃ n, nodeAt s.mem a = some n ∧ n.forward.length = n.level + 1 ∧
      n.level ≤ s.level ∧ 0 ≤ n.key ∧ n.value ≠ none :=
  nodeOK_iff.1 (h.2.2.2.2.1 a ha)

theorem wf_seg {s : SkipList} {ns : List Nat} (h : WF s ns) {i : Nat} (hi : i < MAX_LEVEL) :
    seg s.mem i s.header (atLevel s.mem i ns) none :=
  h.2.2.2.2.2.2 i hi

theorem wf_sorted {s : SkipList} {ns : List Nat} (h : WF s ns) :
    ns.Pairwise (fun a b => keyOf s.mem a < keyOf s.mem b) :=
  h.2.2.2.2.2.1

theorem wf_nodup {s : SkipList} {ns : List Nat} (h : WF s ns) : (s.header :: ns).Nodup := by
  refine List.nodup_cons.2 ⟨h.2.2.2.1, ?_⟩
  exact (wf_sorted h).imp (fun {a b} hab => by
    intro heq; rw [heq] at hab; exact lt_irrefl _ hab)

theorem wf_level_le {s : SkipList} {ns : List Nat} (h : WF s ns) {a : Nat} (ha : a ∈ ns) :
    levelOf s.mem a ≤ s.level := by
  obtain ⟨n, hn, _, hl, _⟩ := wf_node h ha
  rw [levelOf_eq hn]; exact hl

theorem wf_lt_length {s : SkipList} {ns : List Nat} (h : WF s ns) {a : Nat}
    (ha : a ∈ s.header :: ns) : a < s.mem.length := by
  rcases List.mem_cons.1 ha with rfl | ha
  · obtain ⟨n, hn, _⟩ := wf_header h
    exact nodeAt_lt hn
  · obtain ⟨n, hn, _⟩ := wf_node h ha
    exact nodeAt_lt hn

/-- A sorted chain splits at any key into the nodes below it and the rest. -/
theorem split_at_key (mem : Heap) (key : Int) :
    ∀ (ns : List Nat), ns.Pairwise (fun a b => keyOf mem a < keyOf mem b) →
      ∃ L R, ns = L ++ R ∧ (∀ x ∈ L, keyOf mem x < key) ∧ (∀ x ∈ R, ¬ keyOf mem x < key)
  | [], _ => ⟨[], [], rfl, by simp, by simp⟩
  | a :: t, h => by
    rw [List.pairwise_cons] at h
    by_cases ha : keyOf mem a < key
    · obtain ⟨L, R, rfl, h1, h2⟩ := split_at_key mem key t h.2
      refine ⟨a :: L, R, rfl, ?_, h2⟩
      intro x hx
      rcases List.mem_cons.1 hx with rfl | hx
      · exact ha
      · exact h1 x hx
    · refine ⟨[], a :: t, rfl, by simp, ?_⟩
      intro x hx
      rcases List.mem_cons.1 hx with rfl | hx
      · exact ha
      · have := h.1 x hx
        omega

/-- The predecessor of `key` at level `j`: the last node of level at least `j`
among the nodes `L` below `key`, or the header. -/
theorem pred_mem (s : SkipList) (L : List Nat) (j : Nat) :
    lastFrom s.header (atLevel s.mem j L) = s.header ∨
      lastFrom s.header (atLevel s.mem j L) ∈ atLevel s.mem j L := by
  rcases List.mem_cons.1 (lastFrom_mem (atLevel s.mem j L) s.header) with h | h
  · exact Or.inl h
  · exact Or.inr h

theorem advance_wf {s : SkipList} {L R : List Nat} {key : Int} (h : WF s (L ++ R))
    (h1 : ∀ x ∈ L, keyOf s.mem x < key) (h2 : ∀ x ∈ R, ¬ keyOf s.mem x < key)
    {fuel : Nat} (hf : (L ++ R).length < fuel) {i : Nat} (hi : i < MAX_LEVEL) {c : Nat}
    (hc : c = s.header ∨ c ∈ atLevel s.mem i L) :
    advance s.mem i key fuel c = some (lastFrom s.header (atLevel s.mem i L)) := by
  have hs := wf_seg h hi
  rw [atLevel_append] at hs
  refine advance_from hs (fun x hx => h1 x (mem_atLevel.1 hx).1)
    (fun x hx => h2 x (mem_atLevel.1 hx).1) ?_ hc
  have := atLevel_length_le s.mem i L
  simp at hf
  omega

theorem find_update_wf {s : SkipList} {L R : List Nat} {key : Int} (h : WF s (L ++ R))
    (h1 : ∀ x ∈ L, keyOf s.mem x < key) (h2 : ∀ x ∈ R, ¬ keyOf s.mem x < key)
    {fuel : Nat} (hf : (L ++ R).length < fuel) :
    ∀ (i : Nat), i < MAX_LEVEL → ∀ (c : Nat) (upd : List (Option Nat)),
      upd.length = MAX_LEVEL → (c = s.header ∨ c ∈ atLevel s.mem i L) →
      ∃ upd1, find_update fuel s.mem key i c upd
          = some (lastFrom s.header (atLevel s.mem 0 L), upd1) ∧
        upd1.length = MAX_LEVEL ∧
        (∀ j, j ≤ i → upd1[j]? = some (some (lastFrom s.header (atLevel s.mem j L)))) ∧
        (∀ j, i < j → upd1[j]? = upd[j]?)
  | 0, hi, c, upd, hu, hc => by
    unfold find_update
    rw [advance_wf h h1 h2 hf hi hc]
    have h0 : 0 < upd.length := by rw [hu]; exact hi
    simp only [h0, if_true]
    refine ⟨_, rfl, by simp [hu], ?_, ?_⟩
    · intro j hj
      obtain rfl : j = 0 := by omega
      simp [List.getElem?_set_self, h0]
    · intro j hj
      rw [List.getElem?_set_ne (by omega)]
  | i + 1, hi, c, upd, hu, hc => by
    unfold find_update
    rw [advance_wf h h1 h2 hf hi hc]
    have h0 : i + 1 < upd.length := by rw [hu]; exact hi
    simp only [h0, if_true]
    have hc1 : lastFrom s.header (atLevel s.mem (i + 1) L) = s.header ∨
        lastFrom s.header (atLevel s.mem (i + 1) L) ∈ atLevel s.mem i L := by
      rcases pred_mem s L (i + 1) with hp | hp
      · exact Or.inl hp
      · refine Or.inr (mem_atLevel.2 ⟨(mem_atLevel.1 hp).1, ?_⟩)
        have := (mem_atLevel.1 hp).2
        omega
    obtain ⟨upd1, he, hl, ha, hb⟩ := find_update_wf h h1 h2 hf i (by omega) _
      (upd.set (i + 1) (some (lastFrom s.header (atLevel s.mem (i + 1) L)))) (by simp [hu]) hc1
    refine ⟨upd1, he, hl, ?_, ?_⟩
    · intro j hj
      by_cases hji : j ≤ i
      · exact ha j hji
      · obtain rfl : j = i + 1 := by omega
        rw [hb (i + 1) (by omega)]
        simp [List.getElem?_set_self, h0]
    · intro j hj
      rw [hb j (by omega), List.getElem?_set_ne (by omega)]

theorem search_levels_of_find_update {fuel : Nat} {mem : Heap} {key : Int} :
    ∀ (i c : Nat) (upd : List (Option Nat)) (r : Nat × List (Option Nat)),
      find_update fuel mem key i c upd = some r → search_levels fuel mem key i c = some r.1
  | 0, c, upd, r, h => by
    unfold find_update at h
    unfold search_levels
    cases ha : advance mem 0 key fuel c with
    | none => rw [ha] at h; simp at h
    | some d =>
      rw [ha] at h
      simp only at h
      split at h
      · simp at h; rw [← h]
      · simp at h
  | i + 1, c, upd, r, h => by
    unfold find_update at h
    unfold search_levels
    cases ha : advance mem (i + 1) key fuel c with
    | none => rw [ha] at h; simp at h
    | some d =>
      rw [ha] at h
      simp only at h
      split at h
      · simp only [Option.some_bind]
        exact search_levels_of_find_update i d _ r h
      · simp at h

/-! ## Search -/

theorem update_init_length : update_init.length = MAX_LEVEL := by
  simp [update_init]

theorem update_init_get {j : Nat} (hj : j < MAX_LEVEL) : update_init[j]? = some none := by
  unfold update_init
  rw [List.getElem?_replicate]
  simp [hj]

/-- The descent on a well-formed list: it ends at the level-0 predecessor of
`key`, and `update[j]` is the level-`j` predecessor for every `j ≤ level`. -/
theorem descent_wf {s : SkipList} {L R : List Nat} {key : Int} (h : WF s (L ++ R))
    (h1 : ∀ x ∈ L, keyOf s.mem x < key) (h2 : ∀ x ∈ R, ¬ keyOf s.mem x < key)
    {fuel : Nat} (hf : (L ++ R).length < fuel) :
    ∃ upd, find_update fuel s.mem key s.level s.header update_init
        = some (lastFrom s.header L, upd) ∧
      upd.length = MAX_LEVEL ∧
      (∀ j, j ≤ s.level → upd[j]? = some (some (lastFrom s.header (atLevel s.mem j L)))) ∧
      (∀ j, s.level < j → j < MAX_LEVEL → upd[j]? = some none) := by
  obtain ⟨upd, he, hl, ha, hb⟩ := find_update_wf h h1 h2 hf s.level h.1 s.header update_init
    update_init_length (Or.inl rfl)
  rw [atLevel_zero] at he
  refine ⟨upd, he, hl, ha, ?_⟩
  intro j hj hj2
  rw [hb j hj, update_init_get hj2]

/-- The level-0 link of the predecessor of `key` points at the first node whose
key is not below `key`. -/
theorem pred_link_wf {s : SkipList} {L R : List Nat} (h : WF s (L ++ R)) :
    fwd s.mem (lastFrom s.header L) 0 = some R.head? := by
  have hs := wf_seg h (i := 0) (by decide)
  rw [atLevel_zero] at hs
  have := seg_last_link L s.header R none hs
  rw [this]
  cases R <;> rfl

theorem lookup_entries (mem : Heap) (key : Int) :
    ∀ (ns : List Nat), lookup (entries mem ns) key =
      match ns.find? (fun a => decide (keyOf mem a = key)) with
      | some a => valueOf mem a
      | none => none
  | [] => rfl
  | a :: t => by
    have ih := lookup_entries mem key t
    unfold lookup entries at ih ⊢
    simp only [List.map_cons, List.find?_cons]
    by_cases hk : keyOf mem a = key
    · simp [hk]
    · simp only [hk, decide_False]
      exact ih

theorem lookup_split {mem : Heap} {L R : List Nat} {key : Int}
    (hs : (L ++ R).Pairwise (fun a b => keyOf mem a < keyOf mem b))
    (h1 : ∀ x ∈ L, keyOf mem x < key) (h2 : ∀ x ∈ R, ¬ keyOf mem x < key) :
    lookup (entries mem (L ++ R)) key = found_at mem key R := by
  rw [lookup_entries]
  have hL : L.find? (fun a => decide (keyOf mem a = key)) = none := by
    rw [List.find?_eq_none]
    intro x hx
    have := h1 x hx
    simp
    omega
  rw [List.find?_append, hL]
  cases R with
  | nil => simp [found_at]
  | cons c R =>
    simp only [Option.none_or, List.find?_cons, found_at]
    by_cases hc : keyOf mem c = key
    · simp [hc]
    · simp only [hc, decide_False, if_false]
      have hR : R.find? (fun a => decide (keyOf mem a = key)) = none := by
        rw [List.find?_eq_none]
        intro x hx
        have hcx : keyOf mem c < keyOf mem x := by
          have := (List.pairwise_append.1 hs).2.1
          exact (List.pairwise_cons.1 this).1 x hx
        have := h2 c (by simp)
        simp
        omega
      rw [hR]

theorem search_split {s : SkipList} {L R : List Nat} {key : Int} (h : WF s (L ++ R))
    (h1 : ∀ x ∈ L, keyOf s.mem x < key) (h2 : ∀ x ∈ R, ¬ keyOf s.mem x < key)
    {fuel : Nat} (hf : (L ++ R).length < fuel) :
    search_skiplist fuel (some s) key = some (found_at s.mem key R) := by
  obtain ⟨upd, he, _⟩ := descent_wf h h1 h2 hf
  have hsl := search_levels_of_find_update _ _ _ _ he
  unfold search_skiplist
  simp only [hsl, pred_link_wf h]
  cases R with
  | nil => rfl
  | cons c R =>
    obtain ⟨n, hn, _⟩ := wf_node h (a := c) (by simp)
    simp only [List.head?_cons, hn, keyOf_eq hn, valueOf_eq hn, found_at]
    split <;> rfl

/-- On a well-formed list the multi-level search returns what a plain lookup in
the level-0 chain returns. -/
theorem search_wf {s : SkipList} {ns : List Nat} (h : WF s ns) (key : Int)
    {fuel : Nat} (hf : ns.length < fuel) :
    search_skiplist fuel (some s) key = some (lookup (entries s.mem ns) key) := by
  obtain ⟨L, R, rfl, h1, h2⟩ := split_at_key s.mem key ns (wf_sorted h)
  rw [search_split h h1 h2 hf, lookup_split (wf_sorted h) h1 h2]

/-! ## Walking a level -/

theorem walk_seg {mem : Heap} {i : Nat} :
    ∀ (l : List Nat) (a fuel : Nat), seg mem i a l none → l.length ≤ fuel →
      (fwd mem a i).bind (walk mem i fuel) = some l
  | [], a, fuel, h, _ => by
    simp only [seg] at h
    rw [h]
    cases fuel <;> simp [walk]
  | b :: l, a, fuel, h, hf => by
    obtain ⟨f, rfl⟩ : ∃ f, fuel = f + 1 := ⟨fuel - 1, by simp at hf; omega⟩
    simp only [seg] at h
    rw [h.1]
    simp only [Option.some_bind, walk]
    have := walk_seg l b f h.2 (by simp at hf; omega)
    obtain ⟨q, hq⟩ := seg_live l b none h.2 b (by simp)
    rw [hq] at this ⊢
    simp only [Option.some_bind] at this
    simp [this]

theorem level_chain_wf {s : SkipList} {ns : List Nat} (h : WF s ns) {i : Nat}
    (hi : i < MAX_LEVEL) {fuel : Nat} (hf : ns.length ≤ fuel) :
    level_chain fuel s i = some (atLevel s.mem i ns) := by
  unfold level_chain
  exact walk_seg _ _ _ (wf_seg h hi) (le_trans (atLevel_length_le _ _ _) hf)

theorem traverse_wf {s : SkipList} {ns : List Nat} (h : WF s ns) {fuel : Nat}
    (hf : ns.length ≤ fuel) :
    traverse fuel s = some (entries s.mem ns) := by
  unfold traverse
  rw [level_chain_wf h (by decide) hf, atLevel_zero]
  rfl

/-! ## The loops of insert and delete -/

theorem random_level_loop_le (coins : Nat → Bool) :
    ∀ (fuel level : Nat), level ≤ MAX_LEVEL - 1 →
      random_level_loop coins fuel level ≤ MAX_LEVEL - 1
  | 0, level, h => by simpa [random_level_loop] using h
  | fuel + 1, level, h => by
    unfold random_level_loop
    split
    · rename_i hc
      simp only [Bool.and_eq_true, decide_eq_true_eq] at hc
      exact random_level_loop_le coins fuel (level + 1) (by omega)
    · exact h

theorem random_level_le (coins : Nat → Bool) : random_level coins ≤ MAX_LEVEL - 1 :=
  random_level_loop_le coins _ _ (Nat.zero_le _)

theorem raise_update_spec (header : Nat) :
    ∀ (cnt i : Nat) (upd : List (Option Nat)), i + cnt ≤ upd.length →
      ∃ upd1, raise_update header i cnt upd = some upd1 ∧ upd1.length = upd.length ∧
        (∀ j, i ≤ j → j < i + cnt → upd1[j]? = some (some header)) ∧
        (∀ j, (j < i ∨ i + cnt ≤ j) → upd1[j]? = upd[j]?)
  | 0, i, upd, _ => ⟨upd, rfl, rfl, fun j h1 h2 => by omega, fun _ _ => rfl⟩
  | cnt + 1, i, upd, h => by
    unfold raise_update
    have hi : i < upd.length := by omega
    simp only [hi, if_true]
    obtain ⟨upd1, he, hl, ha, hb⟩ := raise_update_spec header cnt (i + 1)
      (upd.set i (some header)) (by simp; omega)
    refine ⟨upd1, he, by simpa using hl, ?_, ?_⟩
    · intro j h1 h2
      by_cases hj : j = i
      · subst hj
        rw [hb j (Or.inl (by omega))]
        simp [List.getElem?_set_self, hi]
      · exact ha j (by omega) (by omega)
    · intro j hj
      rw [hb j (by omega), List.getElem?_set_ne (by omega)]

/-- The linking loop of insert, link by link: at each level `j` it handles, the
new node takes over the link of `pr j` and `pr j` is linked to the new node;
nothing else changes. -/
theorem splice_spec (c : Nat) (upd : List (Option Nat)) (pr : Nat → Nat) :
    ∀ (cnt i : Nat) (mem : Heap),
      (∀ j, i ≤ j → j < i + cnt → upd[j]? = some (some (pr j)) ∧ pr j ≠ c ∧
        (∃ e, fwd mem (pr j) j = some e) ∧ ∃ e, fwd mem c j = some e) →
      ∃ mem1, splice c upd i cnt mem = some mem1 ∧ shape mem1 = shape mem ∧
        (∀ x j, ¬ (i ≤ j ∧ j < i + cnt) → fwd mem1 x j = fwd mem x j) ∧
        (∀ j, i ≤ j → j < i + cnt →
          fwd mem1 c j = fwd mem (pr j) j ∧ fwd mem1 (pr j) j = some (some c) ∧
          ∀ x, x ≠ c → x ≠ pr j → fwd mem1 x j = fwd mem x j)
  | 0, i, mem, _ => ⟨mem, rfl, rfl, fun _ _ _ => rfl, fun j h1 h2 => by omega⟩
  | cnt + 1, i, mem, h => by
    obtain ⟨hu, hne, ⟨e, he⟩, ⟨e1, he1⟩⟩ := h i (le_refl _) (by omega)
    obtain ⟨m1, hm1⟩ := setFwd_of_fwd e he1
    have hp1 : fwd m1 (pr i) i = some e := by
      rw [fwd_setFwd hm1]; simp [hne, he]
    obtain ⟨m2, hm2⟩ := setFwd_of_fwd (some c) hp1
    have hf2 : ∀ x j, fwd m2 x j =
        if x = pr i ∧ j = i then some (some c)
        else if x = c ∧ j = i then some e else fwd mem x j := by
      intro x j
      rw [fwd_setFwd hm2, fwd_setFwd hm1]
    obtain ⟨mF, hs, hsh, ha, hb⟩ := splice_spec c upd pr cnt (i + 1) m2 (by
      intro j h1 h2
      obtain ⟨hu1, hne1, ⟨e2, he2⟩, ⟨e3, he3⟩⟩ := h j (by omega) (by omega)
      have hji : j ≠ i := by omega
      refine ⟨hu1, hne1, ⟨e2, ?_⟩, ⟨e3, ?_⟩⟩
      · rw [hf2]; simp [hji, he2]
      · rw [hf2]; simp [hji, he3])
    refine ⟨mF, ?_, ?_, ?_, ?_⟩
    · unfold splice
      simp only [hu, he, hm1, hm2]
      exact hs
    · rw [hsh, shape_setFwd hm2, shape_setFwd hm1]
    · intro x j hj
      rw [ha x j (by omega), hf2]
      have hji : j ≠ i := by omega
      simp [hji]
    · intro j h1 h2
      by_cases hji : j = i
      · subst hji
        refine ⟨?_, ?_, ?_⟩
        · rw [ha c j (by omega), hf2]
          simp [Ne.symm hne, he]
        · rw [ha (pr j) j (by omega), hf2]
          simp
        · intro x hx1 hx2
          rw [ha x j (by omega), hf2]
          simp [hx1, hx2]
      · obtain ⟨hb1, hb2, hb3⟩ := hb j (by omega) (by omega)
        refine ⟨?_, hb2, ?_⟩
        · rw [hb1, hf2]; simp [hji]
        · intro x hx1 hx2
          rw [hb3 x hx1 hx2, hf2]; simp [hji]

/-- The unlinking loop of delete, link by link: at each level `j` it handles,
`pr j`, which points at the node `c`, takes over the link of `c`; nothing else
changes. -/
theorem unlink_spec (c : Nat) (upd : List (Option Nat)) (pr : Nat → Nat) :
    ∀ (cnt i : Nat) (mem : Heap),
      (∀ j, i ≤ j → j < i + cnt → upd[j]? = some (some (pr j)) ∧ pr j ≠ c ∧
        fwd mem (pr j) j = some (some c) ∧ ∃ e, fwd mem c j = some e) →
      ∃ mem1, unlink c upd i cnt mem = some mem1 ∧ shape mem1 = shape mem ∧
        (∀ x j, ¬ (i ≤ j ∧ j < i + cnt) → fwd mem1 x j = fwd mem x j) ∧
        (∀ j, i ≤ j → j < i + cnt →
          fwd mem1 (pr j) j = fwd mem c j ∧
          ∀ x, x ≠ pr j → fwd mem1 x j = fwd mem x j)
  | 0, i, mem, _ => ⟨mem, rfl, rfl, fun _ _ _ => rfl, fun j h1 h2 => by omega⟩
  | cnt + 1, i, mem, h => by
    obtain ⟨hu, hne, hp, ⟨e1, he1⟩⟩ := h i (le_refl _) (by omega)
    obtain ⟨m1, hm1⟩ := setFwd_of_fwd e1 hp
    have hf1 : ∀ x j, fwd m1 x j = if x = pr i ∧ j = i then some e1 else fwd mem x j :=
      fun x j => fwd_setFwd hm1 x j
    obtain ⟨mF, hs, hsh, ha, hb⟩ := unlink_spec c upd pr cnt (i + 1) m1 (by
      intro j h1 h2
      obtain ⟨hu1, hne1, hp1, ⟨e3, he3⟩⟩ := h j (by omega) (by omega)
      have hji : j ≠ i := by omega
      refine ⟨hu1, hne1, ?_, ⟨e3, ?_⟩⟩
      · rw [hf1]; simp [hji, hp1]
      · rw [hf1]; simp [hji, he3])
    refine ⟨mF, ?_, ?_, ?_, ?_⟩
    · unfold unlink
      simp only [hu, hp, he1, hm1, if_true]
      exact hs
    · rw [hsh, shape_setFwd hm1]
    · intro x j hj
      rw [ha x j (by omega), hf1]
      have hji : j ≠ i := by omega
      simp [hji]
    · intro j h1 h2
      by_cases hji : j = i
      · subst hji
        refine ⟨?_, ?_⟩
        · rw [ha (pr j) j (by omega), hf1]
          simp [he1]
        · intro x hx2
          rw [ha x j (by omega), hf1]
          simp [hx2]
      · obtain ⟨hb1, hb3⟩ := hb j (by omega) (by omega)
        refine ⟨?_, ?_⟩
        · rw [hb1, hf1]; simp [hji]
        · intro x hx2
          rw [hb3 x hx2, hf1]; simp [hji]

/-- The shrinking loop of delete stops at the highest level at or below the
old one where the header has a link, or at 0. -/
theorem shrink_level_spec (mem : Heap) (header : Nat) :
    ∀ (l : Nat), (∀ j, j ≤ l → ∃ e, fwd mem header j = some e) →
      ∃ l1, shrink_level mem header l = some l1 ∧ l1 ≤ l ∧
        (l1 = 0 ∨ ∃ b, fwd mem header l1 = some (some b)) ∧
        (∀ j, l1 < j → j ≤ l → fwd mem header j = some none)
  | 0, _ => ⟨0, rfl, le_refl _, Or.inl rfl, fun j h1 h2 => by omega⟩
  | l + 1, h => by
    unfold shrink_level
    obtain ⟨e, he⟩ := h (l + 1) (le_refl _)
    rw [he]
    cases e with
    | none =>
      obtain ⟨l1, hs, hle, ht, hz⟩ := shrink_level_spec mem header l
        (fun j hj => h j (by omega))
      refine ⟨l1, hs, by omega, ht, ?_⟩
      intro j h1 h2
      by_cases hj : j = l + 1
      · subst hj; exact he
      · exact hz j h1 (by omega)
    | some b =>
      exact ⟨l + 1, rfl, le_refl _, Or.inr ⟨b, he⟩, fun j h1 h2 => by omega⟩

/-! ## Insertion keeps a list well formed -/

theorem atLevel_cons (mem : Heap) (j c : Nat) (l : List Nat) :
    atLevel mem j (c :: l) =
      if j ≤ levelOf mem c then c :: atLevel mem j l else atLevel mem j l := by
  unfold atLevel
  rw [List.filter_cons]
  by_cases h : j ≤ levelOf mem c <;> simp [h]

theorem shape_eq_some {mem : Heap} {x : Nat} {k : Int} {v : Option Record} {lv len : Nat}
    (h : shape mem x = some (k, v, lv, len)) :
    ∃ n, nodeAt mem x = some n ∧ n.key = k ∧ n.value = v ∧ n.level = lv ∧
      n.forward.length = len := by
  unfold shape at h
  cases hn : nodeAt mem x with
  | none => rw [hn] at h; simp at h
  | some n =>
    rw [hn] at h
    simp at h
    exact ⟨n, rfl, h.1, h.2.1, h.2.2.1, h.2.2.2⟩

theorem sublist_nodup_cons {a : Nat} {l l1 : List Nat} (h : (a :: l).Nodup)
    (hs : l1.Sublist l) : (a :: l1).Nodup :=
  List.Nodup.sublist (List.Sublist.cons₂ a hs) h

theorem wf_insert {s : SkipList} {L R : List Nat} {key : Int} {value : Option Record}
    (h : WF s (L ++ R))
    (h1 : ∀ x ∈ L, keyOf s.mem x < key) (h2 : ∀ x ∈ R, key < keyOf s.mem x)
    (hk : 0 ≤ key) (hv : value ≠ none) {c : Nat} (hc : c ∉ s.header :: (L ++ R))
    {lv : Nat} (hlv : lv < MAX_LEVEL) {mem1 : Heap}
    (hsh : ∀ x ∈ s.header :: (L ++ R), shape mem1 x = shape s.mem x)
    (hnew : shape mem1 c = some (key, value, lv, lv + 1))
    (hlow : ∀ j, j ≤ lv →
      fwd mem1 c j = fwd s.mem (lastFrom s.header (atLevel s.mem j L)) j ∧
      fwd mem1 (lastFrom s.header (atLevel s.mem j L)) j = some (some c) ∧
      ∀ x ∈ s.header :: (L ++ R), x ≠ lastFrom s.header (atLevel s.mem j L) →
        fwd mem1 x j = fwd s.mem x j)
    (hhigh : ∀ j, lv < j → ∀ x ∈ s.header :: (L ++ R), fwd mem1 x j = fwd s.mem x j) :
    WF { mem := mem1, header := s.header, level := max s.level lv, size := s.size + 1 }
      (L ++ c :: R) := by
  obtain ⟨nc, hnc, hck, hcv, hcl, hcf⟩ := shape_eq_some hnew
  have hkey : ∀ x ∈ L ++ R, keyOf mem1 x = keyOf s.mem x :=
    fun x hx => keyOf_of_shape (hsh x (List.mem_cons_of_mem _ hx))
  have hlev : ∀ x ∈ L ++ R, levelOf mem1 x = levelOf s.mem x :=
    fun x hx => levelOf_of_shape (hsh x (List.mem_cons_of_mem _ hx))
  have hkc : keyOf mem1 c = key := by rw [keyOf_eq hnc, hck]
  have hlc : levelOf mem1 c = lv := by rw [levelOf_eq hnc, hcl]
  have hsub : ∀ j, (atLevel s.mem j L ++ atLevel s.mem j R).Sublist (L ++ R) := by
    intro j
    rw [← atLevel_append]
    exact atLevel_sublist _ _ _
  refine ⟨?_, ?_, ?_, ?_, ?_, ?_, ?_⟩
  · show max s.level lv < MAX_LEVEL
    exact max_lt h.1 hlv
  · show s.size + 1 = (L ++ c :: R).length
    have := h.2.1
    simp at this ⊢
    omega
  · show (nodeAt mem1 s.header).map (fun h => h.forward.length) = some MAX_LEVEL
    obtain ⟨n, hn, hlen⟩ := wf_header h
    obtain ⟨n1, hn1, _, _, _, hl1⟩ := nodeAt_of_shape (hsh s.header (by simp)) hn
    rw [hn1]
    simp [hl1, hlen]
  · show s.header ∉ L ++ c :: R
    intro hm
    rcases List.mem_append.1 hm with hm | hm
    · exact h.2.2.2.1 (List.mem_append_left _ hm)
    · rcases List.mem_cons.1 hm with hm | hm
      · exact hc (by rw [← hm]; simp)
      · exact h.2.2.2.1 (List.mem_append_right _ hm)
  · intro a ha
    have hcase : a = c ∨ a ∈ L ++ R := by
      simp at ha ⊢
      tauto
    rcases hcase with rfl | ha
    · refine nodeOK_iff.2 ⟨nc, hnc, by rw [hcf, hcl], ?_, by rw [hck]; exact hk,
        by rw [hcv]; exact hv⟩
      show nc.level ≤ max s.level lv
      rw [hcl]; exact le_max_right _ _
    · obtain ⟨n, hn, hfl, hll, hkk, hvv⟩ := wf_node h ha
      obtain ⟨n1, hn1, e1, e2, e3, e4⟩ :=
        nodeAt_of_shape (hsh a (List.mem_cons_of_mem _ ha)) hn
      refine nodeOK_iff.2 ⟨n1, hn1, by rw [e4, e3]; exact hfl, ?_, by rw [e1]; exact hkk,
        by rw [e2]; exact hvv⟩
      show n1.level ≤ max s.level lv
      rw [e3]; exact le_trans hll (le_max_left _ _)
  · show (L ++ c :: R).Pairwise (fun a b => keyOf mem1 a < keyOf mem1 b)
    have hs := wf_sorted h
    rw [List.pairwise_append] at hs ⊢
    refine ⟨?_, ?_, ?_⟩
    · exact hs.1.imp_of_mem (fun {a b} ha hb hab => by
        rw [hkey a (List.mem_append_left _ ha), hkey b (List.mem_append_left _ hb)]
        exact hab)
    · rw [List.pairwise_cons]
      refine ⟨fun b hb => ?_, ?_⟩
      · rw [hkc, hkey b (List.mem_append_right _ hb)]
        exact h2 b hb
      · exact hs.2.1.imp_of_mem (fun {a b} ha hb hab => by
          rw [hkey a (List.mem_append_right _ ha), hkey b (List.mem_append_right _ hb)]
          exact hab)
    · intro a ha b hb
      rw [hkey a (List.mem_append_left _ ha)]
      rcases List.mem_cons.1 hb with rfl | hb
      · rw [hkc]; exact h1 a ha
      · rw [hkey b (List.mem_append_right _ hb)]
        exact hs.2.2 a ha b hb
  · intro j hj
    show seg mem1 j s.header (atLevel mem1 j (L ++ c :: R)) none
    have hold := wf_seg h hj
    rw [atLevel_append] at hold
    have hL : atLevel mem1 j L = atLevel s.mem j L :=
      atLevel_congr (fun x hx => hlev x (List.mem_append_left _ hx))
    have hR : atLevel mem1 j R = atLevel s.mem j R :=
      atLevel_congr (fun x hx => hlev x (List.mem_append_right _ hx))
    rw [atLevel_append, atLevel_cons, hlc, hL, hR]
    have hnd : (s.header :: (atLevel s.mem j L ++ atLevel s.mem j R)).Nodup :=
      sublist_nodup_cons (wf_nodup h) (hsub j)
    have hmem : ∀ x ∈ s.header :: (atLevel s.mem j L ++ atLevel s.mem j R),
        x ∈ s.header :: (L ++ R) := by
      intro x hx
      rcases List.mem_cons.1 hx with rfl | hx
      · simp
      · exact List.mem_cons_of_mem _ ((hsub j).subset hx)
    by_cases hjl : j ≤ lv
    · simp only [hjl, if_true]
      obtain ⟨ha, hb, hfr⟩ := hlow j hjl
      exact seg_insert _ _ _ _ hold hnd (fun hm => hc (hmem c hm)) ha hb
        (fun x hx hne => hfr x (hmem x hx) hne)
    · simp only [hjl, if_false]
      rw [← atLevel_append] at hold ⊢
      refine seg_congr _ _ _ (fun x hx => hhigh j (by omega) x ?_) hold
      rw [atLevel_append] at hx
      exact hmem x hx

theorem fwd_append_left (mem : Heap) (cell : Option SkipListNode) {x : Nat}
    (hx : x < mem.length) (j : Nat) : fwd (mem ++ [cell]) x j = fwd mem x j := by
  unfold fwd
  rw [nodeAt_append_left mem cell hx]

theorem shape_append_left (mem : Heap) (cell : Option SkipListNode) {x : Nat}
    (hx : x < mem.length) : shape (mem ++ [cell]) x = shape mem x := by
  unfold shape
  rw [nodeAt_append_left mem cell hx]

theorem wf_pred_mem {s : SkipList} (L R : List Nat) (j : Nat) :
    lastFrom s.header (atLevel s.mem j L) ∈ s.header :: (L ++ R) := by
  rcases pred_mem s L j with h | h
  · rw [h]; simp
  · exact List.mem_cons_of_mem _ (List.mem_append_left _ (mem_atLevel.1 h).1)

theorem wf_pred_live {s : SkipList} {L R : List Nat} (h : WF s (L ++ R)) {j : Nat}
    (hj : j < MAX_LEVEL) : ∃ e, fwd s.mem (lastFrom s.header (atLevel s.mem j L)) j = some e := by
  have hs := wf_seg h hj
  rw [atLevel_append] at hs
  exact ⟨_, seg_last_link _ _ _ _ hs⟩

theorem wf_pred_above {s : SkipList} {L R : List Nat} (h : WF s (L ++ R)) {j : Nat}
    (hj : s.level < j) : lastFrom s.header (atLevel s.mem j L) = s.header := by
  rw [atLevel_eq_nil]
  · rfl
  · intro x hx
    exact lt_of_le_of_lt (wf_level_le h (List.mem_append_left _ hx)) hj

theorem wf_raise_level {s : SkipList} {ns : List Nat} (h : WF s ns) {l : Nat}
    (h1 : s.level ≤ l) (h2 : l < MAX_LEVEL) : WF { s with level := l } ns := by
  refine ⟨h2, h.2.1, h.2.2.1, h.2.2.2.1, ?_, h.2.2.2.2.2.1, h.2.2.2.2.2.2⟩
  intro a ha
  obtain ⟨n, hn, e1, e2, e3, e4⟩ := wf_node h ha
  exact nodeOK_iff.2 ⟨n, hn, e1, le_trans e2 h1, e3, e4⟩

/-- The first steps of insert and delete on a well-formed list: the descent and
the read of the level-0 link of the predecessor. -/
theorem insert_dup {s : SkipList} {L R : List Nat} {key : Int} {c : Nat}
    (h : WF s (L ++ c :: R))
    (h1 : ∀ x ∈ L, keyOf s.mem x < key) (hc : keyOf s.mem c = key)
    {fuel : Nat} (hf : (L ++ c :: R).length < fuel) {value : Option Record}
    (coins : Nat → Bool) (alloc_ok : Bool) :
    insert_skiplist fuel (some s) key value coins alloc_ok = some (0, some s) := by
  have h2 : ∀ x ∈ c :: R, ¬ keyOf s.mem x < key := by
    intro x hx
    rcases List.mem_cons.1 hx with rfl | hx
    · omega
    · have := (List.pairwise_cons.1 (List.pairwise_append.1 (wf_sorted h)).2.1).1 x hx
      omega
  obtain ⟨upd, he, _⟩ := descent_wf h h1 h2 hf
  obtain ⟨n, hn, _⟩ := wf_node h (a := c) (by simp)
  have hnk : n.key = key := by rw [← keyOf_eq hn]; exact hc
  simp only [insert_skiplist]
  by_cases hvn : value = none ∨ key < 0
  · rw [if_pos hvn]
  · rw [if_neg hvn]
    simp only [he, pred_link_wf h, List.head?_cons, key_matches, hn, Option.map_some', hnk,
      decide_True]

theorem insert_new {s : SkipList} {L R : List Nat} {key : Int} (h : WF s (L ++ R))
    (h1 : ∀ x ∈ L, keyOf s.mem x < key) (h2 : ∀ x ∈ R, key < keyOf s.mem x)
    (hk : 0 ≤ key) {fuel : Nat} (hf : (L ++ R).length < fuel) {value : Option Record}
    (hv : value ≠ none) (coins : Nat → Bool) (alloc_ok : Bool) :
    (alloc_ok = false →
      insert_skiplist fuel (some s) key value coins alloc_ok
        = some (0, some { s with level := max s.level (random_level coins) })) ∧
    (alloc_ok = true →
      ∃ mem1, insert_skiplist fuel (some s) key value coins alloc_ok
          = some (1, some { mem := mem1, header := s.header,
                            level := max s.level (random_level coins), size := s.size + 1 }) ∧
        WF { mem := mem1, header := s.header,
             level := max s.level (random_level coins), size := s.size + 1 }
          (L ++ s.mem.length :: R) ∧
        (∀ x ∈ s.header :: (L ++ R), shape mem1 x = shape s.mem x) ∧
        shape mem1 s.mem.length
          = some (key, value, random_level coins, random_level coins + 1)) := by
  have h2w : ∀ x ∈ R, ¬ keyOf s.mem x < key := fun x hx => by
    have := h2 x hx
    omega
  obtain ⟨upd, he, hul, hua, hub⟩ := descent_wf h h1 h2w hf
  have hlv : random_level coins < MAX_LEVEL := by
    have := random_level_le coins
    have : 0 < MAX_LEVEL := by decide
    omega
  -- the duplicate check fails
  have hchk : key_matches s.mem R.head? key = some false := by
    cases R with
    | nil => rfl
    | cons c R =>
      obtain ⟨n, hn, _⟩ := wf_node h (a := c) (by simp)
      have := h2 c (by simp)
      rw [keyOf_eq hn] at this
      have hne : ¬ n.key = key := by omega
      simp only [List.head?_cons, key_matches, hn, Option.map_some', hne, decide_False]
  -- the update array after the optional raise
  have hraise : ∃ U,
      (if random_level coins > s.level then
          (raise_update s.header (s.level + 1) (random_level coins - s.level) upd).map
            (fun u => (u, { s with level := random_level coins }))
        else some (upd, s))
        = some (U, { s with level := max s.level (random_level coins) }) ∧
      ∀ j, j ≤ max s.level (random_level coins) →
        U[j]? = some (some (lastFrom s.header (atLevel s.mem j L))) := by
    by_cases hgt : random_level coins > s.level
    · obtain ⟨U, hr, _, ha, hb⟩ := raise_update_spec s.header (random_level coins - s.level)
        (s.level + 1) upd (by rw [hul]; omega)
      refine ⟨U, ?_, ?_⟩
      · simp only [hgt, if_true, hr, Option.map_some']
        rw [max_eq_right (le_of_lt hgt)]
      · intro j hj
        by_cases hjl : j ≤ s.level
        · rw [hb j (Or.inl (by omega)), hua j hjl]
        · rw [ha j (by omega) (by have := le_max_iff.1 hj; omega),
            wf_pred_above h (by omega)]
    · refine ⟨upd, ?_, ?_⟩
      · simp only [hgt, if_false]
        rw [max_eq_left (by omega)]
      · intro j hj
        rw [max_eq_left (by omega)] at hj
        exact hua j hj
  obtain ⟨U, hU, hUa⟩ := hraise
  have hvn : ¬ (value = none ∨ key < 0) := by
    intro hh
    rcases hh with hh | hh
    · exact hv hh
    · omega
  constructor
  · intro hal
    subst hal
    simp only [insert_skiplist, hvn, if_false, he, pred_link_wf h, hchk, hU, create_node]
    rfl
  · intro hal
    subst hal
    -- the linking loop
    obtain ⟨mem1, hs, hsh, ha, hb⟩ := splice_spec s.mem.length U
      (fun j => lastFrom s.header (atLevel s.mem j L)) (random_level coins + 1) 0
      (s.mem ++ [some { key := key, value := value, level := random_level coins,
                        forward := List.replicate (random_level coins + 1) none }])
      (by
        intro j _ hj
        have hjm : j < MAX_LEVEL := by omega
        have hpl := wf_lt_length h (wf_pred_mem (s := s) L R j)
        refine ⟨hUa j (by have := le_max_right s.level (random_level coins); omega),
          Nat.ne_of_lt hpl, ?_, ?_⟩
        · obtain ⟨e, hee⟩ := wf_pred_live h hjm
          exact ⟨e, by rw [fwd_append_left _ _ hpl]; exact hee⟩
        · refine ⟨none, ?_⟩
          unfold fwd
          rw [nodeAt_append_new]
          simp only [Option.some_bind]
          rw [List.getElem?_replicate]
          simp
          omega)
    have hlt : ∀ x ∈ s.header :: (L ++ R), x < s.mem.length := fun x hx => wf_lt_length h hx
    have hshape : ∀ x ∈ s.header :: (L ++ R), shape mem1 x = shape s.mem x := by
      intro x hx
      rw [hsh, shape_append_left _ _ (hlt x hx)]
    have hnew : shape mem1 s.mem.length
        = some (key, value, random_level coins, random_level coins + 1) := by
      rw [hsh]
      unfold shape
      rw [nodeAt_append_new]
      simp
    refine ⟨mem1, ?_, ?_, hshape, hnew⟩
    · simp only [insert_skiplist, hvn, if_false, he, pred_link_wf h, hchk, hU, create_node,
        if_true, hs]
    · refine wf_insert h h1 h2 hk hv (fun hm => ?_) hlv hshape hnew ?_ ?_
      · exact absurd (hlt _ hm) (lt_irrefl _)
      · intro j hj
        obtain ⟨b1, b2, b3⟩ := hb j (Nat.zero_le _) (by omega)
        have hpl := wf_lt_length h (wf_pred_mem (s := s) L R j)
        refine ⟨?_, b2, ?_⟩
        · rw [b1, fwd_append_left _ _ hpl]
        · intro x hx hne
          rw [b3 x (by have := hlt x hx; omega) hne, fwd_append_left _ _ (hlt x hx)]
      · intro j hj x hx
        rw [ha x j (by omega), fwd_append_left _ _ (hlt x hx)]

/-! ## Deletion keeps a list well formed -/

theorem fwd_some_iff {mem : Heap} {x j : Nat} :
    (∃ e, fwd mem x j = some e) ↔ ∃ k v lv len, shape mem x = some (k, v, lv, len) ∧ j < len := by
  unfold fwd shape
  cases hn : nodeAt mem x with
  | none => simp
  | some n =>
    simp only [Option.some_bind, Option.map_some', Option.some.injEq, Prod.mk.injEq]
    constructor
    · rintro ⟨e, he⟩
      refine ⟨_, _, _, _, ⟨rfl, rfl, rfl, rfl⟩, ?_⟩
      by_contra hlt
      rw [List.getElem?_eq_none (by omega)] at he
      simp at he
    · rintro ⟨k, v, lv, len, ⟨_, _, _, rfl⟩, hj⟩
      exact ⟨n.forward[j], by rw [List.getElem?_eq_getElem hj]⟩

theorem fwd_some_of_shape {mem mem1 : Heap} {x j : Nat} (h : shape mem1 x = shape mem x)
    (he : ∃ e, fwd mem x j = some e) : ∃ e, fwd mem1 x j = some e := by
  rw [fwd_some_iff] at he ⊢
  rw [h]; exact he

theorem fwd_free_ne (mem : Heap) {c x : Nat} (hx : x ≠ c) (j : Nat) :
    fwd (mem.set c none) x j = fwd mem x j := by
  unfold fwd
  rw [nodeAt_set_ne _ _ hx]

theorem shape_free_ne (mem : Heap) {c x : Nat} (hx : x ≠ c) :
    shape (mem.set c none) x = shape mem x := by
  unfold shape
  rw [nodeAt_set_ne _ _ hx]

theorem wf_delete {s : SkipList} {L R : List Nat} {c : Nat} (h : WF s (L ++ c :: R))
    {mem1 : Heap} {l1 : Nat}
    (hsh : ∀ x ∈ s.header :: (L ++ R), shape mem1 x = shape s.mem x)
    (hlow : ∀ j, j ≤ levelOf s.mem c →
      fwd mem1 (lastFrom s.header (atLevel s.mem j L)) j = fwd s.mem c j ∧
      ∀ x ∈ s.header :: (L ++ R), x ≠ lastFrom s.header (atLevel s.mem j L) →
        fwd mem1 x j = fwd s.mem x j)
    (hhigh : ∀ j, levelOf s.mem c < j →
      ∀ x ∈ s.header :: (L ++ R), fwd mem1 x j = fwd s.mem x j)
    (hl1 : l1 ≤ s.level)
    (hz : ∀ j, l1 < j → j ≤ s.level → fwd mem1 s.header j = some none) :
    WF { mem := mem1, header := s.header, level := l1, size := s.size - 1 } (L ++ R) := by
  have hin : ∀ x ∈ L ++ R, x ∈ L ++ c :: R := by
    intro x hx
    simp at hx ⊢
    tauto
  have hkey : ∀ x ∈ L ++ R, keyOf mem1 x = keyOf s.mem x :=
    fun x hx => keyOf_of_shape (hsh x (List.mem_cons_of_mem _ hx))
  have hlev : ∀ x ∈ L ++ R, levelOf mem1 x = levelOf s.mem x :=
    fun x hx => levelOf_of_shape (hsh x (List.mem_cons_of_mem _ hx))
  have hsegs : ∀ j, j < MAX_LEVEL → seg mem1 j s.header (atLevel mem1 j (L ++ R)) none := by
    intro j hj
    have hold := wf_seg h hj
    rw [atLevel_append, atLevel_cons] at hold
    rw [atLevel_congr hlev, atLevel_append]
    have hmem : ∀ x ∈ s.header :: (atLevel s.mem j L ++ atLevel s.mem j R),
        x ∈ s.header :: (L ++ R) := by
      intro x hx
      rcases List.mem_cons.1 hx with rfl | hx
      · simp
      · refine List.mem_cons_of_mem _ ?_
        rw [← atLevel_append] at hx
        exact (atLevel_sublist _ _ _).subset hx
    by_cases hjl : j ≤ levelOf s.mem c
    · simp only [hjl, if_true] at hold
      have hnd : (s.header :: (atLevel s.mem j L ++ c :: atLevel s.mem j R)).Nodup := by
        refine sublist_nodup_cons (wf_nodup h) ?_
        exact List.Sublist.append (atLevel_sublist _ _ _)
          (List.Sublist.cons₂ c (atLevel_sublist _ _ _))
      obtain ⟨ha, hfr⟩ := hlow j hjl
      exact seg_remove _ _ _ _ hold hnd ha (fun x hx hne => hfr x (hmem x hx) hne)
    · simp only [hjl, if_false] at hold
      exact seg_congr _ _ _ (fun x hx => hhigh j (by omega) x (hmem x hx)) hold
  refine ⟨?_, ?_, ?_, ?_, ?_, ?_, ?_⟩
  · show l1 < MAX_LEVEL
    exact lt_of_le_of_lt hl1 h.1
  · show s.size - 1 = (L ++ R).length
    have := h.2.1
    simp at this ⊢
    omega
  · show (nodeAt mem1 s.header).map (fun h => h.forward.length) = some MAX_LEVEL
    obtain ⟨n, hn, hlen⟩ := wf_header h
    obtain ⟨n1, hn1, _, _, _, hl1⟩ := nodeAt_of_shape (hsh s.header (by simp)) hn
    rw [hn1]
    simp [hl1, hlen]
  · show s.header ∉ L ++ R
    exact fun hm => h.2.2.2.1 (hin _ hm)
  · intro a ha
    obtain ⟨n, hn, hfl, hll, hkk, hvv⟩ := wf_node h (hin a ha)
    obtain ⟨n1, hn1, e1, e2, e3, e4⟩ :=
      nodeAt_of_shape (hsh a (List.mem_cons_of_mem _ ha)) hn
    refine nodeOK_iff.2 ⟨n1, hn1, by rw [e4, e3]; exact hfl, ?_, by rw [e1]; exact hkk,
      by rw [e2]; exact hvv⟩
    show n1.level ≤ l1
    by_contra hgt
    have hlt : l1 < n1.level := by omega
    have hle : n1.level ≤ s.level := by rw [e3]; exact hll
    have hseg := hsegs n1.level (lt_of_le_of_lt hle h.1)
    have hmem : a ∈ atLevel mem1 n1.level (L ++ R) :=
      mem_atLevel.2 ⟨ha, by rw [levelOf_eq hn1]⟩
    have hzz := hz n1.level hlt hle
    cases hl : atLevel mem1 n1.level (L ++ R) with
    | nil => rw [hl] at hmem; simp at hmem
    | cons b t =>
      rw [hl] at hseg
      simp only [seg] at hseg
      rw [hseg.1] at hzz
      simp at hzz
  · show (L ++ R).Pairwise (fun a b => keyOf mem1 a < keyOf mem1 b)
    have hs : (L ++ R).Pairwise (fun a b => keyOf s.mem a < keyOf s.mem b) := by
      refine List.Pairwise.sublist ?_ (wf_sorted h)
      exact List.Sublist.append (List.Sublist.refl _) (List.sublist_cons_self _ _)
    exact hs.imp_of_mem (fun {a b} ha hb hab => by
      rw [hkey a ha, hkey b hb]; exact hab)
  · exact hsegs

theorem delete_absent {s : SkipList} {L R : List Nat} {key : Int} (h : WF s (L ++ R))
    (h1 : ∀ x ∈ L, keyOf s.mem x < key) (h2 : ∀ x ∈ R, key < keyOf s.mem x)
    {fuel : Nat} (hf : (L ++ R).length < fuel) :
    delete_skiplist fuel (some s) key = some (0, some s) := by
  have h2w : ∀ x ∈ R, ¬ keyOf s.mem x < key := fun x hx => by
    have := h2 x hx
    omega
  obtain ⟨upd, he, _⟩ := descent_wf h h1 h2w hf
  simp only [delete_skiplist]
  by_cases hk : key < 0
  · rw [if_pos hk]
  · rw [if_neg hk]
    simp only [he, pred_link_wf h]
    cases R with
    | nil => rfl
    | cons c R =>
      obtain ⟨n, hn, _⟩ := wf_node h (a := c) (by simp)
      have := h2 c (by simp)
      rw [keyOf_eq hn] at this
      have hne : ¬ n.key = key := by omega
      simp only [List.head?_cons, hn, hne, if_false]

theorem delete_present {s : SkipList} {L R : List Nat} {key : Int} {c : Nat}
    (h : WF s (L ++ c :: R))
    (h1 : ∀ x ∈ L, keyOf s.mem x < key) (hc : keyOf s.mem c = key)
    {fuel : Nat} (hf : (L ++ c :: R).length < fuel) :
    ∃ mem1 l1, delete_skiplist fuel (some s) key
        = some (1, some { mem := mem1, header := s.header, level := l1, size := s.size - 1 }) ∧
      WF { mem := mem1, header := s.header, level := l1, size := s.size - 1 } (L ++ R) ∧
      (∀ x ∈ s.header :: (L ++ R), shape mem1 x = shape s.mem x) ∧
      l1 ≤ s.level ∧ (l1 = 0 ∨ ∃ b, fwd mem1 s.header l1 = some (some b)) := by
  have h2 : ∀ x ∈ c :: R, ¬ keyOf s.mem x < key := by
    intro x hx
    rcases List.mem_cons.1 hx with rfl | hx
    · omega
    · have := (List.pairwise_cons.1 (List.pairwise_append.1 (wf_sorted h)).2.1).1 x hx
      omega
  obtain ⟨upd, he, hul, hua, hub⟩ := descent_wf h h1 h2 hf
  obtain ⟨n, hn, hnf, hnl, hnk, hnv⟩ := wf_node h (a := c) (by simp)
  have hkey : n.key = key := by rw [← keyOf_eq hn]; exact hc
  have hk : ¬ key < 0 := by omega
  have hlc : levelOf s.mem c = n.level := levelOf_eq hn
  have hnd := wf_nodup h
  have hcne : ∀ x ∈ s.header :: (L ++ R), x ≠ c := by
    rintro x hx rfl
    rw [List.nodup_cons] at hnd
    rcases List.mem_cons.1 hx with hx | hx
    · exact hnd.1 (by rw [← hx]; simp)
    · have := List.nodup_append.1 hnd.2
      rcases List.mem_append.1 hx with hx | hx
      · exact this.2.2 hx (List.mem_cons_self _ _)
      · exact (List.nodup_cons.1 this.2.1).1 hx
  have hpin : ∀ j, lastFrom s.header (atLevel s.mem j L) ∈ s.header :: (L ++ R) :=
    fun j => wf_pred_mem L R j
  -- the unlinking loop
  obtain ⟨m1, hun, hsh, ha, hb⟩ := unlink_spec c upd
    (fun j => lastFrom s.header (atLevel s.mem j L)) (n.level + 1) 0 s.mem (by
      intro j _ hj
      have hjl : j ≤ n.level := by omega
      have hjm : j < MAX_LEVEL := lt_of_le_of_lt (le_trans hjl hnl) h.1
      have hs := wf_seg h hjm
      rw [atLevel_append, atLevel_cons, hlc] at hs
      simp only [hjl, if_true] at hs
      refine ⟨hua j (le_trans hjl hnl), hcne _ (hpin j), ?_, ?_⟩
      · exact seg_last_link _ _ _ _ hs
      · exact seg_live _ _ _ hs c (by simp))
  have hsh1 : ∀ x ∈ s.header :: (L ++ R), shape (m1.set c none) x = shape s.mem x := by
    intro x hx
    rw [shape_free_ne _ (hcne x hx), hsh]
  have hfw : ∀ x ∈ s.header :: (L ++ R), ∀ j, fwd (m1.set c none) x j = fwd m1 x j :=
    fun x hx j => fwd_free_ne _ (hcne x hx) j
  -- the shrinking loop
  obtain ⟨l1, hshr, hl1, htight, hzero⟩ := shrink_level_spec (m1.set c none) s.header s.level (by
    intro j hj
    refine fwd_some_of_shape (hsh1 s.header (by simp)) ?_
    obtain ⟨q, hq⟩ := seg_live _ _ _ (wf_seg h (lt_of_le_of_lt hj h.1)) s.header (by simp)
    exact ⟨q, hq⟩)
  have hsize : (if s.size = 0 then SIZE_MAX else s.size - 1) = s.size - 1 := by
    have := h.2.1
    simp at this
    rw [if_neg (by omega)]
  refine ⟨m1.set c none, l1, ?_, ?_, hsh1, hl1, htight⟩
  · simp only [delete_skiplist, hk, if_false, he, pred_link_wf h, List.head?_cons, hn, hkey,
      if_true, hun, hshr, hsize]
  · refine wf_delete h hsh1 ?_ ?_ hl1 hzero
    · intro j hj
      rw [hlc] at hj
      obtain ⟨b1, b2⟩ := hb j (Nat.zero_le _) (by omega)
      refine ⟨by rw [hfw _ (hpin j), b1], ?_⟩
      intro x hx hne
      rw [hfw x hx, b2 x hne]
    · intro j hj x hx
      rw [hlc] at hj
      rw [hfw x hx, ha x j (by omega)]

/-! ## More fuel never changes a result -/

theorem advance_mono {mem : Heap} {i : Nat} {key : Int} :
    ∀ (fuel c r : Nat), advance mem i key fuel c = some r →
      ∀ fuel1, fuel ≤ fuel1 → advance mem i key fuel1 c = some r
  | 0, c, r, h, _, _ => by simp [advance] at h
  | fuel + 1, c, r, h, fuel1, hle => by
    obtain ⟨f1, rfl⟩ : ∃ f1, fuel1 = f1 + 1 := ⟨fuel1 - 1, by omega⟩
    unfold advance at h ⊢
    cases hf : fwd mem c i with
    | none => rw [hf] at h; simp at h
    | some q =>
      rw [hf] at h
      cases q with
      | none => exact h
      | some next =>
        simp only at h ⊢
        cases hn : nodeAt mem next with
        | none => rw [hn] at h; simp at h
        | some n =>
          rw [hn] at h
          simp only at h ⊢
          by_cases hk : n.key < key
          · rw [if_pos hk] at h ⊢
            exact advance_mono fuel next r h f1 (by omega)
          · rw [if_neg hk] at h ⊢
            exact h

theorem search_levels_mono {mem : Heap} {key : Int} {fuel fuel1 : Nat} (hle : fuel ≤ fuel1) :
    ∀ (i c r : Nat), search_levels fuel mem key i c = some r →
      search_levels fuel1 mem key i c = some r
  | 0, c, r, h => by
    unfold search_levels at h ⊢
    exact advance_mono _ _ _ h _ hle
  | i + 1, c, r, h => by
    unfold search_levels at h ⊢
    cases ha : advance mem (i + 1) key fuel c with
    | none => rw [ha] at h; simp at h
    | some d =>
      rw [ha] at h
      rw [advance_mono _ _ _ ha _ hle]
      simp only [Option.some_bind] at h ⊢
      exact search_levels_mono hle i d r h

theorem find_update_mono {mem : Heap} {key : Int} {fuel fuel1 : Nat} (hle : fuel ≤ fuel1) :
    ∀ (i c : Nat) (upd : List (Option Nat)) (r : Nat × List (Option Nat)),
      find_update fuel mem key i c upd = some r → find_update fuel1 mem key i c upd = some r
  | 0, c, upd, r, h => by
    unfold find_update at h ⊢
    cases ha : advance mem 0 key fuel c with
    | none => rw [ha] at h; simp at h
    | some d =>
      rw [ha] at h
      rw [advance_mono _ _ _ ha _ hle]
      exact h
  | i + 1, c, upd, r, h => by
    unfold find_update at h ⊢
    cases ha : advance mem (i + 1) key fuel c with
    | none => rw [ha] at h; simp at h
    | some d =>
      rw [ha] at h
      rw [advance_mono _ _ _ ha _ hle]
      simp only at h ⊢
      split at h
      · rename_i hlen
        rw [if_pos hlen]
        exact find_update_mono hle i d _ r h
      · simp at h

theorem search_skiplist_mono {fuel fuel1 : Nat} (hle : fuel ≤ fuel1) (list : Option SkipList)
    (key : Int) (r : Option Record) (h : search_skiplist fuel list key = some r) :
    search_skiplist fuel1 list key = some r := by
  cases list with
  | none => exact h
  | some l =>
    simp only [search_skiplist] at h ⊢
    cases hs : search_levels fuel l.mem key l.level l.header with
    | none => rw [hs] at h; simp at h
    | some c =>
      rw [hs] at h
      rw [search_levels_mono hle _ _ _ hs]
      exact h

theorem insert_skiplist_mono {fuel fuel1 : Nat} (hle : fuel ≤ fuel1) (list : Option SkipList)
    (key : Int) (value : Option Record) (coins : Nat → Bool) (alloc_ok : Bool)
    (r : Int × Option SkipList)
    (h : insert_skiplist fuel list key value coins alloc_ok = some r) :
    insert_skiplist fuel1 list key value coins alloc_ok = some r := by
  cases list with
  | none => exact h
  | some l =>
    simp only [insert_skiplist] at h ⊢
    by_cases hv : value = none ∨ key < 0
    · rw [if_pos hv] at h ⊢
      exact h
    · rw [if_neg hv] at h ⊢
      cases hs : find_update fuel l.mem key l.level l.header update_init with
      | none => rw [hs] at h; simp at h
      | some c =>
        rw [hs] at h
        rw [find_update_mono hle _ _ _ _ hs]
        exact h

theorem delete_skiplist_mono {fuel fuel1 : Nat} (hle : fuel ≤ fuel1) (list : Option SkipList)
    (key : Int) (r : Int × Option SkipList) (h : delete_skiplist fuel list key = some r) :
    delete_skiplist fuel1 list key = some r := by
  cases list with
  | none => exact h
  | some l =>
    simp only [delete_skiplist] at h ⊢
    by_cases hv : key < 0
    · rw [if_pos hv] at h ⊢
      exact h
    · rw [if_neg hv] at h ⊢
      cases hs : find_update fuel l.mem key l.level l.header update_init with
      | none => rw [hs] at h; simp at h
      | some c =>
        rw [hs] at h
        rw [find_update_mono hle _ _ _ _ hs]
        exact h

theorem step_mono {fuel fuel1 : Nat} (hle : fuel ≤ fuel1) (list : Option SkipList) (op : Op)
    (r : Int × Option SkipList) (h : step fuel list op = some r) :
    step fuel1 list op = some r := by
  cases op with
  | insert key value coins alloc_ok => exact insert_skiplist_mono hle _ _ _ _ _ _ h
  | delete key => exact delete_skiplist_mono hle _ _ _ h

theorem run_mono {fuel fuel1 : Nat} (hle : fuel ≤ fuel1) :
    ∀ (ops : List Op) (list : Option SkipList) (r : Option SkipList × List (Op × Int)),
      run fuel list ops = some r → run fuel1 list ops = some r
  | [], list, r, h => h
  | op :: ops, list, r, h => by
    unfold run at h ⊢
    cases hs : step fuel list op with
    | none => rw [hs] at h; simp at h
    | some x =>
      obtain ⟨r1, list1⟩ := x
      rw [hs] at h
      rw [step_mono hle _ _ _ hs]
      simp only at h ⊢
      cases hr : run fuel list1 ops with
      | none => rw [hr] at h; simp at h
      | some y =>
        rw [hr] at h
        rw [run_mono hle ops list1 y hr]
        exact h

/-! ## Sequences of pairs -/

theorem entries_append (mem : Heap) (l1 l2 : List Nat) :
    entries mem (l1 ++ l2) = entries mem l1 ++ entries mem l2 := by
  unfold entries
  rw [List.map_append]

theorem entries_cons (mem : Heap) (a : Nat) (l : List Nat) :
    entries mem (a :: l) = (keyOf mem a, valueOf mem a) :: entries mem l := rfl

theorem entries_length (mem : Heap) (l : List Nat) : (entries mem l).length = l.length := by
  unfold entries
  rw [List.length_map]

theorem entries_congr {mem mem1 : Heap} {l : List Nat}
    (h : ∀ x ∈ l, shape mem1 x = shape mem x) : entries mem1 l = entries mem l := by
  unfold entries
  apply List.map_congr_left
  intro x hx
  rw [keyOf_of_shape (h x hx), valueOf_of_shape (h x hx)]

theorem mem_entries_keys {mem : Heap} {l : List Nat} {key : Int} :
    key ∈ (entries mem l).map Prod.fst ↔ ∃ a ∈ l, keyOf mem a = key := by
  unfold entries
  simp

theorem entries_keys_lt {mem : Heap} {l : List Nat} {key : Int}
    (h : ∀ x ∈ l, keyOf mem x < key) : ∀ p ∈ entries mem l, p.1 < key := by
  intro p hp
  unfold entries at hp
  obtain ⟨a, ha, rfl⟩ := List.mem_map.1 hp
  exact h a ha

theorem entries_keys_gt {mem : Heap} {l : List Nat} {key : Int}
    (h : ∀ x ∈ l, key < keyOf mem x) : ∀ p ∈ entries mem l, key < p.1 := by
  intro p hp
  unfold entries at hp
  obtain ⟨a, ha, rfl⟩ := List.mem_map.1 hp
  exact h a ha

theorem insert_pair_split (key : Int) (v : Option Record) (B : List (Int × Option Record))
    (hB : ∀ p ∈ B, key < p.1) :
    ∀ (A : List (Int × Option Record)), (∀ p ∈ A, p.1 < key) →
      insert_pair key v (A ++ B) = A ++ (key, v) :: B
  | [], _ => by
    cases B with
    | nil => rfl
    | cons p t =>
      have := hB p (by simp)
      simp [insert_pair, this]
  | a :: A, hA => by
    have ha := hA a (by simp)
    have hn : ¬ key < a.1 := by omega
    have ih := insert_pair_split key v B hB A (fun p hp => hA p (List.mem_cons_of_mem _ hp))
    show insert_pair key v (a :: (A ++ B)) = a :: (A ++ (key, v) :: B)
    rw [insert_pair, if_neg hn, ih]

theorem remove_key_split (key : Int) (v : Option Record) (A B : List (Int × Option Record))
    (hA : ∀ p ∈ A, p.1 < key) (hB : ∀ p ∈ B, key < p.1) :
    remove_key key (A ++ (key, v) :: B) = A ++ B := by
  unfold remove_key
  rw [List.filter_append, List.filter_cons]
  simp only [ne_eq, not_true_eq_false, decide_False, Bool.false_eq_true, if_false]
  rw [List.filter_eq_self.2, List.filter_eq_self.2]
  · intro p hp
    have := hB p hp
    simp
    omega
  · intro p hp
    have := hA p hp
    simp
    omega

theorem lookup_cons (p : Int × Option Record) (t : List (Int × Option Record)) (k : Int) :
    lookup (p :: t) k = if p.1 = k then p.2 else lookup t k := by
  unfold lookup
  rw [List.find?_cons]
  by_cases h : p.1 = k <;> simp [h]

theorem lookup_insert_pair (key : Int) (v : Option Record) (k : Int) :
    ∀ (ps : List (Int × Option Record)), key ∉ ps.map Prod.fst →
      lookup (insert_pair key v ps) k = if k = key then v else lookup ps k
  | [], _ => by
    simp only [insert_pair, lookup_cons]
    by_cases h : key = k
    · simp [h]
    · have : ¬ k = key := fun e => h e.symm
      simp [h, this]
  | p :: t, hn => by
    have hp : p.1 ≠ key := by
      intro e; apply hn; simp [e]
    have ht : key ∉ t.map Prod.fst := by
      intro e; apply hn; simp at e ⊢; tauto
    unfold insert_pair
    split
    · simp only [lookup_cons]
      by_cases h : key = k
      · subst h; simp
      · have : ¬ k = key := fun e => h e.symm
        simp [h, this]
    · rw [lookup_cons, lookup_cons, lookup_insert_pair key v k t ht]
      by_cases h : p.1 = k
      · have : ¬ k = key := by rw [← h]; exact hp
        simp [h, this]
      · simp [h]

theorem lookup_remove_key (key k : Int) :
    ∀ (ps : List (Int × Option Record)),
      lookup (remove_key key ps) k = if k = key then none else lookup ps k
  | [] => by simp [remove_key, lookup]
  | p :: t => by
    have ih := lookup_remove_key key k t
    unfold remove_key at ih ⊢
    rw [List.filter_cons]
    by_cases hp : p.1 = key
    · simp only [hp, ne_eq, not_true_eq_false, decide_False, Bool.false_eq_true, if_false]
      rw [ih, lookup_cons]
      by_cases h : k = key
      · simp [h]
      · have : ¬ p.1 = k := by rw [hp]; exact fun e => h e.symm
        simp [h, this]
    · simp only [hp, ne_eq, not_false_eq_true, decide_True, if_true]
      rw [lookup_cons, lookup_cons, ih]
      by_cases h : p.1 = k
      · have : ¬ k = key := by rw [← h]; exact hp
        simp [h, this]
      · simp [h]

theorem lookup_none_of_not_mem (k : Int) :
    ∀ (ps : List (Int × Option Record)), k ∉ ps.map Prod.fst → lookup ps k = none
  | [], _ => rfl
  | p :: t, hn => by
    have hp : ¬ p.1 = k := by
      intro e; apply hn; simp [e]
    rw [lookup_cons, if_neg hp]
    exact lookup_none_of_not_mem k t (by intro e; apply hn; simp at e ⊢; tauto)

/-! ## Where a key sits in a well-formed list -/

theorem split_present {s : SkipList} {ns : List Nat} (h : WF s ns) {key : Int}
    (hk : key ∈ (entries s.mem ns).map Prod.fst) :
    ∃ L c R, ns = L ++ c :: R ∧ (∀ x ∈ L, keyOf s.mem x < key) ∧ keyOf s.mem c = key := by
  obtain ⟨L, R, rfl, h1, h2⟩ := split_at_key s.mem key ns (wf_sorted h)
  obtain ⟨a, ha, hak⟩ := mem_entries_keys.1 hk
  have haR : a ∈ R := by
    rcases List.mem_append.1 ha with ha | ha
    · have := h1 a ha
      omega
    · exact ha
  cases R with
  | nil => simp at haR
  | cons c R =>
    refine ⟨L, c, R, rfl, h1, ?_⟩
    have hc := h2 c (by simp)
    rcases List.mem_cons.1 haR with rfl | haR
    · exact hak
    · have := (List.pairwise_cons.1 (List.pairwise_append.1 (wf_sorted h)).2.1).1 a haR
      omega

theorem split_absent {s : SkipList} {ns : List Nat} (h : WF s ns) {key : Int}
    (hk : key ∉ (entries s.mem ns).map Prod.fst) :
    ∃ L R, ns = L ++ R ∧ (∀ x ∈ L, keyOf s.mem x < key) ∧ ∀ x ∈ R, key < keyOf s.mem x := by
  obtain ⟨L, R, rfl, h1, h2⟩ := split_at_key s.mem key ns (wf_sorted h)
  refine ⟨L, R, rfl, h1, ?_⟩
  intro x hx
  have := h2 x hx
  have hne : keyOf s.mem x ≠ key := by
    intro e
    exact hk (mem_entries_keys.2 ⟨x, List.mem_append_right _ hx, e⟩)
  omega

theorem wf_keys_nonneg {s : SkipList} {ns : List Nat} (h : WF s ns) {key : Int}
    (hk : key ∈ (entries s.mem ns).map Prod.fst) : 0 ≤ key := by
  obtain ⟨a, ha, rfl⟩ := mem_entries_keys.1 hk
  obtain ⟨n, hn, _, _, h0, _⟩ := wf_node h ha
  rw [keyOf_eq hn]; exact h0

/-! ## The level of the list -/

theorem tight_of_link {s : SkipList} {ns : List Nat} (h : WF s ns)
    (ht : s.level = 0 ∨ ∃ b, fwd s.mem s.header s.level = some (some b)) : Tight s ns := by
  rcases ht with ht | ⟨b, hb⟩
  · exact Or.inl ht
  · right
    have hs := wf_seg h h.1
    cases hl : atLevel s.mem s.level ns with
    | nil =>
      rw [hl] at hs
      simp only [seg] at hs
      rw [hs] at hb
      simp at hb
    | cons a t =>
      have ha : a ∈ atLevel s.mem s.level ns := by rw [hl]; simp
      have := mem_atLevel.1 ha
      exact ⟨a, this.1, le_antisymm (wf_level_le h this.1) this.2⟩

theorem link_of_tight {s : SkipList} {ns : List Nat} (h : WF s ns) (ht : Tight s ns) :
    s.level = 0 ∨ ∃ b, fwd s.mem s.header s.level = some (some b) := by
  rcases ht with ht | ⟨a, ha, hal⟩
  · exact Or.inl ht
  · right
    have hs := wf_seg h h.1
    have hm : a ∈ atLevel s.mem s.level ns := mem_atLevel.2 ⟨ha, by omega⟩
    cases hl : atLevel s.mem s.level ns with
    | nil => rw [hl] at hm; simp at hm
    | cons b t =>
      rw [hl] at hs
      simp only [seg] at hs
      exact ⟨b, hs.1⟩

/-! ## Each call refines its effect on the sequence of pairs -/

theorem insert_refines {s : SkipList} {ns : List Nat} (h : WF s ns) {fuel : Nat}
    (hf : ns.length < fuel) (key : Int) (value : Option Record) (coins : Nat → Bool)
    (alloc_ok : Bool) :
    ∃ s1 ns1, insert_skiplist fuel (some s) key value coins alloc_ok
        = some ((abstract_step (entries s.mem ns) (Op.insert key value coins alloc_ok)).1,
            some s1) ∧
      WF s1 ns1 ∧
      entries s1.mem ns1
        = (abstract_step (entries s.mem ns) (Op.insert key value coins alloc_ok)).2 ∧
      ns1.length ≤ ns.length + 1 ∧ (alloc_ok = true → Tight s ns → Tight s1 ns1) := by
  by_cases hv : value = none ∨ key < 0
  · refine ⟨s, ns, ?_, h, ?_, by omega, fun _ ht => ht⟩
    · have hc : value = none ∨ key < 0 ∨ key ∈ (entries s.mem ns).map Prod.fst ∨
          alloc_ok = false := by tauto
      simp only [insert_skiplist, abstract_step, if_pos hv, if_pos hc]
    · have hc : value = none ∨ key < 0 ∨ key ∈ (entries s.mem ns).map Prod.fst ∨
          alloc_ok = false := by tauto
      simp only [abstract_step, if_pos hc]
  · have hvn : value ≠ none := fun e => hv (Or.inl e)
    have hk0 : 0 ≤ key := by
      by_contra hk
      exact hv (Or.inr (by omega))
    by_cases hk : key ∈ (entries s.mem ns).map Prod.fst
    · have hc : value = none ∨ key < 0 ∨ key ∈ (entries s.mem ns).map Prod.fst ∨
          alloc_ok = false := by tauto
      obtain ⟨L, c, R, rfl, h1, hck⟩ := split_present h hk
      refine ⟨s, L ++ c :: R, ?_, h, ?_, by omega, fun _ ht => ht⟩
      · rw [insert_dup h h1 hck hf]
        simp only [abstract_step, if_pos hc]
      · simp only [abstract_step, if_pos hc]
    · obtain ⟨L, R, rfl, h1, h2⟩ := split_absent h hk
      obtain ⟨hfail, hok⟩ := insert_new h h1 h2 hk0 hf hvn coins alloc_ok
      cases alloc_ok with
      | false =>
        have hc : value = none ∨ key < 0 ∨ key ∈ (entries s.mem (L ++ R)).map Prod.fst ∨
            false = false := by tauto
        refine ⟨_, L ++ R, ?_, wf_raise_level h (le_max_left _ _)
          (max_lt h.1 (lt_of_le_of_lt (random_level_le coins) (by decide))), ?_, by omega,
          fun e => by simp at e⟩
        · rw [hfail rfl]
          simp [abstract_step]
        · simp [abstract_step]
      | true =>
        have hc : ¬ (value = none ∨ key < 0 ∨ key ∈ (entries s.mem (L ++ R)).map Prod.fst ∨
            true = false) := by
          intro e
          rcases e with e | e | e | e
          · exact hvn e
          · omega
          · exact hk e
          · simp at e
        obtain ⟨mem1, hres, hwf, hsh, hnew⟩ := hok rfl
        obtain ⟨nc, hnc, e1, e2, e3, _⟩ := shape_eq_some hnew
        refine ⟨_, L ++ s.mem.length :: R, ?_, hwf, ?_, by simp; omega, ?_⟩
        · rw [hres]
          simp only [abstract_step, if_neg hc]
        · simp only [abstract_step, if_neg hc]
          show entries mem1 (L ++ s.mem.length :: R) = _
          rw [entries_append, entries_cons, keyOf_eq hnc, valueOf_eq hnc, e1, e2,
            entries_congr (fun x hx => hsh x (List.mem_cons_of_mem _ (List.mem_append_left _ hx))),
            entries_congr (fun x hx => hsh x (List.mem_cons_of_mem _ (List.mem_append_right _ hx))),
            entries_append,
            insert_pair_split key value _ (entries_keys_gt h2) _ (entries_keys_lt h1)]
        · intro _ ht
          by_cases hgt : s.level < random_level coins
          · right
            refine ⟨s.mem.length, by simp, ?_⟩
            show levelOf mem1 s.mem.length = max s.level (random_level coins)
            rw [levelOf_eq hnc, e3, max_eq_right (le_of_lt hgt)]
          · rcases ht with ht | ⟨a, ha, hal⟩
            · left
              show max s.level (random_level coins) = 0
              omega
            · right
              refine ⟨a, by simp at ha ⊢; tauto, ?_⟩
              show levelOf mem1 a = max s.level (random_level coins)
              rw [levelOf_of_shape (hsh a (List.mem_cons_of_mem _ ha)), hal,
                max_eq_left (by omega)]

theorem delete_refines {s : SkipList} {ns : List Nat} (h : WF s ns) {fuel : Nat}
    (hf : ns.length < fuel) (key : Int) :
    ∃ s1 ns1, delete_skiplist fuel (some s) key
        = some ((abstract_step (entries s.mem ns) (Op.delete key)).1, some s1) ∧
      WF s1 ns1 ∧
      entries s1.mem ns1 = (abstract_step (entries s.mem ns) (Op.delete key)).2 ∧
      ns1.length ≤ ns.length + 1 ∧ (Tight s ns → Tight s1 ns1) := by
  by_cases hk : key ∈ (entries s.mem ns).map Prod.fst
  · have hc : ¬ (key < 0 ∨ key ∉ (entries s.mem ns).map Prod.fst) := by
      have := wf_keys_nonneg h hk
      intro e
      rcases e with e | e
      · omega
      · exact e hk
    obtain ⟨L, c, R, rfl, h1, hck⟩ := split_present h hk
    have h2 : ∀ x ∈ R, key < keyOf s.mem x := by
      intro x hx
      have := (List.pairwise_cons.1 (List.pairwise_append.1 (wf_sorted h)).2.1).1 x hx
      omega
    obtain ⟨mem1, l1, hres, hwf, hsh, _, hlink⟩ := delete_present h h1 hck hf
    refine ⟨_, L ++ R, ?_, hwf, ?_, by simp; omega, fun _ => tight_of_link hwf hlink⟩
    · rw [hres]
      simp only [abstract_step, if_neg hc]
    · simp only [abstract_step, if_neg hc]
      show entries mem1 (L ++ R) = _
      rw [entries_congr (fun x hx => hsh x (List.mem_cons_of_mem _ hx)), entries_append,
        entries_append, entries_cons, hck,
        remove_key_split key _ _ _ (entries_keys_lt h1) (entries_keys_gt h2)]
  · have hc : key < 0 ∨ key ∉ (entries s.mem ns).map Prod.fst := Or.inr hk
    obtain ⟨L, R, rfl, h1, h2⟩ := split_absent h hk
    refine ⟨s, L ++ R, ?_, h, ?_, by omega, fun ht => ht⟩
    · rw [delete_absent h h1 h2 hf]
      simp only [abstract_step, if_pos hc]
    · simp only [abstract_step, if_pos hc]

theorem step_refines {s : SkipList} {ns : List Nat} (h : WF s ns) {fuel : Nat}
    (hf : ns.length < fuel) (op : Op) :
    ∃ s1 ns1, step fuel (some s) op
        = some ((abstract_step (entries s.mem ns) op).1, some s1) ∧
      WF s1 ns1 ∧ entries s1.mem ns1 = (abstract_step (entries s.mem ns) op).2 ∧
      ns1.length ≤ ns.length + 1 ∧ (op.allocates = true → Tight s ns → Tight s1 ns1) := by
  cases op with
  | insert key value coins alloc_ok => exact insert_refines h hf key value coins alloc_ok
  | delete key =>
    obtain ⟨s1, ns1, a, b, c, d, e⟩ := delete_refines h hf key
    exact ⟨s1, ns1, a, b, c, d, fun _ => e⟩

/-! ## Sequences of calls -/

theorem create_skiplist_eq :
    create_skiplist true
      = some (SkipList.mk [some (SkipListNode.mk (-1) none 31 (List.replicate 32 none))] 0 0 0) :=
  rfl

theorem wf_create {s : SkipList} (h : create_skiplist true = some s) : WF s [] := by
  rw [create_skiplist_eq] at h
  cases h
  decide

theorem tight_create {s : SkipList} (h : create_skiplist true = some s) : Tight s [] := by
  rw [create_skiplist_eq] at h
  cases h
  exact Or.inl rfl

theorem run_refines :
    ∀ (ops : List Op) (s : SkipList) (ns : List Nat) (fuel : Nat), WF s ns →
      ns.length + ops.length < fuel →
      ∃ s1 ns1, run fuel (some s) ops
          = some (some s1, (abstract_run (entries s.mem ns) ops).1) ∧
        WF s1 ns1 ∧ entries s1.mem ns1 = (abstract_run (entries s.mem ns) ops).2 ∧
        ns1.length ≤ ns.length + ops.length ∧
        ((∀ op ∈ ops, op.allocates = true) → Tight s ns → Tight s1 ns1)
  | [], s, ns, fuel, h, _ => ⟨s, ns, rfl, h, rfl, by simp, fun _ ht => ht⟩
  | op :: ops, s, ns, fuel, h, hf => by
    simp only [List.length_cons] at hf
    have hf1 : ns.length < fuel := by omega
    obtain ⟨s1, ns1, hstep, hwf1, hent1, hlen1, ht1⟩ := step_refines h hf1 op
    obtain ⟨s2, ns2, hrun, hwf2, hent2, hlen2, ht2⟩ := run_refines ops s1 ns1 fuel hwf1
      (by omega)
    refine ⟨s2, ns2, ?_, hwf2, ?_, by simp only [List.length_cons]; omega, ?_⟩
    · simp only [run, hstep, hrun, abstract_run, hent1]
    · rw [hent2, hent1]
      rfl
    · intro hall ht
      exact ht2 (fun o ho => hall o (List.mem_cons_of_mem _ ho))
        (ht1 (hall op (List.mem_cons_self _ _)) ht)

/-- What is known of a list produced by a sequence of calls on a fresh list. -/
theorem run_create {fuel : Nat} {ops : List Op} {list : Option SkipList}
    {tr : List (Op × Int)} (h : run fuel (create_skiplist true) ops = some (list, tr)) :
    ∃ s ns, list = some s ∧ WF s ns ∧ tr = (abstract_run [] ops).1 ∧
      entries s.mem ns = (abstract_run [] ops).2 ∧ ns.length ≤ ops.length ∧
      ((∀ op ∈ ops, op.allocates = true) → Tight s ns) := by
  have h1 := run_mono (le_max_left fuel (ops.length + 1)) _ _ _ h
  obtain ⟨s1, ns1, hrun, hwf, hent, hlen, ht⟩ := run_refines ops _ [] (max fuel (ops.length + 1))
    (wf_create create_skiplist_eq) (by
      have := le_max_right fuel (ops.length + 1)
      simp only [List.length_nil]
      omega)
  rw [create_skiplist_eq] at h1
  rw [hrun] at h1
  simp only [Option.some.injEq, Prod.mk.injEq] at h1
  refine ⟨s1, ns1, h1.1.symm, hwf, h1.2.symm, hent, by simpa using hlen, fun hall => ?_⟩
  exact ht hall (tight_create create_skiplist_eq)

theorem record_call_abstract (ps : List (Int × Option Record)) (op : Op) :
    record_call (lookup ps) (op, (abstract_step ps op).1) = lookup (abstract_step ps op).2 := by
  funext k
  cases op with
  | insert key value coins alloc_ok =>
    simp only [abstract_step, record_call]
    split
    · simp
    · rename_i hc
      have hk : key ∉ ps.map Prod.fst := fun e => hc (Or.inr (Or.inr (Or.inl e)))
      simp only [if_true, lookup_insert_pair key value k ps hk, Function.update_apply]
  | delete key =>
    simp only [abstract_step, record_call]
    split
    · simp
    · simp only [if_true, lookup_remove_key, Function.update_apply]

theorem stored_abstract :
    ∀ (ops : List Op) (ps : List (Int × Option Record)),
      (abstract_run ps ops).1.foldl record_call (lookup ps) = lookup (abstract_run ps ops).2
  | [], ps => rfl
  | op :: ops, ps => by
    simp only [abstract_run, List.foldl_cons]
    rw [record_call_abstract]
    exact stored_abstract ops _

theorem lookup_nil : lookup [] = fun _ => none := rfl

/-! ## The level of the list is the highest level in use -/

theorem wf_above_level {s : SkipList} {ns : List Nat} (h : WF s ns) {j : Nat}
    (h1 : s.level < j) (h2 : j < MAX_LEVEL) : fwd s.mem s.header j = some none := by
  have hs := wf_seg h h2
  rw [atLevel_eq_nil (fun x hx => lt_of_le_of_lt (wf_level_le h hx) h1)] at hs
  exact hs

theorem highest_from_eq {s : SkipList} {ns : List Nat} (h : WF s ns) (ht : Tight s ns) :
    ∀ (i : Nat), s.level ≤ i → i < MAX_LEVEL → highest_from s.mem s.header i = s.level
  | 0, h1, _ => by
    unfold highest_from
    omega
  | i + 1, h1, h2 => by
    unfold highest_from
    by_cases he : s.level = i + 1
    · rcases link_of_tight h ht with h0 | ⟨b, hb⟩
      · omega
      · rw [← he, hb]
    · rw [wf_above_level h (by omega) h2]
      exact highest_from_eq h ht i (by omega) (by omega)

theorem highest_level_eq {s : SkipList} {ns : List Nat} (h : WF s ns) (ht : Tight s ns) :
    highest_level s = s.level :=
  highest_from_eq h ht _ (by have := h.1; unfold MAX_LEVEL at *; omega) (by decide)

theorem sorted_entries {s : SkipList} {ns : List Nat} (h : WF s ns) :
    ((entries s.mem ns).map Prod.fst).Pairwise (· < ·) := by
  unfold entries
  rw [List.map_map, List.pairwise_map]
  exact wf_sorted h

theorem remove_key_length {s : SkipList} {ns : List Nat} (h : WF s ns) {key : Int}
    (hk : key ∈ (entries s.mem ns).map Prod.fst) :
    (remove_key key (entries s.mem ns)).length + 1 = (entries s.mem ns).length := by
  obtain ⟨L, c, R, rfl, h1, hck⟩ := split_present h hk
  have h2 : ∀ x ∈ R, key < keyOf s.mem x := by
    intro x hx
    have := (List.pairwise_cons.1 (List.pairwise_append.1 (wf_sorted h)).2.1).1 x hx
    omega
  rw [entries_append, entries_cons, hck,
    remove_key_split key _ _ _ (entries_keys_lt h1) (entries_keys_gt h2)]
  simp only [List.length_append, List.length_cons]
  omega

theorem mem_insert_pair (key : Int) (v : Option Record) :
    ∀ (ps : List (Int × Option Record)) (p : Int × Option Record),
      p ∈ insert_pair key v ps ↔ p = (key, v) ∨ p ∈ ps
  | [], p => by simp [insert_pair]
  | q :: t, p => by
    unfold insert_pair
    split
    · simp
    · simp only [List.mem_cons, mem_insert_pair key v t p]
      tauto

/-! ## Runs on sequences of pairs -/

theorem abstract_run_append :
    ∀ (o1 o2 : List Op) (ps : List (Int × Option Record)),
      abstract_run ps (o1 ++ o2)
        = ((abstract_run ps o1).1 ++ (abstract_run (abstract_run ps o1).2 o2).1,
           (abstract_run (abstract_run ps o1).2 o2).2)
  | [], o2, ps => rfl
  | op :: o1, o2, ps => by
    have ih := abstract_run_append o1 o2 (abstract_step ps op).2
    show abstract_run ps (op :: (o1 ++ o2)) = _
    simp only [abstract_run, ih, List.cons_append]

theorem insert_pair_length (key : Int) (v : Option Record) :
    ∀ (ps : List (Int × Option Record)), (insert_pair key v ps).length = ps.length + 1
  | [] => rfl
  | p :: t => by
    unfold insert_pair
    split
    · simp
    · simp [insert_pair_length key v t]

theorem mem_keys_insert_pair (key : Int) (v : Option Record) (ps : List (Int × Option Record))
    (k : Int) : k ∈ (insert_pair key v ps).map Prod.fst ↔ k = key ∨ k ∈ ps.map Prod.fst := by
  simp only [List.mem_map, mem_insert_pair]
  constructor
  · rintro ⟨p, hp | hp, rfl⟩
    · left; rw [hp]
    · right; exact ⟨p, hp, rfl⟩
  · rintro (rfl | ⟨p, hp, rfl⟩)
    · exact ⟨(k, v), Or.inl rfl, rfl⟩
    · exact ⟨p, Or.inr hp, rfl⟩

theorem mem_remove_key (key : Int) (ps : List (Int × Option Record)) (p : Int × Option Record) :
    p ∈ remove_key key ps ↔ p ∈ ps ∧ p.1 ≠ key := by
  unfold remove_key
  simp [List.mem_filter]

theorem mem_keys_remove_key (key : Int) (ps : List (Int × Option Record)) (k : Int) :
    k ∈ (remove_key key ps).map Prod.fst ↔ k ∈ ps.map Prod.fst ∧ k ≠ key := by
  simp only [List.mem_map, mem_remove_key]
  constructor
  · rintro ⟨p, ⟨hp, hne⟩, rfl⟩
    exact ⟨⟨p, hp, rfl⟩, hne⟩
  · rintro ⟨⟨p, hp, rfl⟩, hne⟩
    exact ⟨p, ⟨hp, hne⟩, rfl⟩

theorem remove_key_keys (key : Int) (ps : List (Int × Option Record)) :
    (remove_key key ps).map Prod.fst = (ps.map Prod.fst).filter (fun k => decide (k ≠ key)) := by
  unfold remove_key
  rw [List.filter_map]
  rfl

theorem remove_key_nodup (key : Int) (ps : List (Int × Option Record))
    (h : (ps.map Prod.fst).Nodup) : ((remove_key key ps).map Prod.fst).Nodup := by
  rw [remove_key_keys]
  exact h.filter _

theorem remove_key_length_nodup (key : Int) :
    ∀ (ps : List (Int × Option Record)), (ps.map Prod.fst).Nodup → key ∈ ps.map Prod.fst →
      (remove_key key ps).length + 1 = ps.length
  | [], _, h => by simp at h
  | p :: t, hnd, h => by
    rw [List.map_cons, List.nodup_cons] at hnd
    unfold remove_key
    rw [List.filter_cons]
    by_cases hp : p.1 = key
    · simp only [hp, ne_eq, not_true_eq_false, decide_False, Bool.false_eq_true, if_false,
        List.length_cons, add_left_inj]
      rw [List.filter_eq_self.2]
      intro q hq
      have : q.1 ≠ key := by
        intro e
        apply hnd.1
        rw [hp, ← e]
        exact List.mem_map_of_mem _ hq
      simp [this]
    · simp only [hp, ne_eq, not_false_eq_true, decide_True, if_true, List.length_cons,
        add_left_inj]
      have hk : key ∈ t.map Prod.fst := by
        simp only [List.map_cons, List.mem_cons] at h
        rcases h with h | h
        · exact absurd h.symm hp
        · exact h
      exact remove_key_length_nodup key t hnd.2 hk

/-- Pairs with distinct, non-negative, fresh keys and non-null values are all
accepted, whatever the coin flips. -/
theorem abstract_run_inserts (cs : Nat → Nat → Bool) :
    ∀ (pairs : List (Int × Option Record)) (acc : List (Int × Option Record)) (i : Nat),
      (pairs.map Prod.fst).Nodup →
      (∀ p ∈ pairs, 0 ≤ p.1 ∧ p.2 ≠ none ∧ p.1 ∉ acc.map Prod.fst) →
      (∀ e ∈ (abstract_run acc (rebuild_ops cs i pairs)).1, e.2 = 1) ∧
      (abstract_run acc (rebuild_ops cs i pairs)).2.length = acc.length + pairs.length ∧
      ∀ k, k ∈ (abstract_run acc (rebuild_ops cs i pairs)).2.map Prod.fst ↔
        (k ∈ acc.map Prod.fst ∨ k ∈ pairs.map Prod.fst)
  | [], acc, i, _, _ => by simp [rebuild_ops, abstract_run]
  | p :: rest, acc, i, hnd, h => by
    rw [List.map_cons, List.nodup_cons] at hnd
    obtain ⟨h0, hv, hfresh⟩ := h p (by simp)
    have hc : ¬ (p.2 = none ∨ p.1 < 0 ∨ p.1 ∈ acc.map Prod.fst ∨ true = false) := by
      intro e
      rcases e with e | e | e | e
      · exact hv e
      · omega
      · exact hfresh e
      · simp at e
    have hstep : abstract_step acc (Op.insert p.1 p.2 (cs i) true)
        = (1, insert_pair p.1 p.2 acc) := by
      simp only [abstract_step, if_neg hc]
    obtain ⟨ih1, ih2, ih3⟩ := abstract_run_inserts cs rest (insert_pair p.1 p.2 acc) (i + 1)
      hnd.2 (by
        intro q hq
        obtain ⟨a, b, c⟩ := h q (List.mem_cons_of_mem _ hq)
        refine ⟨a, b, ?_⟩
        rw [mem_keys_insert_pair]
        rintro (e | e)
        · exact hnd.1 (by rw [← e]; exact List.mem_map_of_mem _ hq)
        · exact c e)
    simp only [rebuild_ops, abstract_run, hstep]
    refine ⟨?_, ?_, ?_⟩
    · intro e he
      rcases List.mem_cons.1 he with rfl | he
      · rfl
      · exact ih1 e he
    · rw [ih2, insert_pair_length]
      simp only [List.length_cons]
      omega
    · intro k
      rw [ih3, mem_keys_insert_pair]
      simp only [List.map_cons, List.mem_cons]
      tauto

/-- Inserting pairs in ascending key order rebuilds exactly that sequence. -/
theorem abstract_run_sorted (cs : Nat → Nat → Bool) :
    ∀ (pairs : List (Int × Option Record)) (acc : List (Int × Option Record)) (i : Nat),
      ((acc ++ pairs).map Prod.fst).Pairwise (· < ·) →
      (∀ p ∈ pairs, 0 ≤ p.1 ∧ p.2 ≠ none) →
      (∀ e ∈ (abstract_run acc (rebuild_ops cs i pairs)).1, e.2 = 1) ∧
      (abstract_run acc (rebuild_ops cs i pairs)).2 = acc ++ pairs
  | [], acc, i, _, _ => by simp [rebuild_ops, abstract_run]
  | p :: rest, acc, i, hs, h => by
    obtain ⟨h0, hv⟩ := h p (by simp)
    rw [List.map_append, List.pairwise_append] at hs
    have hlt : ∀ q ∈ acc, q.1 < p.1 := by
      intro q hq
      exact hs.2.2 q.1 (List.mem_map_of_mem _ hq) p.1 (by simp)
    have hfresh : p.1 ∉ acc.map Prod.fst := by
      intro e
      obtain ⟨q, hq, hqe⟩ := List.mem_map.1 e
      have := hlt q hq
      omega
    have hc : ¬ (p.2 = none ∨ p.1 < 0 ∨ p.1 ∈ acc.map Prod.fst ∨ true = false) := by
      intro e
      rcases e with e | e | e | e
      · exact hv e
      · omega
      · exact hfresh e
      · simp at e
    have hins : insert_pair p.1 p.2 acc = acc ++ [p] := by
      have := insert_pair_split p.1 p.2 [] (by simp) acc hlt
      simpa using this
    have hstep : abstract_step acc (Op.insert p.1 p.2 (cs i) true) = (1, acc ++ [p]) := by
      simp only [abstract_step, if_neg hc, hins]
    obtain ⟨ih1, ih2⟩ := abstract_run_sorted cs rest (acc ++ [p]) (i + 1) (by
        rw [List.append_assoc, List.map_append, List.pairwise_append]
        simpa using hs)
      (fun q hq => h q (List.mem_cons_of_mem _ hq))
    simp only [rebuild_ops, abstract_run, hstep]
    refine ⟨?_, by rw [ih2]; simp⟩
    intro e he
    rcases List.mem_cons.1 he with rfl | he
    · rfl
    · exact ih1 e he

/-- Deleting distinct stored keys: every delete is accepted and removes one
pair. -/
theorem abstract_run_deletes :
    ∀ (dels : List Int) (ps : List (Int × Option Record)),
      (ps.map Prod.fst).Nodup → dels.Nodup →
      (∀ d ∈ dels, d ∈ ps.map Prod.fst ∧ 0 ≤ d) →
      (∀ e ∈ (abstract_run ps (dels.map Op.delete)).1, e.2 = 1) ∧
      (abstract_run ps (dels.map Op.delete)).2.length + dels.length = ps.length
  | [], ps, _, _, _ => by simp [abstract_run]
  | d :: rest, ps, hnd, hd, h => by
    obtain ⟨hin, h0⟩ := h d (by simp)
    rw [List.nodup_cons] at hd
    have hc : ¬ (d < 0 ∨ d ∉ ps.map Prod.fst) := by
      intro e
      rcases e with e | e
      · omega
      · exact e hin
    have hstep : abstract_step ps (Op.delete d) = (1, remove_key d ps) := by
      simp only [abstract_step, if_neg hc]
    obtain ⟨ih1, ih2⟩ := abstract_run_deletes rest (remove_key d ps)
      (remove_key_nodup d ps hnd) hd.2 (by
        intro x hx
        obtain ⟨a, b⟩ := h x (List.mem_cons_of_mem _ hx)
        refine ⟨(mem_keys_remove_key _ _ _).2 ⟨a, ?_⟩, b⟩
        rintro rfl
        exact hd.1 hx)
    simp only [List.map_cons, abstract_run, hstep]
    refine ⟨?_, ?_⟩
    · intro e he
      rcases List.mem_cons.1 he with rfl | he
      · rfl
      · exact ih1 e he
    · have := remove_key_length_nodup d ps hnd hin
      simp only [List.length_cons]
      omega

/-! ## Saving and loading -/

theorem save_loop_seg {mem : Heap} {fwrite_ok : Nat → Bool} :
    ∀ (l : List Nat) (a fuel k : Nat), seg mem 0 a l none → l.length ≤ fuel →
      (∀ i, k < i → i ≤ k + l.length → fwrite_ok i = true) →
      (fwd mem a 0).bind (fun c => save_loop mem fwrite_ok fuel c k)
        = some (l.filterMap (valueOf mem), true)
  | [], a, fuel, k, h, _, _ => by
    simp only [seg] at h
    rw [h]
    cases fuel <;> simp [save_loop]
  | b :: l, a, fuel, k, h, hf, hw => by
    obtain ⟨f, rfl⟩ : ∃ f, fuel = f + 1 := ⟨fuel - 1, by simp at hf; omega⟩
    simp only [seg] at h
    rw [h.1]
    simp only [Option.some_bind, save_loop]
    obtain ⟨n, hn⟩ := seg_head_node h.2
    obtain ⟨q, hq⟩ := seg_live l b none h.2 b (by simp)
    have hlen : l.length ≤ f := by simp at hf; omega
    simp only [hn]
    rw [List.filterMap_cons, valueOf_eq hn]
    cases hv : n.value with
    | none =>
      have ih := save_loop_seg l b f k h.2 hlen
        (fun i h1 h2 => hw i h1 (by simp only [List.length_cons]; omega))
      rw [hq] at ih
      simp only [Option.some_bind] at ih
      rw [fwd_of_nodeAt hn] at hq
      simp only [hq, ih]
    | some r =>
      have hw1 : fwrite_ok (k + 1) = true :=
        hw (k + 1) (by omega) (by simp only [List.length_cons]; omega)
      have ih := save_loop_seg l b f (k + 1) h.2 hlen
        (fun i h1 h2 => hw i (by omega) (by simp only [List.length_cons]; omega))
      rw [hq] at ih
      simp only [Option.some_bind] at ih
      rw [fwd_of_nodeAt hn] at hq
      simp only [hw1, if_true, hq, ih]

theorem filterMap_values {s : SkipList} {ns : List Nat} (h : WF s ns) :
    (ns.filterMap (valueOf s.mem)).map some = (entries s.mem ns).map Prod.snd ∧
    (ns.filterMap (valueOf s.mem)).length = ns.length := by
  have hv : ∀ a ∈ ns, ∃ r, valueOf s.mem a = some r := by
    intro a ha
    obtain ⟨n, hn, _, _, _, hne⟩ := wf_node h ha
    rw [valueOf_eq hn]
    cases hnv : n.value with
    | none => exact absurd hnv hne
    | some r => exact ⟨r, rfl⟩
  clear h
  induction ns with
  | nil => exact ⟨rfl, rfl⟩
  | cons a t ih =>
    obtain ⟨r, hr⟩ := hv a (by simp)
    obtain ⟨ih1, ih2⟩ := ih (fun x hx => hv x (List.mem_cons_of_mem _ hx))
    rw [List.filterMap_cons, hr]
    simp only [List.map_cons, entries_cons, hr, ih1, List.length_cons, ih2, and_self]

theorem save_database_wf {s : SkipList} {ns : List Nat} (h : WF s ns) {fuel : Nat}
    (hf : ns.length ≤ fuel) (filename : List Nat) {fwrite_ok : Nat → Bool}
    (hw : ∀ i, i ≤ s.size → fwrite_ok i = true) :
    save_database fuel (some s) (some filename) true fwrite_ok
      = some { ret := 1, opened := true,
               file := some { count := s.size, records := ns.filterMap (valueOf s.mem) },
               records_written := s.size, warned := false } := by
  have hs := wf_seg h (i := 0) (by decide)
  rw [atLevel_zero] at hs
  have hl := @save_loop_seg s.mem fwrite_ok ns s.header fuel 0 hs hf
    (fun i _ h2 => hw i (by rw [h.2.1]; omega))
  obtain ⟨q, hq⟩ := seg_live ns s.header none hs s.header (by simp)
  rw [hq] at hl
  simp only [Option.some_bind] at hl
  have hlen : (ns.filterMap (valueOf s.mem)).length = s.size := by
    rw [(filterMap_values h).2, h.2.1]
  have hw0 : fwrite_ok 0 = true := hw 0 (Nat.zero_le _)
  simp only [save_database, if_true, hq, hw0, hl, hlen, ne_eq, not_true_eq_false,
    decide_False]

theorem save_database_null_filename (fuel : Nat) (list : Option SkipList) (fopen_ok : Bool)
    (fwrite_ok : Nat → Bool) :
    save_database fuel list none fopen_ok fwrite_ok
      = some { ret := 0, opened := false, file := none, records_written := 0,
               warned := false } := by
  cases list <;> rfl

theorem save_database_fopen_fails (fuel : Nat) (list : Option SkipList)
    (filename : Option (List Nat)) (fwrite_ok : Nat → Bool) :
    save_database fuel list filename false fwrite_ok
      = some { ret := 0, opened := false, file := none, records_written := 0,
               warned := false } := by
  cases list <;> cases filename <;> rfl

theorem save_database_count_fails {s : SkipList} {ns : List Nat} (h : WF s ns) (fuel : Nat)
    (filename : List Nat) {fwrite_ok : Nat → Bool} (hw : fwrite_ok 0 = false) :
    save_database fuel (some s) (some filename) true fwrite_ok
      = some { ret := 0, opened := true, file := none, records_written := 0,
               warned := false } := by
  have hs := wf_seg h (i := 0) (by decide)
  obtain ⟨q, hq⟩ := seg_live _ s.header none hs s.header (by simp)
  simp [save_database, hq, hw]

/-- A failed `fwrite` of the record number `j` (counted from 0) ends the loop
of `save_database` after the first `j` records. -/
theorem save_loop_seg_fail {mem : Heap} {fwrite_ok : Nat → Bool} :
    ∀ (l : List Nat) (a fuel k j : Nat), seg mem 0 a l none → l.length ≤ fuel →
      (∀ b ∈ l, valueOf mem b ≠ none) → j < l.length →
      (∀ i, k < i → i ≤ k + j → fwrite_ok i = true) → fwrite_ok (k + j + 1) = false →
      (fwd mem a 0).bind (fun c => save_loop mem fwrite_ok fuel c k)
        = some ((l.filterMap (valueOf mem)).take j, false)
  | [], _, _, _, _, _, _, _, hj, _, _ => by simp at hj
  | b :: l, a, fuel, k, j, h, hf, hv, hj, hw, hfail => by
    obtain ⟨f, rfl⟩ : ∃ f, fuel = f + 1 := ⟨fuel - 1, by simp at hf; omega⟩
    simp only [seg] at h
    rw [h.1]
    simp only [Option.some_bind, save_loop]
    obtain ⟨n, hn⟩ := seg_head_node h.2
    obtain ⟨q, hq⟩ := seg_live l b none h.2 b (by simp)
    have hlen : l.length ≤ f := by simp at hf; omega
    have hvb := hv b (by simp)
    rw [valueOf_eq hn] at hvb
    simp only [hn]
    rw [List.filterMap_cons, valueOf_eq hn]
    cases hnv : n.value with
    | none => exact absurd hnv hvb
    | some r =>
      cases j with
      | zero =>
        have hf0 : fwrite_ok (k + 1) = false := hfail
        simp [hf0]
      | succ j =>
        have hw1 : fwrite_ok (k + 1) = true := hw (k + 1) (by omega) (by omega)
        have hf1 : fwrite_ok (k + 1 + j + 1) = false := by
          have e : k + 1 + j + 1 = k + (j + 1) + 1 := by omega
          rw [e]
          exact hfail
        have ih := save_loop_seg_fail l b f (k + 1) j h.2 hlen
          (fun x hx => hv x (List.mem_cons_of_mem _ hx))
          (by simp only [List.length_cons] at hj; omega)
          (fun i h1 h2 => hw i (by omega) (by omega)) hf1
        rw [hq] at ih
        simp only [Option.some_bind] at ih
        rw [fwd_of_nodeAt hn] at hq
        simp only [hw1, if_true, hq, ih, List.take_succ_cons]

theorem save_database_record_fails {s : SkipList} {ns : List Nat} (h : WF s ns) {fuel : Nat}
    (hf : ns.length ≤ fuel) (filename : List Nat) {fwrite_ok : Nat → Bool} (j : Nat)
    (hj : j < s.size) (hw : ∀ i, i ≤ j → fwrite_ok i = true)
    (hfail : fwrite_ok (j + 1) = false) :
    save_database fuel (some s) (some filename) true fwrite_ok
      = some { ret := 0, opened := true,
               file := some { count := s.size,
                              records := (ns.filterMap (valueOf s.mem)).take j },
               records_written := j, warned := false } := by
  have hs := wf_seg h (i := 0) (by decide)
  rw [atLevel_zero] at hs
  have hv : ∀ b ∈ ns, valueOf s.mem b ≠ none := by
    intro b hb
    obtain ⟨n, hn, _, _, _, hne⟩ := wf_node h hb
    rw [valueOf_eq hn]
    exact hne
  have hl := @save_loop_seg_fail s.mem fwrite_ok ns s.header fuel 0 j hs hf hv
    (by rw [← h.2.1]; exact hj) (fun i _ h2 => hw i (by omega))
    (by rw [Nat.zero_add]; exact hfail)
  obtain ⟨q, hq⟩ := seg_live ns s.header none hs s.header (by simp)
  rw [hq] at hl
  simp only [Option.some_bind] at hl
  have hlen : ((ns.filterMap (valueOf s.mem)).take j).length = j := by
    have hsz := h.2.1
    rw [List.length_take, (filterMap_values h).2]
    omega
  have hw0 : fwrite_ok 0 = true := hw 0 (Nat.zero_le _)
  simp only [save_database, if_true, hq, hw0, hl, hlen]

theorem load_loop_refines (cs : Nat → Nat → Bool) {fuel : Nat} :
    ∀ (recs : List Record) (i : Nat) (s : SkipList) (ns : List Nat) (n : Nat), WF s ns →
      ns.length + recs.length < fuel →
      ∃ s1 ns1, load_loop fuel (draws_ok cs) i recs s n
          = some (s1, n + (ns1.length - ns.length)) ∧
        WF s1 ns1 ∧ entries s1.mem ns1 = load_pairs (entries s.mem ns) recs ∧
        ns.length ≤ ns1.length
  | [], i, s, ns, n, h, _ => ⟨s, ns, by simp [load_loop], h, rfl, le_refl _⟩
  | r :: rest, i, s, ns, n, h, hf => by
    simp only [List.length_cons] at hf
    have hf1 : ns.length < fuel := by omega
    obtain ⟨s1, ns1, hres, hwf1, hent1, hlen1, _⟩ := insert_refines h hf1 r.id (some r) (cs i) true
    have hcond : (some r = none ∨ r.id < 0 ∨ r.id ∈ (entries s.mem ns).map Prod.fst ∨
        true = false) ↔ (r.id < 0 ∨ r.id ∈ (entries s.mem ns).map Prod.fst) := by
      simp
    by_cases hc : r.id < 0 ∨ r.id ∈ (entries s.mem ns).map Prod.fst
    · simp only [abstract_step, if_pos (hcond.2 hc)] at hres hent1
      have hl : ns1.length = ns.length := by
        have := congrArg List.length hent1
        simpa [entries_length] using this
      have hf2 : ns1.length + rest.length < fuel := by omega
      obtain ⟨s2, ns2, hrun, hwf2, hent2, hle2⟩ := load_loop_refines cs rest (i + 1) s1 ns1 n
        hwf1 hf2
      have hle : ns.length ≤ ns2.length := by omega
      refine ⟨s2, ns2, ?_, hwf2, ?_, hle⟩
      · simp only [load_loop, draws_ok, if_true, hres]
        rw [hrun, hl]
      · rw [hent2, hent1]
        simp only [load_pairs, if_pos hc]
    · simp only [abstract_step, if_neg (fun e => hc (hcond.1 e))] at hres hent1
      have hl : ns1.length = ns.length + 1 := by
        have := congrArg List.length hent1
        simpa [entries_length, insert_pair_length] using this
      have hf2 : ns1.length + rest.length < fuel := by omega
      obtain ⟨s2, ns2, hrun, hwf2, hent2, hle2⟩ := load_loop_refines cs rest (i + 1) s1 ns1
        (n + 1) hwf1 hf2
      have hle : ns.length ≤ ns2.length := by omega
      refine ⟨s2, ns2, ?_, hwf2, ?_, hle⟩
      · simp only [load_loop, draws_ok, if_true, hres, one_ne_zero, if_false]
        rw [hrun]
        congr 2
        omega
      · rw [hent2, hent1]
        simp only [load_pairs, if_neg hc]

theorem load_database_refines (cs : Nat → Nat → Bool) (count : Nat) (recs : List Record)
    {fuel : Nat} (hf : recs.length < fuel) :
    ∃ s ns, load_database fuel (some { count := count, records := recs }) true (draws_ok cs)
        = some (some s, s.size) ∧
      WF s ns ∧ entries s.mem ns = load_pairs [] recs := by
  obtain ⟨s, ns, hrun, hwf, hent, _⟩ := load_loop_refines cs recs 0 fresh_list [] 0
    (wf_create create_skiplist_eq) (by simpa using hf)
  refine ⟨s, ns, ?_, hwf, hent⟩
  have : create_skiplist true = some fresh_list := rfl
  simp only [load_database, this, hrun]
  simp [hwf.2.1]

/-- The pairs a load leaves: those it started from, and for each other
non-negative id the first record of the input carrying it. -/
theorem mem_load_pairs :
    ∀ (recs : List Record) (acc : List (Int × Option Record)) (p : Int × Option Record),
      p ∈ load_pairs acc recs ↔
        (p ∈ acc ∨ (p.1 ∉ acc.map Prod.fst ∧ 0 ≤ p.1 ∧
          ∃ r, recs.find? (fun r => decide (r.id = p.1)) = some r ∧ p.2 = some r))
  | [], acc, p => by simp [load_pairs]
  | r :: rest, acc, p => by
    unfold load_pairs
    rw [mem_load_pairs rest, List.find?_cons]
    by_cases hc : r.id < 0 ∨ r.id ∈ acc.map Prod.fst
    · rw [if_pos hc]
      by_cases hr : r.id = p.1
      · simp only [hr, decide_True]
        constructor
        · rintro (h | ⟨h1, h2, _⟩)
          · exact Or.inl h
          · rw [hr] at hc
            rcases hc with hc | hc
            · omega
            · exact absurd hc h1
        · rintro (h | ⟨h1, h2, _⟩)
          · exact Or.inl h
          · rw [hr] at hc
            rcases hc with hc | hc
            · omega
            · exact absurd hc h1
      · simp only [hr, decide_False]
    · rw [if_neg hc, mem_insert_pair, mem_keys_insert_pair]
      have h0 : 0 ≤ r.id := by
        by_contra e
        exact hc (Or.inl (by omega))
      have hfresh : r.id ∉ acc.map Prod.fst := fun e => hc (Or.inr e)
      by_cases hr : r.id = p.1
      · have hd : decide (r.id = p.1) = true := decide_eq_true hr
        simp only [hd]
        constructor
        · rintro ((h | h) | ⟨h1, _⟩)
          · right
            rw [h]
            exact ⟨hfresh, h0, r, rfl, rfl⟩
          · exact Or.inl h
          · exact absurd (Or.inl hr.symm) h1
        · rintro (h | ⟨_, _, r1, h1, h2⟩)
          · exact Or.inl (Or.inr h)
          · left
            left
            simp only [Option.some.injEq] at h1
            subst h1
            cases p
            simp only [Prod.mk.injEq]
            exact ⟨hr.symm, h2⟩
      · have hd : decide (r.id = p.1) = false := decide_eq_false hr
        simp only [hd]
        have hne : ¬ p.1 = r.id := fun e => hr e.symm
        have hp : ¬ p = (r.id, some r) := by
          intro e
          rw [e] at hne
          exact hne rfl
        simp only [hp, hne, false_or]

/-- Loading records that come in ascending order of non-negative ids appends
them all. -/
theorem load_pairs_sorted :
    ∀ (recs : List Record) (acc : List (Int × Option Record)),
      ((acc ++ recs.map (fun r => (r.id, some r))).map Prod.fst).Pairwise (· < ·) →
      (∀ r ∈ recs, 0 ≤ r.id) →
      load_pairs acc recs = acc ++ recs.map (fun r => (r.id, some r))
  | [], acc, _, _ => by simp [load_pairs]
  | r :: rest, acc, hs, h => by
    have hs0 := hs
    rw [List.map_append, List.pairwise_append] at hs
    have hlt : ∀ q ∈ acc, q.1 < r.id := by
      intro q hq
      exact hs.2.2 q.1 (List.mem_map_of_mem _ hq) r.id (by simp)
    have hc : ¬ (r.id < 0 ∨ r.id ∈ acc.map Prod.fst) := by
      intro e
      rcases e with e | e
      · have := h r (by simp)
        omega
      · obtain ⟨q, hq, hqe⟩ := List.mem_map.1 e
        have := hlt q hq
        omega
    have hins : insert_pair r.id (some r) acc = acc ++ [(r.id, some r)] := by
      have := insert_pair_split r.id (some r) [] (by simp) acc hlt
      simpa using this
    unfold load_pairs
    rw [if_neg hc, hins, load_pairs_sorted rest (acc ++ [(r.id, some r)]) (by
        simpa [List.append_assoc] using hs0)
      (fun x hx => h x (List.mem_cons_of_mem _ hx))]
    simp

theorem keyed_records {ps : List (Int × Option Record)} (h : Keyed ps) :
    (ps.filterMap Prod.snd).map (fun r => (r.id, some r)) = ps := by
  induction ps with
  | nil => rfl
  | cons p t ih =>
    obtain ⟨r, hr, hid⟩ := h p (by simp)
    rw [List.filterMap_cons, hr]
    simp only [List.map_cons]
    rw [ih (fun q hq => h q (List.mem_cons_of_mem _ hq)), hid, ← hr]

theorem filterMap_entries (mem : Heap) (ns : List Nat) :
    (entries mem ns).filterMap Prod.snd = ns.filterMap (valueOf mem) := by
  unfold entries
  rw [List.filterMap_map]
  rfl

theorem keyed_abstract_step {ps : List (Int × Option Record)} (h : Keyed ps) {op : Op}
    (hop : op.keyed = true) : Keyed (abstract_step ps op).2 := by
  cases op with
  | insert key value coins alloc_ok =>
    simp only [abstract_step]
    split
    · exact h
    · rename_i hc
      intro p hp
      rcases (mem_insert_pair _ _ _ _).1 hp with rfl | hp
      · cases value with
        | none => exact absurd (Or.inl rfl) hc
        | some r =>
          simp only [Op.keyed, decide_eq_true_eq] at hop
          exact ⟨r, rfl, hop⟩
      · exact h p hp
  | delete key =>
    simp only [abstract_step]
    split
    · exact h
    · intro p hp
      exact h p ((mem_remove_key _ _ _).1 hp).1

theorem keyed_abstract_run :
    ∀ (ops : List Op) (ps : List (Int × Option Record)), Keyed ps →
      (∀ op ∈ ops, op.keyed = true) → Keyed (abstract_run ps ops).2
  | [], ps, h, _ => h
  | op :: ops, ps, h, hall => by
    simp only [abstract_run]
    exact keyed_abstract_run ops _ (keyed_abstract_step h (hall op (by simp)))
      (fun o ho => hall o (List.mem_cons_of_mem _ ho))

/-- Every pair of a list loaded from a file carries a record under its id. -/
theorem keyed_load_pairs (recs : List Record) : Keyed (load_pairs [] recs) := by
  intro p hp
  rcases (mem_load_pairs recs [] p).1 hp with h | ⟨_, _, r, hr, hv⟩
  · simp at h
  · refine ⟨r, hv, ?_⟩
    have := List.find?_some hr
    simpa using this

/-! ## Helpers for the claims on rebuilding and emptying a list -/

theorem wf_entries_ok {s : SkipList} {ns : List Nat} (h : WF s ns) :
    ∀ p ∈ entries s.mem ns, 0 ≤ p.1 ∧ p.2 ≠ none := by
  intro p hp
  unfold entries at hp
  obtain ⟨a, ha, rfl⟩ := List.mem_map.1 hp
  obtain ⟨n, hn, _, _, h0, hv⟩ := wf_node h ha
  simp only [keyOf_eq hn, valueOf_eq hn]
  exact ⟨h0, hv⟩

theorem rebuild_ops_length (cs : Nat → Nat → Bool) :
    ∀ (ps : List (Int × Option Record)) (i : Nat), (rebuild_ops cs i ps).length = ps.length
  | [], _ => rfl
  | p :: t, i => by
    simp only [rebuild_ops, List.length_cons, rebuild_ops_length cs t (i + 1)]

theorem rebuild_ops_allocate (cs : Nat → Nat → Bool) :
    ∀ (ps : List (Int × Option Record)) (i : Nat),
      ∀ op ∈ rebuild_ops cs i ps, op.allocates = true
  | [], _, op, h => by simp [rebuild_ops] at h
  | p :: t, i, op, h => by
    simp only [rebuild_ops, List.mem_cons] at h
    rcases h with rfl | h
    · rfl
    · exact rebuild_ops_allocate cs t (i + 1) op h

theorem delete_ops_allocate (dels : List Int) :
    ∀ op ∈ dels.map Op.delete, op.allocates = true := by
  intro op h
  obtain ⟨d, _, rfl⟩ := List.mem_map.1 h
  rfl

theorem wf_empty_links {s : SkipList} (h : WF s []) {i : Nat} (hi : i < MAX_LEVEL) :
    fwd s.mem s.header i = some none := by
  have := wf_seg h hi
  simpa [atLevel, seg] using this

theorem count_heads_loop (coins : Nat → Bool) :
    ∀ (cap level fuel : Nat), level + cap = MAX_LEVEL - 1 → cap < fuel →
      random_level_loop coins fuel level
        = level + count_heads (fun n => coins (level + n)) cap
  | 0, level, fuel, h, hf => by
    obtain ⟨f, rfl⟩ : ∃ f, fuel = f + 1 := ⟨fuel - 1, by omega⟩
    have hl : ¬ level < MAX_LEVEL - 1 := by omega
    simp [random_level_loop, count_heads, hl]
  | cap + 1, level, fuel, h, hf => by
    obtain ⟨f, rfl⟩ : ∃ f, fuel = f + 1 := ⟨fuel - 1, by omega⟩
    have hl : level < MAX_LEVEL - 1 := by omega
    unfold random_level_loop count_heads
    by_cases hc : coins level = true
    · have ih := count_heads_loop coins cap (level + 1) f (by omega) (by omega)
      simp only [hc, hl, decide_True, Bool.and_self, if_true, Nat.add_zero]
      rw [ih]
      have : (fun n => coins (level + 1 + n)) = (fun n => coins (level + (n + 1))) := by
        funext n
        congr 1
        omega
      rw [this]
      omega
    · simp only [Bool.not_eq_true] at hc
      simp [hc]

theorem count_heads_le : ∀ (cap : Nat) (coins : Nat → Bool), count_heads coins cap ≤ cap
  | 0, _ => le_refl _
  | cap + 1, coins => by
    unfold count_heads
    split
    · have := count_heads_le cap (fun n => coins (n + 1))
      omega
    · omega

theorem count_heads_true :
    ∀ (cap : Nat) (coins : Nat → Bool) (i : Nat), i < count_heads coins cap → coins i = true
  | 0, _, i, h => by simp [count_heads] at h
  | cap + 1, coins, i, h => by
    unfold count_heads at h
    split at h
    · rename_i hc
      cases i with
      | zero => exact hc
      | succ j => exact count_heads_true cap (fun n => coins (n + 1)) j (by omega)
    · omega

theorem count_heads_stop :
    ∀ (cap : Nat) (coins : Nat → Bool), count_heads coins cap < cap →
      coins (count_heads coins cap) = false
  | 0, _, h => by simp [count_heads] at h
  | cap + 1, coins, h => by
    unfold count_heads at h ⊢
    split
    · rename_i hc
      rw [if_pos hc] at h
      have := count_heads_stop cap (fun n => coins (n + 1)) (by omega)
      rw [Nat.add_comm 1]
      exact this
    · rename_i hc
      simpa using hc

theorem random_level_eq (coins : Nat → Bool) :
    random_level coins = count_heads coins (MAX_LEVEL - 1) := by
  have := count_heads_loop coins (MAX_LEVEL - 1) 0 MAX_LEVEL (by simp) (by decide)
  unfold random_level
  rw [this]
  simp

theorem load_pairs_length_le :
    ∀ (recs : List Record) (acc : List (Int × Option Record)),
      (load_pairs acc recs).length ≤ acc.length + recs.length
  | [], acc => by simp [load_pairs]
  | r :: rest, acc => by
    unfold load_pairs
    split
    · have := load_pairs_length_le rest acc
      simp only [List.length_cons]
      omega
    · have := load_pairs_length_le rest (insert_pair r.id (some r) acc)
      rw [insert_pair_length] at this
      simp only [List.length_cons]
      omega

/-! ## `strncpy` and `create_record` -/

theorem c_string_nil : c_string [] = [] := rfl

theorem c_string_cons (c : Nat) (rest : List Nat) :
    c_string (c :: rest) = if c = 0 then [] else c :: c_string rest := by
  unfold c_string
  rw [List.takeWhile_cons]
  by_cases h : c = 0 <;> simp [h]

theorem strncpy_length (src : List Nat) : ∀ (n : Nat) , (strncpy src n).length = n := by
  intro n
  induction n generalizing src with
  | zero => simp [strncpy]
  | succ n ih =>
    unfold strncpy
    cases src with
    | nil => simp
    | cons c rest =>
      simp only
      split
      · simp
      · simp [ih]

/-- The bytes `strncpy` writes: the string cut at `n` bytes, then NUL bytes. -/
theorem strncpy_eq :
    ∀ (n : Nat) (src : List Nat),
      strncpy src n
        = (c_string src).take n ++ List.replicate (n - min (c_string src).length n) 0
  | 0, src => by simp [strncpy]
  | n + 1, [] => by simp [strncpy, c_string_nil]
  | n + 1, c :: rest => by
    unfold strncpy
    rw [c_string_cons]
    by_cases h : c = 0
    · simp [h]
    · simp only [h, if_false, List.take_succ_cons, List.length_cons, List.cons_append,
        strncpy_eq n rest]
      have : n + 1 - min ((c_string rest).length + 1) (n + 1)
          = n - min (c_string rest).length n := by omega
      rw [this]

theorem c_string_no_nul (src : List Nat) : ∀ c ∈ c_string src, c ≠ 0 := by
  intro c hc
  unfold c_string at hc
  have := List.mem_takeWhile_imp hc
  simpa using this

theorem c_string_append_nul (l : List Nat) (hl : ∀ c ∈ l, c ≠ 0) (k : Nat) :
    c_string (l ++ List.replicate (k + 1) 0) = l := by
  induction l with
  | nil => simp [c_string, List.replicate_succ]
  | cons c t ih =>
    have hc := hl c (by simp)
    rw [List.cons_append, c_string_cons, if_neg hc,
      ih (fun x hx => hl x (List.mem_cons_of_mem _ hx))]

/-! ## `shuffle_ids` -/

theorem swap_cells_some {array : List Int} {i j : Nat} (hi : i < array.length)
    (hj : j < array.length) :
    swap_cells array i j = some ((array.set i array[j]).set j array[i]) := by
  unfold swap_cells
  rw [List.getElem?_eq_getElem hi, List.getElem?_eq_getElem hj]

theorem swap_perm {array : List Int} {i j : Nat} (hi : i < array.length)
    (hj : j < array.length) : ((array.set i array[j]).set j array[i]).Perm array := by
  rw [List.perm_iff_count]
  intro b
  have hj1 : j < (array.set i array[j]).length := by simpa using hj
  rw [List.count_set _ _ _ _ hj1, List.count_set _ _ _ _ hi]
  have hget : (array.set i array[j])[j] = array[j] := by
    rw [List.getElem_set]
    split
    · rfl
    · rfl
  rw [hget]
  have h1 : (if array[i] == b then 1 else 0) ≤ array.count b := by
    by_cases hb : array[i] = b
    · have hm : b ∈ array := by rw [← hb]; exact List.getElem_mem hi
      have := List.count_pos_iff.2 hm
      simp only [hb, beq_self_eq_true, if_true]
      omega
    · simp [hb]
  by_cases ha : (array[i] == b) = true <;> by_cases hb : (array[j] == b) = true <;>
    simp only [ha, hb, if_true, if_false] at h1 ⊢ <;> omega

theorem shuffle_loop_perm (draws : Nat → Nat) :
    ∀ (m k : Nat) (array : List Int), m < array.length →
      ∃ array1, shuffle_loop draws m k array = some array1 ∧ array1.Perm array
  | 0, k, array, _ => ⟨array, rfl, List.Perm.refl _⟩
  | m + 1, k, array, h => by
    have hj : draws k % (m + 1 + 1) < array.length :=
      lt_of_lt_of_le (Nat.mod_lt _ (by omega)) (by omega)
    have hlen : ((array.set (m + 1) array[draws k % (m + 1 + 1)]).set
        (draws k % (m + 1 + 1)) array[m + 1]).length = array.length := by simp
    obtain ⟨array1, h1, h2⟩ := shuffle_loop_perm draws m (k + 1)
      ((array.set (m + 1) array[draws k % (m + 1 + 1)]).set (draws k % (m + 1 + 1))
        array[m + 1]) (by rw [hlen]; omega)
    refine ⟨array1, ?_, h2.trans (swap_perm h hj)⟩
    unfold shuffle_loop
    rw [swap_cells_some h hj]
    exact h1

/-! ## Search on a linked list -/

theorem wf_linked {s : SkipList} {ns : List Nat} (h : WF s ns) : Linked s ns :=
  ⟨fun _ ha => wf_level_le h ha, wf_sorted h,
    fun _ hi => wf_seg h (lt_of_le_of_lt hi h.1)⟩

theorem linked_seg0 {s : SkipList} {ns : List Nat} (h : Linked s ns) :
    seg s.mem 0 s.header ns none := by
  have := h.2.2 0 (Nat.zero_le _)
  rwa [atLevel_zero] at this

theorem linked_live {s : SkipList} {ns : List Nat} (h : Linked s ns) {a : Nat} (ha : a ∈ ns) :
    ∃ n, nodeAt s.mem a = some n := by
  obtain ⟨q, hq⟩ := seg_live ns s.header none (linked_seg0 h) a (List.mem_cons_of_mem _ ha)
  exact nodeAt_of_fwd hq

theorem advance_linked {s : SkipList} {L R : List Nat} {key : Int} (h : Linked s (L ++ R))
    (h1 : ∀ x ∈ L, keyOf s.mem x < key) (h2 : ∀ x ∈ R, ¬ keyOf s.mem x < key)
    {fuel : Nat} (hf : (L ++ R).length < fuel) {i : Nat} (hi : i ≤ s.level) {c : Nat}
    (hc : c = s.header ∨ c ∈ atLevel s.mem i L) :
    advance s.mem i key fuel c = some (lastFrom s.header (atLevel s.mem i L)) := by
  have hs := h.2.2 i hi
  rw [atLevel_append] at hs
  refine advance_from hs (fun x hx => h1 x (mem_atLevel.1 hx).1)
    (fun x hx => h2 x (mem_atLevel.1 hx).1) ?_ hc
  have := atLevel_length_le s.mem i L
  simp at hf
  omega

theorem search_levels_linked {s : SkipList} {L R : List Nat} {key : Int}
    (h : Linked s (L ++ R))
    (h1 : ∀ x ∈ L, keyOf s.mem x < key) (h2 : ∀ x ∈ R, ¬ keyOf s.mem x < key)
    {fuel : Nat} (hf : (L ++ R).length < fuel) :
    ∀ (i : Nat), i ≤ s.level → ∀ (c : Nat), (c = s.header ∨ c ∈ atLevel s.mem i L) →
      search_levels fuel s.mem key i c = some (lastFrom s.header L)
  | 0, hi, c, hc => by
    unfold search_levels
    rw [advance_linked h h1 h2 hf hi hc, atLevel_zero]
  | i + 1, hi, c, hc => by
    unfold search_levels
    rw [advance_linked h h1 h2 hf hi hc]
    simp only [Option.some_bind]
    refine search_levels_linked h h1 h2 hf i (by omega) _ ?_
    rcases pred_mem s L (i + 1) with hp | hp
    · exact Or.inl hp
    · refine Or.inr (mem_atLevel.2 ⟨(mem_atLevel.1 hp).1, ?_⟩)
      have := (mem_atLevel.1 hp).2
      omega

theorem search_linked {s : SkipList} {ns : List Nat} (h : Linked s ns) (key : Int)
    {fuel : Nat} (hf : ns.length < fuel) :
    search_skiplist fuel (some s) key = some (lookup (entries s.mem ns) key) := by
  obtain ⟨L, R, rfl, h1, h2⟩ := split_at_key s.mem key ns h.2.1
  rw [lookup_split h.2.1 h1 h2]
  have hsl := search_levels_linked h h1 h2 hf s.level (le_refl _) s.header (Or.inl rfl)
  have hlink : fwd s.mem (lastFrom s.header L) 0 = some R.head? := by
    rw [seg_last_link L s.header R none (linked_seg0 h)]
    cases R <;> rfl
  unfold search_skiplist
  simp only [hsl, hlink]
  cases R with
  | nil => rfl
  | cons c R =>
    obtain ⟨n, hn⟩ := linked_live h (a := c) (by simp)
    simp only [List.head?_cons, hn, keyOf_eq hn, valueOf_eq hn, found_at]
    split <;> rfl

theorem traverse_linked {s : SkipList} {ns : List Nat} (h : Linked s ns) {fuel : Nat}
    (hf : ns.length ≤ fuel) : traverse fuel s = some (entries s.mem ns) := by
  unfold traverse level_chain
  rw [walk_seg _ _ _ (linked_seg0 h) hf]
  rfl

/-! ## The predecessors, read on the chains -/

theorem filter_below_split {mem : Heap} {key : Int} {L R : List Nat}
    (h1 : ∀ x ∈ L, keyOf mem x < key) (h2 : ∀ x ∈ R, ¬ keyOf mem x < key) (i : Nat) :
    (atLevel mem i (L ++ R)).filter (fun a => decide (keyOf mem a < key)) = atLevel mem i L := by
  rw [atLevel_append, List.filter_append, List.filter_eq_self.2, List.filter_eq_nil_iff.2]
  · simp
  · intro x hx
    simpa using h2 x (mem_atLevel.1 hx).1
  · intro x hx
    simpa using h1 x (mem_atLevel.1 hx).1

theorem find_from_split {mem : Heap} {key : Int} {L R : List Nat}
    (h1 : ∀ x ∈ L, keyOf mem x < key) (h2 : ∀ x ∈ R, ¬ keyOf mem x < key) :
    (L ++ R).find? (fun a => decide (key ≤ keyOf mem a)) = R.head? := by
  have hL : L.find? (fun a => decide (key ≤ keyOf mem a)) = none := by
    rw [List.find?_eq_none]
    intro x hx
    have := h1 x hx
    simp
    omega
  rw [List.find?_append, hL]
  cases R with
  | nil => rfl
  | cons c R =>
    have := h2 c (by simp)
    have hc : key ≤ keyOf mem c := by omega
    simp [List.find?_cons, hc]

/-! ## Deletion, link by link -/

theorem unlink_guards_spec (c : Nat) (upd : List (Option Nat)) (pr : Nat → Nat) :
    ∀ (cnt i : Nat) (mem : Heap),
      (∀ j, i ≤ j → j < i + cnt → upd[j]? = some (some (pr j)) ∧ pr j ≠ c ∧
        fwd mem (pr j) j = some (some c) ∧ ∃ e, fwd mem c j = some e) →
      unlink_guards c upd i cnt mem = some (List.replicate cnt true)
  | 0, i, mem, _ => rfl
  | cnt + 1, i, mem, h => by
    obtain ⟨hu, hne, hp, ⟨e1, he1⟩⟩ := h i (le_refl _) (by omega)
    obtain ⟨m1, hm1⟩ := setFwd_of_fwd e1 hp
    have hf1 : ∀ x j, fwd m1 x j = if x = pr i ∧ j = i then some e1 else fwd mem x j :=
      fun x j => fwd_setFwd hm1 x j
    have ih := unlink_guards_spec c upd pr cnt (i + 1) m1 (by
      intro j h1 h2
      obtain ⟨hu1, hne1, hp1, ⟨e3, he3⟩⟩ := h j (by omega) (by omega)
      have hji : j ≠ i := by omega
      refine ⟨hu1, hne1, ?_, ⟨e3, ?_⟩⟩
      · rw [hf1]; simp [hji, hp1]
      · rw [hf1]; simp [hji, he3])
    unfold unlink_guards
    simp only [hu, hp, he1, hm1, if_true, ih]
    rfl

theorem seg_next_mem {mem : Heap} {i : Nat} :
    ∀ (l : List Nat) (a : Nat) (e : Option Nat), seg mem i a l e →
      ∀ x ∈ a :: l, ∀ y, fwd mem x i = some (some y) → y ∈ l ∨ e = some y
  | [], a, e, h, x, hx, y, hy => by
    simp at hx
    subst hx
    simp only [seg] at h
    rw [h] at hy
    right
    simpa using hy
  | b :: l, a, e, h, x, hx, y, hy => by
    simp only [seg] at h
    rcases List.mem_cons.1 hx with rfl | hx
    · rw [h.1] at hy
      left
      simp at hy
      rw [← hy]
      simp
    · rcases seg_next_mem l b e h.2 x hx y hy with hm | hm
      · exact Or.inl (List.mem_cons_of_mem _ hm)
      · exact Or.inr hm

/-- In a well-formed list no link of the header or of a node of the list
points at an address outside the list. -/
theorem wf_no_link_to {s : SkipList} {ns : List Nat} (h : WF s ns) {c : Nat} (hc : c ∉ ns) :
    ∀ x ∈ s.header :: ns, ∀ i, fwd s.mem x i ≠ some (some c) := by
  intro x hx i hfw
  have key : i < MAX_LEVEL ∧ x ∈ s.header :: atLevel s.mem i ns := by
    obtain ⟨n, hn, hq⟩ := fwd_eq_some hfw
    have hi : i < n.forward.length := by
      by_contra hlt
      rw [List.getElem?_eq_none (by omega)] at hq
      simp at hq
    rcases List.mem_cons.1 hx with rfl | hx
    · obtain ⟨n1, hn1, hlen⟩ := wf_header h
      rw [hn] at hn1
      cases hn1
      exact ⟨by omega, by simp⟩
    · obtain ⟨n1, hn1, hfl, hll, _⟩ := wf_node h hx
      rw [hn] at hn1
      cases hn1
      have := h.1
      refine ⟨by omega, List.mem_cons_of_mem _ (mem_atLevel.2 ⟨hx, ?_⟩)⟩
      rw [levelOf_eq hn]
      omega
  rcases seg_next_mem _ _ _ (wf_seg h key.1) x key.2 c hfw with hm | hm
  · exact hc (mem_atLevel.1 hm).1
  · simp at hm

theorem delete_present_detail {s : SkipList} {L R : List Nat} {key : Int} {c : Nat}
    (h : WF s (L ++ c :: R))
    (h1 : ∀ x ∈ L, keyOf s.mem x < key) (hc : keyOf s.mem c = key)
    {fuel : Nat} (hf : (L ++ c :: R).length < fuel) :
    ∃ upd n mem1 l1,
      find_update fuel s.mem key s.level s.header update_init
        = some (lastFrom s.header L, upd) ∧
      fwd s.mem (lastFrom s.header L) 0 = some (some c) ∧
      nodeAt s.mem c = some n ∧ n.key = key ∧
      (∀ i, i ≤ n.level → ∃ p, upd[i]? = some (some p) ∧ fwd s.mem p i = some (some c)) ∧
      unlink_guards c upd 0 (n.level + 1) s.mem = some (List.replicate (n.level + 1) true) ∧
      delete_skiplist fuel (some s) key
        = some (1, some { mem := mem1, header := s.header, level := l1, size := s.size - 1 }) ∧
      WF { mem := mem1, header := s.header, level := l1, size := s.size - 1 } (L ++ R) ∧
      nodeAt mem1 c = none ∧ c ∉ L ++ R := by
  have h2 : ∀ x ∈ c :: R, ¬ keyOf s.mem x < key := by
    intro x hx
    rcases List.mem_cons.1 hx with rfl | hx
    · omega
    · have := (List.pairwise_cons.1 (List.pairwise_append.1 (wf_sorted h)).2.1).1 x hx
      omega
  obtain ⟨upd, he, hul, hua, hub⟩ := descent_wf h h1 h2 hf
  obtain ⟨n, hn, hnf, hnl, hnk, hnv⟩ := wf_node h (a := c) (by simp)
  have hkey : n.key = key := by rw [← keyOf_eq hn]; exact hc
  have hk : ¬ key < 0 := by omega
  have hlc : levelOf s.mem c = n.level := levelOf_eq hn
  have hnd := wf_nodup h
  have hcne : ∀ x ∈ s.header :: (L ++ R), x ≠ c := by
    rintro x hx rfl
    rw [List.nodup_cons] at hnd
    rcases List.mem_cons.1 hx with hx | hx
    · exact hnd.1 (by rw [← hx]; simp)
    · have := List.nodup_append.1 hnd.2
      rcases List.mem_append.1 hx with hx | hx
      · exact this.2.2 hx (List.mem_cons_self _ _)
      · exact (List.nodup_cons.1 this.2.1).1 hx
  have hpin : ∀ j, lastFrom s.header (atLevel s.mem j L) ∈ s.header :: (L ++ R) :=
    fun j => wf_pred_mem L R j
  have hpre : ∀ j, 0 ≤ j → j < 0 + (n.level + 1) →
      upd[j]? = some (some (lastFrom s.header (atLevel s.mem j L))) ∧
      lastFrom s.header (atLevel s.mem j L) ≠ c ∧
      fwd s.mem (lastFrom s.header (atLevel s.mem j L)) j = some (some c) ∧
      ∃ e, fwd s.mem c j = some e := by
    intro j _ hj
    have hjl : j ≤ n.level := by omega
    have hjm : j < MAX_LEVEL := lt_of_le_of_lt (le_trans hjl hnl) h.1
    have hs := wf_seg h hjm
    rw [atLevel_append, atLevel_cons, hlc] at hs
    simp only [hjl, if_true] at hs
    refine ⟨hua j (le_trans hjl hnl), hcne _ (hpin j), ?_, ?_⟩
    · exact seg_last_link _ _ _ _ hs
    · exact seg_live _ _ _ hs c (by simp)
  obtain ⟨m1, hun, hsh, ha, hb⟩ := unlink_spec c upd
    (fun j => lastFrom s.header (atLevel s.mem j L)) (n.level + 1) 0 s.mem hpre
  have hguards := unlink_guards_spec c upd
    (fun j => lastFrom s.header (atLevel s.mem j L)) (n.level + 1) 0 s.mem hpre
  have hsh1 : ∀ x ∈ s.header :: (L ++ R), shape (m1.set c none) x = shape s.mem x := by
    intro x hx
    rw [shape_free_ne _ (hcne x hx), hsh]
  have hfw : ∀ x ∈ s.header :: (L ++ R), ∀ j, fwd (m1.set c none) x j = fwd m1 x j :=
    fun x hx j => fwd_free_ne _ (hcne x hx) j
  obtain ⟨l1, hshr, hl1, htight, hzero⟩ := shrink_level_spec (m1.set c none) s.header s.level (by
    intro j hj
    refine fwd_some_of_shape (hsh1 s.header (by simp)) ?_
    obtain ⟨q, hq⟩ := seg_live _ _ _ (wf_seg h (lt_of_le_of_lt hj h.1)) s.header (by simp)
    exact ⟨q, hq⟩)
  have hsize : (if s.size = 0 then SIZE_MAX else s.size - 1) = s.size - 1 := by
    have := h.2.1
    simp at this
    rw [if_neg (by omega)]
  have hclen : c < m1.length := by
    have hshc := congrFun hsh c
    obtain ⟨n1, hn1, _⟩ := nodeAt_of_shape hshc hn
    exact nodeAt_lt hn1
  refine ⟨upd, n, m1.set c none, l1, he, pred_link_wf h, hn, hkey, ?_, hguards, ?_, ?_, ?_, ?_⟩
  · intro i hi
    obtain ⟨a1, _, a3, _⟩ := hpre i (Nat.zero_le _) (by omega)
    exact ⟨_, a1, a3⟩
  · simp only [delete_skiplist, hk, if_false, he, pred_link_wf h, List.head?_cons, hn, hkey,
      if_true, hun, hshr, hsize]
  · refine wf_delete h hsh1 ?_ ?_ hl1 hzero
    · intro j hj
      rw [hlc] at hj
      obtain ⟨b1, b2⟩ := hb j (Nat.zero_le _) (by omega)
      refine ⟨by rw [hfw _ (hpin j), b1], ?_⟩
      intro x hx hne
      rw [hfw x hx, b2 x hne]
    · intro j hj x hx
      rw [hlc] at hj
      rw [hfw x hx, ha x j (by omega)]
  · rw [nodeAt_set _ _ _ _ hclen]
    simp
  · intro hm
    exact hcne c (List.mem_cons_of_mem _ hm) rfl

/-! ## Runs with searches -/

theorem abstract_calls_length :
    ∀ (calls : List Call) (ps : List (Int × Option Record)),
      (abstract_calls ps calls).length = calls.length
  | [], _ => rfl
  | Call.insert key value :: rest, ps => by
    simp [abstract_calls, abstract_calls_length rest]
  | Call.delete key :: rest, ps => by
    simp [abstract_calls, abstract_calls_length rest]
  | Call.search key :: rest, ps => by
    simp [abstract_calls, abstract_calls_length rest]

/-- A run of calls is what the sequence of pairs alone determines, whatever the
coin flips. -/
theorem run_calls_refines (cs : Nat → Nat → Bool) {fuel : Nat} :
    ∀ (calls : List Call) (i : Nat) (s : SkipList) (ns : List Nat), WF s ns →
      ns.length + calls.length < fuel →
      run_calls fuel cs i s calls = some (abstract_calls (entries s.mem ns) calls)
  | [], _, _, _, _, _ => rfl
  | Call.insert key value :: rest, i, s, ns, h, hf => by
    simp only [List.length_cons] at hf
    have hf1 : ns.length < fuel := by omega
    obtain ⟨s1, ns1, hres, hwf1, hent1, hlen1, _⟩ := insert_refines h hf1 key value (cs i) true
    have hco : abstract_step (entries s.mem ns) (Op.insert key value (cs i) true)
        = abstract_step (entries s.mem ns) (Op.insert key value (fun _ => false) true) := rfl
    rw [hco] at hres hent1
    have hf2 : ns1.length + rest.length < fuel := by omega
    have ih := run_calls_refines cs rest (i + 1) s1 ns1 hwf1 hf2
    have htr := traverse_wf hwf1 (show ns1.length ≤ fuel by omega)
    have hsz : s1.size = (entries s1.mem ns1).length := by rw [entries_length, hwf1.2.1]
    simp only [run_calls, call_step, hres, htr, ih, abstract_calls, hsz, hent1]
  | Call.delete key :: rest, i, s, ns, h, hf => by
    simp only [List.length_cons] at hf
    have hf1 : ns.length < fuel := by omega
    obtain ⟨s1, ns1, hres, hwf1, hent1, hlen1, _⟩ := delete_refines h hf1 key
    have hf2 : ns1.length + rest.length < fuel := by omega
    have ih := run_calls_refines cs rest (i + 1) s1 ns1 hwf1 hf2
    have htr := traverse_wf hwf1 (show ns1.length ≤ fuel by omega)
    have hsz : s1.size = (entries s1.mem ns1).length := by rw [entries_length, hwf1.2.1]
    simp only [run_calls, call_step, hres, htr, ih, abstract_calls, hsz, hent1]
  | Call.search key :: rest, i, s, ns, h, hf => by
    simp only [List.length_cons] at hf
    have hf1 : ns.length < fuel := by omega
    have hf2 : ns.length + rest.length < fuel := by omega
    have ih := run_calls_refines cs rest (i + 1) s ns h hf2
    have htr := traverse_wf h (show ns.length ≤ fuel by omega)
    have hsz : s.size = (entries s.mem ns).length := by rw [entries_length, h.2.1]
    simp only [run_calls, call_step, search_wf h key hf1, htr, ih, abstract_calls, hsz]

/-! ## The claims -/

/-- C1. After any sequence of insert and delete calls on a fresh list, whatever
the coin flips and allocation outcomes, the calls all return (fuel above the
number of calls is enough), and on the resulting list `search_skiplist` returns
for every key the value most recently inserted with success under that key and
not deleted since, and `NULL` when there is none; for a negative key (the
header's `-1` included) it returns `NULL`. -/
theorem search_returns_stored (ops : List Op) :
    (∃ s tr, run (ops.length + 1) (create_skiplist true) ops = some (some s, tr)) ∧
    ∀ (fuel : Nat) (s : SkipList) (tr : List (Op × Int)),
      run fuel (create_skiplist true) ops = some (some s, tr) →
      ∀ (key : Int) (fuel1 : Nat), s.size < fuel1 →
        search_skiplist fuel1 (some s) key = some (stored tr key) ∧
        (key < 0 → search_skiplist fuel1 (some s) key = some none) := by
  constructor
  · obtain ⟨s1, ns1, hrun, _⟩ := run_refines ops _ [] (ops.length + 1)
      (wf_create create_skiplist_eq) (by simp)
    rw [create_skiplist_eq]
    exact ⟨s1, _, hrun⟩
  · intro fuel s tr hrun key fuel1 hf
    obtain ⟨s1, ns, hs, hwf, htr, hent, _, _⟩ := run_create hrun
    cases hs
    have hsz : ns.length < fuel1 := by rw [← hwf.2.1]; exact hf
    have hsearch := search_wf hwf key hsz
    have hst : stored tr key = lookup (entries s.mem ns) key := by
      unfold stored
      rw [htr, hent, ← lookup_nil, stored_abstract]
    refine ⟨by rw [hsearch, hst], fun hneg => ?_⟩
    rw [hsearch, lookup_none_of_not_mem]
    intro hk
    have := wf_keys_nonneg hwf hk
    omega

theorem search_returns_stored_witness :
    run 5 (create_skiplist true) demo_ops = some (some demo_list, demo_trace) ∧
    (search_skiplist 5 (some demo_list) 9 = some (stored demo_trace 9) ∧
      ((9 : Int) < 0 → search_skiplist 5 (some demo_list) 9 = some none)) :=
  ⟨rfl, (search_returns_stored demo_ops).2 5 demo_list demo_trace rfl 9 5 (by decide)⟩

/-- C2. In every list reachable from a fresh one by insert and delete calls,
the walk of level 0 from `header->forward[0]` ends and yields keys in strictly
ascending order, none repeated, and visits exactly `size` nodes. -/
theorem level0_sorted (s : SkipList) (h : Reachable s) (fuel : Nat) (hf : s.size ≤ fuel) :
    ∃ ps, traverse fuel s = some ps ∧ (ps.map Prod.fst).Pairwise (· < ·) ∧
      (ps.map Prod.fst).Nodup ∧ ps.length = s.size := by
  obtain ⟨fuel0, ops, tr, hrun⟩ := h
  obtain ⟨s1, ns, hs, hwf, _⟩ := run_create hrun
  cases hs
  refine ⟨entries s.mem ns, traverse_wf hwf (by rw [← hwf.2.1]; exact hf), sorted_entries hwf,
    ?_, by rw [entries_length, hwf.2.1]⟩
  exact (sorted_entries hwf).imp (fun {a b} hab => ne_of_lt hab)

theorem level0_sorted_witness :
    Reachable demo_list ∧
    ∃ ps, traverse 4 demo_list = some ps ∧ (ps.map Prod.fst).Pairwise (· < ·) ∧
      (ps.map Prod.fst).Nodup ∧ ps.length = demo_list.size :=
  ⟨⟨5, demo_ops, demo_trace, rfl⟩,
    level0_sorted demo_list ⟨5, demo_ops, demo_trace, rfl⟩ 4 (by decide)⟩

/-- C3. On a well-formed list, inserting a non-negative key that is not stored,
with a non-null value, any coin flips and a successful allocation, returns 1,
increases `size` by exactly 1, and turns the level-0 sequence of pairs into the
previous one with the new pair put at its sorted position: the result is
strictly ascending and every previous pair is still there. -/
theorem insert_absent_key (s : SkipList) (ns : List Nat) (h : WF s ns) (key : Int)
    (hk : 0 ≤ key) (hab : key ∉ (entries s.mem ns).map Prod.fst) (v : Record)
    (coins : Nat → Bool) (fuel : Nat) (hf : ns.length < fuel) :
    ∃ s1, insert_skiplist fuel (some s) key (some v) coins true = some (1, some s1) ∧
      s1.size = s.size + 1 ∧
      traverse fuel s = some (entries s.mem ns) ∧
      traverse fuel s1 = some (insert_pair key (some v) (entries s.mem ns)) ∧
      ((insert_pair key (some v) (entries s.mem ns)).map Prod.fst).Pairwise (· < ·) ∧
      (key, some v) ∈ insert_pair key (some v) (entries s.mem ns) ∧
      ∀ p ∈ entries s.mem ns, p ∈ insert_pair key (some v) (entries s.mem ns) := by
  obtain ⟨s1, ns1, hres, hwf, hent, hlen, _⟩ := insert_refines h hf key (some v) coins true
  have hc : ¬ (some v = none ∨ key < 0 ∨ key ∈ (entries s.mem ns).map Prod.fst ∨
      true = false) := by
    intro e
    rcases e with e | e | e | e
    · simp at e
    · omega
    · exact hab e
    · simp at e
  simp only [abstract_step, if_neg hc] at hres hent
  have hlen1 : ns1.length = ns.length + 1 := by
    have := congrArg List.length hent
    rw [entries_length] at this
    rw [this]
    have hl : ∀ (ps : List (Int × Option Record)),
        (insert_pair key (some v) ps).length = ps.length + 1 := by
      intro ps
      induction ps with
      | nil => rfl
      | cons p t ih =>
        unfold insert_pair
        split
        · simp
        · simp [ih]
    rw [hl, entries_length]
  refine ⟨s1, hres, ?_, traverse_wf h (by omega), ?_, ?_, ?_, ?_⟩
  · rw [hwf.2.1, h.2.1, hlen1]
  · rw [← hent]
    exact traverse_wf hwf (by omega)
  · rw [← hent]
    exact sorted_entries hwf
  · exact (mem_insert_pair _ _ _ _).2 (Or.inl rfl)
  · intro p hp
    exact (mem_insert_pair _ _ _ _).2 (Or.inr hp)

theorem insert_absent_key_witness :
    WF demo_list demo_chain ∧ (0 : Int) ≤ 7 ∧
    (7 : Int) ∉ (entries demo_list.mem demo_chain).map Prod.fst ∧ demo_chain.length < 5 ∧
    ∃ s1, insert_skiplist 5 (some demo_list) 7 (some (demo_record 7)) (fun _ => true) true
        = some (1, some s1) ∧
      s1.size = demo_list.size + 1 ∧
      traverse 5 demo_list = some (entries demo_list.mem demo_chain) ∧
      traverse 5 s1
        = some (insert_pair 7 (some (demo_record 7)) (entries demo_list.mem demo_chain)) ∧
      ((insert_pair 7 (some (demo_record 7)) (entries demo_list.mem demo_chain)).map
        Prod.fst).Pairwise (· < ·) ∧
      (7, some (demo_record 7))
        ∈ insert_pair 7 (some (demo_record 7)) (entries demo_list.mem demo_chain) ∧
      ∀ p ∈ entries demo_list.mem demo_chain,
        p ∈ insert_pair 7 (some (demo_record 7)) (entries demo_list.mem demo_chain) :=
  ⟨by decide, by decide, by decide, by decide,
    insert_absent_key demo_list demo_chain (by decide) 7 (by decide) (by decide)
      (demo_record 7) (fun _ => true) 5 (by decide)⟩

/-- C4. On a well-formed list `insert_skiplist` returns 0 or 1, and it returns 0
exactly when the key is already stored, or the key is negative, or the
allocation of the new node fails, or the value is `NULL`; on a `NULL` list it
returns 0 as well. -/
theorem insert_fails_iff (s : SkipList) (ns : List Nat) (h : WF s ns) (fuel : Nat)
    (hf : ns.length < fuel) (key : Int) (value : Option Record) (coins : Nat → Bool)
    (alloc_ok : Bool) :
    insert_skiplist fuel none key value coins alloc_ok = some (0, none) ∧
    ∃ r s1, insert_skiplist fuel (some s) key value coins alloc_ok = some (r, some s1) ∧
      (r = 0 ∨ r = 1) ∧
      (r = 0 ↔ (key ∈ (entries s.mem ns).map Prod.fst ∨ key < 0 ∨ alloc_ok = false ∨
        value = none)) := by
  refine ⟨rfl, ?_⟩
  obtain ⟨s1, ns1, hres, _⟩ := insert_refines h hf key value coins alloc_ok
  refine ⟨_, s1, hres, ?_, ?_⟩
  · simp only [abstract_step]
    split
    · exact Or.inl rfl
    · exact Or.inr rfl
  · simp only [abstract_step]
    split
    · rename_i hc
      simp only [true_iff]
      tauto
    · rename_i hc
      simp only [one_ne_zero, false_iff]
      tauto

theorem insert_fails_iff_witness :
    WF demo_list demo_chain ∧ demo_chain.length < 5 ∧
    (insert_skiplist 5 none 5 (some (demo_record 0)) (fun _ => false) true = some (0, none) ∧
    ∃ r s1, insert_skiplist 5 (some demo_list) 5 (some (demo_record 0)) (fun _ => false) true
        = some (r, some s1) ∧
      (r = 0 ∨ r = 1) ∧
      (r = 0 ↔ ((5 : Int) ∈ (entries demo_list.mem demo_chain).map Prod.fst ∨ (5 : Int) < 0 ∨
        true = false ∨ some (demo_record 0) = none))) :=
  ⟨by decide, by decide,
    insert_fails_iff demo_list demo_chain (by decide) 5 (by decide) 5 (some (demo_record 0))
      (fun _ => false) true⟩

/-- C5. On a well-formed list, inserting a key that is already stored returns 0
and leaves the whole list as it was: heap (every node, link and value), header,
level and size; the candidate value is stored nowhere. -/
theorem insert_present_key (s : SkipList) (ns : List Nat) (h : WF s ns) (key : Int)
    (hk : key ∈ (entries s.mem ns).map Prod.fst) (fuel : Nat) (hf : ns.length < fuel)
    (value : Option Record) (coins : Nat → Bool) (alloc_ok : Bool) :
    insert_skiplist fuel (some s) key value coins alloc_ok = some (0, some s) := by
  obtain ⟨L, c, R, rfl, h1, hck⟩ := split_present h hk
  exact insert_dup h h1 hck hf coins alloc_ok

theorem insert_present_key_witness :
    WF demo_list demo_chain ∧
    (5 : Int) ∈ (entries demo_list.mem demo_chain).map Prod.fst ∧ demo_chain.length < 5 ∧
    insert_skiplist 5 (some demo_list) 5 (some (demo_record 0)) (fun _ => true) true
      = some (0, some demo_list) :=
  ⟨by decide, by decide, by decide,
    insert_present_key demo_list demo_chain (by decide) 5 (by decide) 5 (by decide)
      (some (demo_record 0)) (fun _ => true) true⟩

/-- C6. On a well-formed list, deleting a stored key returns 1, decreases `size`
by exactly 1, and turns the level-0 sequence of pairs into the previous one
without the pair of that key (exactly one pair less, the others unchanged and
in the same order); a search for the key afterwards returns `NULL`. -/
theorem delete_present_key (s : SkipList) (ns : List Nat) (h : WF s ns) (key : Int)
    (hk : key ∈ (entries s.mem ns).map Prod.fst) (fuel : Nat) (hf : ns.length < fuel) :
    ∃ s1, delete_skiplist fuel (some s) key = some (1, some s1) ∧
      s1.size + 1 = s.size ∧
      traverse fuel s = some (entries s.mem ns) ∧
      traverse fuel s1 = some (remove_key key (entries s.mem ns)) ∧
      (remove_key key (entries s.mem ns)).length + 1 = (entries s.mem ns).length ∧
      search_skiplist fuel (some s1) key = some none := by
  obtain ⟨s1, ns1, hres, hwf, hent, hlen, _⟩ := delete_refines h hf key
  have hc : ¬ (key < 0 ∨ key ∉ (entries s.mem ns).map Prod.fst) := by
    have := wf_keys_nonneg h hk
    intro e
    rcases e with e | e
    · omega
    · exact e hk
  simp only [abstract_step, if_neg hc] at hres hent
  have hrl := remove_key_length h hk
  have hlen1 : ns1.length + 1 = ns.length := by
    have := congrArg List.length hent
    rw [entries_length] at this
    rw [this, hrl, entries_length]
  refine ⟨s1, hres, ?_, traverse_wf h (by omega), ?_, hrl, ?_⟩
  · rw [hwf.2.1, h.2.1, hlen1]
  · rw [← hent]
    exact traverse_wf hwf (by omega)
  · rw [search_wf hwf key (by omega), hent, lookup_remove_key]
    simp

theorem delete_present_key_witness :
    WF demo_list demo_chain ∧
    (5 : Int) ∈ (entries demo_list.mem demo_chain).map Prod.fst ∧ demo_chain.length < 5 ∧
    ∃ s1, delete_skiplist 5 (some demo_list) 5 = some (1, some s1) ∧
      s1.size + 1 = demo_list.size ∧
      traverse 5 demo_list = some (entries demo_list.mem demo_chain) ∧
      traverse 5 s1 = some (remove_key 5 (entries demo_list.mem demo_chain)) ∧
      (remove_key 5 (entries demo_list.mem demo_chain)).length + 1
        = (entries demo_list.mem demo_chain).length ∧
      search_skiplist 5 (some s1) 5 = some none :=
  ⟨by decide, by decide, by decide,
    delete_present_key demo_list demo_chain (by decide) 5 (by decide) 5 (by decide)⟩

/-- C7. On a well-formed list, deleting a key that is not stored returns 0 and
leaves the whole list as it was: size, level and every link at every level. -/
theorem delete_absent_key (s : SkipList) (ns : List Nat) (h : WF s ns) (key : Int)
    (hk : key ∉ (entries s.mem ns).map Prod.fst) (fuel : Nat) (hf : ns.length < fuel) :
    delete_skiplist fuel (some s) key = some (0, some s) := by
  obtain ⟨L, R, rfl, h1, h2⟩ := split_absent h hk
  exact delete_absent h h1 h2 hf

theorem delete_absent_key_witness :
    WF demo_list demo_chain ∧
    (7 : Int) ∉ (entries demo_list.mem demo_chain).map Prod.fst ∧ demo_chain.length < 5 ∧
    delete_skiplist 5 (some demo_list) 7 = some (0, some demo_list) :=
  ⟨by decide, by decide, by decide,
    delete_absent_key demo_list demo_chain (by decide) 7 (by decide) 5 (by decide)⟩

/-- C8. For every list, well formed or not, `NULL` included, and every negative
key, `insert_skiplist` and `delete_skiplist` both return 0 and leave the list
untouched. -/
theorem negative_key_rejected (fuel : Nat) (list : Option SkipList) (key : Int)
    (hk : key < 0) (value : Option Record) (coins : Nat → Bool) (alloc_ok : Bool) :
    insert_skiplist fuel list key value coins alloc_ok = some (0, list) ∧
    delete_skiplist fuel list key = some (0, list) := by
  cases list with
  | none => exact ⟨rfl, rfl⟩
  | some l =>
    constructor
    · simp only [insert_skiplist]
      rw [if_pos (Or.inr hk)]
    · simp only [delete_skiplist]
      rw [if_pos hk]

theorem negative_key_rejected_witness :
    (-3 : Int) < 0 ∧
    (insert_skiplist 0 (some demo_list) (-3) (some (demo_record 0)) (fun _ => true) true
        = some (0, some demo_list) ∧
      delete_skiplist 0 (some demo_list) (-3) = some (0, some demo_list)) :=
  ⟨by decide,
    negative_key_rejected 0 (some demo_list) (-3) (by decide) (some (demo_record 0))
      (fun _ => true) true⟩

/-- C9 (the code at the failing input). On a fresh list, whose level is 0, an
insert of key 5 that draws level 1 and then fails to allocate the node returns
0 with heap and size untouched, but leaves the level of the list at 1 although
the header has no link at level 1. -/
theorem insert_alloc_failure_raises_level :
    create_skiplist true = some fresh_list ∧ fresh_list.level = 0 ∧
    insert_skiplist 1 (some fresh_list) 5 (some (demo_record 5)) (fun n => decide (n < 1)) false
      = some (0, some { fresh_list with level := 1 }) ∧
    fwd fresh_list.mem fresh_list.header 1 = some none := by
  decide

/-- C10. In every list reachable from a fresh one by insert and delete calls in
which no allocation fails, `level` is the highest level at which the header has
a link, and it is 0 when the list is empty. -/
theorem level_is_highest (s : SkipList) (h : ReachableNoFail s) :
    s.level = highest_level s ∧ (s.size = 0 → s.level = 0) := by
  obtain ⟨fuel0, ops, tr, hall, hrun⟩ := h
  obtain ⟨s1, ns, hs, hwf, _, _, _, ht⟩ := run_create hrun
  cases hs
  have htight := ht hall
  refine ⟨(highest_level_eq hwf htight).symm, fun h0 => ?_⟩
  rcases htight with h1 | ⟨a, ha, _⟩
  · exact h1
  · have := hwf.2.1
    rw [h0] at this
    have hnil : ns = [] := List.length_eq_zero.1 this.symm
    rw [hnil] at ha
    simp at ha

theorem level_is_highest_witness :
    ReachableNoFail demo_list ∧
    (demo_list.level = highest_level demo_list ∧ (demo_list.size = 0 → demo_list.level = 0)) :=
  ⟨⟨5, demo_ops, demo_trace, by decide, rfl⟩,
    level_is_highest demo_list ⟨5, demo_ops, demo_trace, by decide, rfl⟩⟩

/-- C11. In every list reachable from a fresh one by insert and delete calls,
at every level `i` below `MAX_LEVEL` the walk along `forward[i]` from the header
ends, and the keys of the nodes it meets are strictly increasing. -/
theorem level_keys_increasing (s : SkipList) (h : Reachable s) (i : Nat) (hi : i < MAX_LEVEL)
    (fuel : Nat) (hf : s.size ≤ fuel) :
    ∃ chain, level_chain fuel s i = some chain ∧
      (chain.map (keyOf s.mem)).Pairwise (· < ·) := by
  obtain ⟨fuel0, ops, tr, hrun⟩ := h
  obtain ⟨s1, ns, hs, hwf, _⟩ := run_create hrun
  cases hs
  refine ⟨atLevel s.mem i ns, level_chain_wf hwf hi (by rw [← hwf.2.1]; exact hf), ?_⟩
  rw [List.pairwise_map]
  exact List.Pairwise.sublist (atLevel_sublist _ _ _) (wf_sorted hwf)

theorem level_keys_increasing_witness :
    Reachable demo_list ∧ 1 < MAX_LEVEL ∧ demo_list.size ≤ 4 ∧
    ∃ chain, level_chain 4 demo_list 1 = some chain ∧
      (chain.map (keyOf demo_list.mem)).Pairwise (· < ·) :=
  ⟨⟨5, demo_ops, demo_trace, rfl⟩, by decide, by decide,
    level_keys_increasing demo_list ⟨5, demo_ops, demo_trace, rfl⟩ 1 (by decide) 4 (by decide)⟩

/-- C12. Monotone participation: in every reachable list, the chain of level
`i` is the level-0 chain restricted to the nodes whose `level` field is at
least `i`, in the same order; so a node of the level-`i` chain is on the chain
of every level `j ≤ i`, and a node is on no chain above its own level. -/
theorem monotone_participation (s : SkipList) (h : Reachable s) (i : Nat)
    (hi : i < MAX_LEVEL) (fuel : Nat) (hf : s.size ≤ fuel) :
    ∃ c0 ci, level_chain fuel s 0 = some c0 ∧ level_chain fuel s i = some ci ∧
      ci = c0.filter (fun a => decide (i ≤ levelOf s.mem a)) ∧
      (∀ a, a ∈ ci ↔ (a ∈ c0 ∧ i ≤ levelOf s.mem a)) ∧
      ∀ j, j ≤ i → ∃ cj, level_chain fuel s j = some cj ∧ ∀ a ∈ ci, a ∈ cj := by
  obtain ⟨fuel0, ops, tr, hrun⟩ := h
  obtain ⟨s1, ns, hs, hwf, _⟩ := run_create hrun
  cases hs
  have hfl : ns.length ≤ fuel := by rw [← hwf.2.1]; exact hf
  have h0 := level_chain_wf hwf (i := 0) (by decide) hfl
  rw [atLevel_zero] at h0
  refine ⟨ns, atLevel s.mem i ns, h0, level_chain_wf hwf hi hfl, rfl, fun a => mem_atLevel, ?_⟩
  intro j hj
  refine ⟨atLevel s.mem j ns, level_chain_wf hwf (lt_of_le_of_lt hj hi) hfl, ?_⟩
  intro a ha
  have := mem_atLevel.1 ha
  exact mem_atLevel.2 ⟨this.1, le_trans hj this.2⟩

theorem monotone_participation_witness :
    Reachable demo_list ∧ 1 < MAX_LEVEL ∧ demo_list.size ≤ 4 ∧
    ∃ c0 ci, level_chain 4 demo_list 0 = some c0 ∧ level_chain 4 demo_list 1 = some ci ∧
      ci = c0.filter (fun a => decide (1 ≤ levelOf demo_list.mem a)) ∧
      (∀ a, a ∈ ci ↔ (a ∈ c0 ∧ 1 ≤ levelOf demo_list.mem a)) ∧
      ∀ j, j ≤ 1 → ∃ cj, level_chain 4 demo_list j = some cj ∧ ∀ a ∈ ci, a ∈ cj :=
  ⟨⟨5, demo_ops, demo_trace, rfl⟩, by decide, by decide,
    monotone_participation demo_list ⟨5, demo_ops, demo_trace, rfl⟩ 1 (by decide) 4
      (by decide)⟩

/-- C13. Round trip: for every reachable list, inserting the pairs of its
level-0 sequence, in that order, into a fresh list, with any coin flips and
allocations that succeed, makes every insert return 1 and yields a list with
the same level-0 sequence of pairs. -/
theorem rebuild_round_trip (s : SkipList) (h : Reachable s) (fuel : Nat) (hf : s.size < fuel)
    (cs : Nat → Nat → Bool) :
    ∃ ps s2 tr, traverse fuel s = some ps ∧
      run fuel (create_skiplist true) (rebuild_ops cs 0 ps) = some (some s2, tr) ∧
      tr.length = ps.length ∧ (∀ e ∈ tr, e.2 = 1) ∧ traverse fuel s2 = some ps := by
  obtain ⟨fuel0, ops, tr0, hrun⟩ := h
  obtain ⟨s1, ns, hs, hwf, _⟩ := run_create hrun
  cases hs
  have hfl : ns.length < fuel := by rw [← hwf.2.1]; exact hf
  have hlen : (rebuild_ops cs 0 (entries s.mem ns)).length = ns.length := by
    rw [rebuild_ops_length, entries_length]
  obtain ⟨s2, ns2, hrun2, hwf2, hent2, hlen2, _⟩ := run_refines
    (rebuild_ops cs 0 (entries s.mem ns)) fresh_list [] fuel (wf_create create_skiplist_eq)
    (by rw [hlen]; simpa using hfl)
  obtain ⟨hall, hfinal⟩ := abstract_run_sorted cs (entries s.mem ns) [] 0
    (by simpa using sorted_entries hwf) (wf_entries_ok hwf)
  have he : entries fresh_list.mem [] = [] := rfl
  rw [he] at hrun2 hent2
  rw [hfinal, List.nil_append] at hent2
  have htr : (abstract_run [] (rebuild_ops cs 0 (entries s.mem ns))).1.length
      = (entries s.mem ns).length := by
    have hgen : ∀ (ops : List Op) (ps : List (Int × Option Record)),
        (abstract_run ps ops).1.length = ops.length := by
      intro ops
      induction ops with
      | nil => intro ps; rfl
      | cons op t ih => intro ps; simp [abstract_run, ih]
    rw [hgen, rebuild_ops_length]
  refine ⟨entries s.mem ns, s2, _, traverse_wf hwf (le_of_lt hfl), hrun2, htr, hall, ?_⟩
  rw [← hent2]
  refine traverse_wf hwf2 ?_
  have := congrArg List.length hent2
  rw [entries_length, entries_length] at this
  omega

theorem rebuild_round_trip_witness :
    Reachable demo_list ∧ demo_list.size < 5 ∧
    ∃ ps s2 tr, traverse 5 demo_list = some ps ∧
      run 5 (create_skiplist true) (rebuild_ops (fun _ _ => true) 0 ps) = some (some s2, tr) ∧
      tr.length = ps.length ∧ (∀ e ∈ tr, e.2 = 1) ∧ traverse 5 s2 = some ps :=
  ⟨⟨5, demo_ops, demo_trace, rfl⟩, by decide,
    rebuild_round_trip demo_list ⟨5, demo_ops, demo_trace, rfl⟩ 5 (by decide)
      (fun _ _ => true)⟩

/-- C14. After distinct non-negative keys have been inserted into a fresh list
(non-null values, any coin flips), deleting them in any order `dels`: after any
first part `d1` of the deletions every call so far has returned 1 and `size` is
the number of keys minus the number of deletions made, so each deletion lowers
it by exactly 1; and after the last one `size` and `level` are 0 and the header
has no link at any level. -/
theorem delete_all_empties (pairs : List (Int × Option Record))
    (hnd : (pairs.map Prod.fst).Nodup) (hok : ∀ p ∈ pairs, 0 ≤ p.1 ∧ p.2 ≠ none)
    (cs : Nat → Nat → Bool) (dels d1 d2 : List Int) (hperm : dels.Perm (pairs.map Prod.fst))
    (hsplit : dels = d1 ++ d2) (fuel : Nat) (hf : pairs.length + d1.length < fuel) :
    ∃ s tr, run fuel (create_skiplist true) (rebuild_ops cs 0 pairs ++ d1.map Op.delete)
        = some (some s, tr) ∧
      (∀ e ∈ tr, e.2 = 1) ∧ s.size + d1.length = pairs.length ∧
      (d2 = [] → s.size = 0 ∧ s.level = 0 ∧
        ∀ i, i < MAX_LEVEL → fwd s.mem s.header i = some none) := by
  have hlen : (rebuild_ops cs 0 pairs ++ d1.map Op.delete).length
      = pairs.length + d1.length := by
    rw [List.length_append, rebuild_ops_length, List.length_map]
  obtain ⟨s, ns, hrun, hwf, hent, _, htight⟩ := run_refines
    (rebuild_ops cs 0 pairs ++ d1.map Op.delete) fresh_list [] fuel
    (wf_create create_skiplist_eq) (by rw [hlen]; simpa using hf)
  have he : entries fresh_list.mem [] = [] := rfl
  rw [he, abstract_run_append] at hrun hent
  simp only at hent
  -- the inserts
  obtain ⟨hi1, hi2, hi3⟩ := abstract_run_inserts cs pairs [] 0 hnd
    (fun p hp => ⟨(hok p hp).1, (hok p hp).2, by simp⟩)
  have hsorted : ((abstract_run [] (rebuild_ops cs 0 pairs)).2.map Prod.fst).Nodup := by
    obtain ⟨s1, ns1, _, hwf1, hent1, _⟩ := run_refines (rebuild_ops cs 0 pairs) fresh_list []
      (pairs.length + 1) (wf_create create_skiplist_eq) (by rw [rebuild_ops_length]; simp)
    rw [he] at hent1
    rw [← hent1]
    exact (sorted_entries hwf1).imp (fun {a b} hab => ne_of_lt hab)
  -- the deletes
  have hdn : dels.Nodup := hperm.nodup_iff.2 hnd
  have hd1n : d1.Nodup := by
    rw [hsplit] at hdn
    exact (List.nodup_append.1 hdn).1
  obtain ⟨hd1, hd2⟩ := abstract_run_deletes d1 (abstract_run [] (rebuild_ops cs 0 pairs)).2
    hsorted hd1n (by
      intro d hd
      have hdk : d ∈ pairs.map Prod.fst :=
        hperm.subset (by rw [hsplit]; exact List.mem_append_left _ hd)
      refine ⟨(hi3 d).2 (Or.inr hdk), ?_⟩
      obtain ⟨p, hp, rfl⟩ := List.mem_map.1 hdk
      exact (hok p hp).1)
  have hsize : s.size + d1.length = pairs.length := by
    have := congrArg List.length hent
    rw [entries_length] at this
    rw [hwf.2.1, this, hd2, hi2]
    simp
  refine ⟨s, _, hrun, ?_, hsize, ?_⟩
  · intro e he
    rcases List.mem_append.1 he with he | he
    · exact hi1 e he
    · exact hd1 e he
  · intro hd2e
    have hdl : d1.length = pairs.length := by
      have := hperm.length_eq
      rw [hsplit, hd2e, List.append_nil, List.length_map] at this
      exact this
    have hs0 : s.size = 0 := by omega
    have hns : ns = [] := by
      have := hwf.2.1
      rw [hs0] at this
      exact List.length_eq_zero.1 this.symm
    subst hns
    refine ⟨hs0, ?_, fun i hi => wf_empty_links hwf hi⟩
    have ht := htight (by
      intro op hop
      rcases List.mem_append.1 hop with hop | hop
      · exact rebuild_ops_allocate cs pairs 0 op hop
      · exact delete_ops_allocate d1 op hop) (Or.inl rfl)
    rcases ht with ht | ⟨a, ha, _⟩
    · exact ht
    · simp at ha

theorem delete_all_empties_witness :
    ((entries demo_list.mem demo_chain).map Prod.fst).Nodup ∧
    (∀ p ∈ entries demo_list.mem demo_chain, 0 ≤ p.1 ∧ p.2 ≠ none) ∧
    ([5, 9, 1, 3] : List Int).Perm ((entries demo_list.mem demo_chain).map Prod.fst) ∧
    ([5, 9, 1, 3] : List Int) = [5, 9, 1, 3] ++ [] ∧
    (entries demo_list.mem demo_chain).length + ([5, 9, 1, 3] : List Int).length < 9 ∧
    ∃ s tr, run 9 (create_skiplist true)
        (rebuild_ops (fun _ _ => true) 0 (entries demo_list.mem demo_chain)
          ++ ([5, 9, 1, 3] : List Int).map Op.delete) = some (some s, tr) ∧
      (∀ e ∈ tr, e.2 = 1) ∧
      s.size + ([5, 9, 1, 3] : List Int).length = (entries demo_list.mem demo_chain).length ∧
      (([] : List Int) = [] → s.size = 0 ∧ s.level = 0 ∧
        ∀ i, i < MAX_LEVEL → fwd s.mem s.header i = some none) :=
  ⟨by decide, by decide, by decide, by decide, by decide,
    delete_all_empties (entries demo_list.mem demo_chain) (by decide) (by decide)
      (fun _ _ => true) [5, 9, 1, 3] [5, 9, 1, 3] [] (by decide) (by decide) 9 (by decide)⟩

/-- C15. The scenario of the specification, for any four records and any coin
flips (allocations succeeding): after inserting the keys 5, 1, 9, 3 in that
order into a fresh list the ordered traversal has the keys 1, 3, 5, 9; a search
for 9 returns the record inserted under 9 and a search for 7 returns `NULL`;
deleting 1 returns 1 and leaves the keys 3, 5, 9; deleting 1 again returns 0. -/
theorem scenario_insert_search_delete (v5 v1 v9 v3 : Record) (c1 c2 c3 c4 : Nat → Bool)
    (fuel : Nat) (hf : 4 < fuel) :
    ∃ s tr s1 s2,
      run fuel (create_skiplist true)
        [Op.insert 5 (some v5) c1 true, Op.insert 1 (some v1) c2 true,
         Op.insert 9 (some v9) c3 true, Op.insert 3 (some v3) c4 true] = some (some s, tr) ∧
      (∀ e ∈ tr, e.2 = 1) ∧
      traverse fuel s = some [(1, some v1), (3, some v3), (5, some v5), (9, some v9)] ∧
      search_skiplist fuel (some s) 9 = some (some v9) ∧
      search_skiplist fuel (some s) 7 = some none ∧
      delete_skiplist fuel (some s) 1 = some (1, some s1) ∧
      traverse fuel s1 = some [(3, some v3), (5, some v5), (9, some v9)] ∧
      delete_skiplist fuel (some s1) 1 = some (0, some s2) := by
  obtain ⟨s, ns, hrun, hwf, hent, hlen, _⟩ := run_refines
    [Op.insert 5 (some v5) c1 true, Op.insert 1 (some v1) c2 true,
     Op.insert 9 (some v9) c3 true, Op.insert 3 (some v3) c4 true] fresh_list [] fuel
    (wf_create create_skiplist_eq) (by simpa using hf)
  have he : entries fresh_list.mem [] = [] := rfl
  rw [he] at hrun hent
  have hent1 : entries s.mem ns = [(1, some v1), (3, some v3), (5, some v5), (9, some v9)] := by
    rw [hent]
    simp [abstract_run, abstract_step, insert_pair]
  have hl : ns.length = 4 := by
    have := congrArg List.length hent1
    simpa [entries_length] using this
  have hfa : ns.length < fuel := by omega
  obtain ⟨s1, ns1, hdel, hwf1, hentd, _, _⟩ := delete_refines hwf hfa 1
  rw [hent1] at hentd hdel
  have hstep1 : abstract_step [(1, some v1), (3, some v3), (5, some v5), (9, some v9)]
      (Op.delete 1) = (1, [(3, some v3), (5, some v5), (9, some v9)]) := by
    simp [abstract_step, remove_key]
  rw [hstep1] at hentd hdel
  simp only at hentd hdel
  have hl1 : ns1.length = 3 := by
    have := congrArg List.length hentd
    simpa [entries_length] using this
  have hfb : ns1.length < fuel := by omega
  obtain ⟨s2, ns2, hdel2, _, _, _, _⟩ := delete_refines hwf1 hfb 1
  rw [hentd] at hdel2
  have hstep2 : abstract_step [(3, some v3), (5, some v5), (9, some v9)] (Op.delete 1)
      = (0, [(3, some v3), (5, some v5), (9, some v9)]) := by
    simp [abstract_step]
  rw [hstep2] at hdel2
  simp only at hdel2
  refine ⟨s, _, s1, s2, hrun, ?_, ?_, ?_, ?_, hdel, ?_, hdel2⟩
  · simp [abstract_run, abstract_step, insert_pair]
  · rw [← hent1]
    exact traverse_wf hwf (by omega)
  · rw [search_wf hwf 9 (by omega), hent1]
    simp [lookup]
  · rw [search_wf hwf 7 (by omega), hent1]
    simp [lookup]
  · rw [← hentd]
    exact traverse_wf hwf1 (by omega)

theorem scenario_insert_search_delete_witness :
    4 < 5 ∧
    ∃ s tr s1 s2,
      run 5 (create_skiplist true)
        [Op.insert 5 (some (demo_record 5)) (fun _ => true) true,
         Op.insert 1 (some (demo_record 1)) (fun _ => false) true,
         Op.insert 9 (some (demo_record 9)) (fun _ => true) true,
         Op.insert 3 (some (demo_record 3)) (fun _ => false) true] = some (some s, tr) ∧
      (∀ e ∈ tr, e.2 = 1) ∧
      traverse 5 s = some [(1, some (demo_record 1)), (3, some (demo_record 3)),
        (5, some (demo_record 5)), (9, some (demo_record 9))] ∧
      search_skiplist 5 (some s) 9 = some (some (demo_record 9)) ∧
      search_skiplist 5 (some s) 7 = some none ∧
      delete_skiplist 5 (some s) 1 = some (1, some s1) ∧
      traverse 5 s1 = some [(3, some (demo_record 3)), (5, some (demo_record 5)),
        (9, some (demo_record 9))] ∧
      delete_skiplist 5 (some s1) 1 = some (0, some s2) :=
  ⟨by decide,
    scenario_insert_search_delete (demo_record 5) (demo_record 1) (demo_record 9)
      (demo_record 3) (fun _ => true) (fun _ => false) (fun _ => true) (fun _ => false) 5
      (by decide)⟩

/-- C16. A freshly created list has `size` 0 and `level` 0, its header has
`MAX_LEVEL` = 32 links, all `NULL`, and a search returns `NULL` for every key. -/
theorem fresh_list_is_empty :
    ∃ s, create_skiplist true = some s ∧ s.size = 0 ∧ s.level = 0 ∧
      (∃ h, nodeAt s.mem s.header = some h ∧ h.forward.length = 32 ∧
        h.forward = List.replicate MAX_LEVEL none) ∧
      ∀ (key : Int) (fuel : Nat), search_skiplist (fuel + 1) (some s) key = some none := by
  refine ⟨fresh_list, rfl, rfl, rfl, ⟨_, rfl, rfl, rfl⟩, ?_⟩
  intro key fuel
  have hwf : WF fresh_list [] := wf_create create_skiplist_eq
  rw [search_wf hwf key (by simp)]
  rfl

/-- C17. For every stream of coin-flip outcomes `random_level` returns the
number of consecutive successful flips at the start of the stream, capped at
`MAX_LEVEL - 1`: the result is at most 31, every flip before it succeeded, the
flip at it failed unless the cap was reached, and it is 0 when the first flip
fails.  It has no input but the flips: an insert of any absent key creates its
node with that level. -/
theorem random_level_counts_heads (coins : Nat → Bool) :
    random_level coins = count_heads coins (MAX_LEVEL - 1) ∧
    random_level coins ≤ 31 ∧
    (∀ i, i < random_level coins → coins i = true) ∧
    (random_level coins < 31 → coins (random_level coins) = false) ∧
    (coins 0 = false → random_level coins = 0) ∧
    ∀ (s : SkipList) (ns : List Nat) (key : Int) (v : Record) (fuel : Nat), WF s ns →
      0 ≤ key → key ∉ (entries s.mem ns).map Prod.fst → ns.length < fuel →
      ∃ s1, insert_skiplist fuel (some s) key (some v) coins true = some (1, some s1) ∧
        levelOf s1.mem s.mem.length = random_level coins := by
  have heq := random_level_eq coins
  refine ⟨heq, random_level_le coins, ?_, ?_, ?_, ?_⟩
  · intro i hi
    rw [heq] at hi
    exact count_heads_true _ coins i hi
  · intro hlt
    rw [heq] at hlt ⊢
    exact count_heads_stop _ coins hlt
  · intro h0
    rw [heq]
    show count_heads coins (30 + 1) = 0
    unfold count_heads
    simp [h0]
  · intro s ns key v fuel hwf hk hab hf
    obtain ⟨L, R, rfl, h1, h2⟩ := split_absent hwf hab
    have hv : (some v : Option Record) ≠ none := by simp
    obtain ⟨_, hok⟩ := insert_new hwf h1 h2 hk hf hv coins true
    obtain ⟨mem1, hres, _, _, hnew⟩ := hok rfl
    obtain ⟨nc, hnc, _, _, e3, _⟩ := shape_eq_some hnew
    exact ⟨_, hres, by show levelOf mem1 s.mem.length = _; rw [levelOf_eq hnc, e3]⟩

theorem random_level_counts_heads_witness :
    random_level (fun n => decide (n < 2)) = count_heads (fun n => decide (n < 2)) (MAX_LEVEL - 1) ∧
    random_level (fun n => decide (n < 2)) ≤ 31 ∧
    (∀ i, i < random_level (fun n => decide (n < 2)) → (fun n => decide (n < 2)) i = true) ∧
    (random_level (fun n => decide (n < 2)) < 31 →
      (fun n => decide (n < 2)) (random_level (fun n => decide (n < 2))) = false) ∧
    ((fun n => decide (n < 2)) 0 = false → random_level (fun n => decide (n < 2)) = 0) ∧
    ∀ (s : SkipList) (ns : List Nat) (key : Int) (v : Record) (fuel : Nat), WF s ns →
      0 ≤ key → key ∉ (entries s.mem ns).map Prod.fst → ns.length < fuel →
      ∃ s1, insert_skiplist fuel (some s) key (some v) (fun n => decide (n < 2)) true
          = some (1, some s1) ∧
        levelOf s1.mem s.mem.length = random_level (fun n => decide (n < 2)) :=
  random_level_counts_heads (fun n => decide (n < 2))

/-- C18 (as stated, refuted). The list built by one insert of the key 5 with a
record whose id is 7 is saved as that one record, and loading the file gives a
list whose level-0 sequence has the key 7, not the key 5 of the saved list. -/
theorem snapshot_round_trip_foreign_key :
    Reachable foreign_list ∧
    save_database 2 (some foreign_list) (some DB_FILENAME) true (fun _ => true)
      = some { ret := 1, opened := true,
               file := some { count := 1, records := [demo_record 7] },
               records_written := 1, warned := false } ∧
    traverse 2 foreign_list = some [(5, some (demo_record 7))] ∧
    ∃ s2, load_database 2 (some { count := 1, records := [demo_record 7] }) true
        (draws_ok (fun _ _ => false)) = some (some s2, 1) ∧
      traverse 2 s2 = some [(7, some (demo_record 7))] ∧
      traverse 2 s2 ≠ traverse 2 foreign_list :=
  ⟨⟨2, foreign_ops, foreign_ops.map (fun op => (op, 1)), rfl⟩, by decide, by decide,
    ⟨{ mem := [some (SkipListNode.mk (-1) none 31 ([some 1] ++ List.replicate 31 none)),
               some (SkipListNode.mk 7 (some (demo_record 7)) 0 [none])],
       header := 0, level := 0, size := 1 }, rfl, by decide, by decide⟩⟩

/-- C18 (amended). For every list built from a fresh one by insert and delete
calls, saved under a non-null file name with `fopen` and every `fwrite`
succeeding: `save_database` returns 1 and writes a file which `load_database`,
the file opened and read back as written, with any coin flips and allocations
that succeed, turns into a list; the level-0 sequence of pairs of that list is
the one of the saved list exactly when every pair of the saved list carries a
record whose id is its key.  So the round trip holds for every list in which
each record is stored under its own id, and for no other list. -/
theorem snapshot_round_trip (s : SkipList) (h : Reachable s) (fuel : Nat)
    (hf : s.size < fuel) (filename : List Nat) (fwrite_ok : Nat → Bool)
    (hw : ∀ i, i ≤ s.size → fwrite_ok i = true) (cs : Nat → Nat → Bool) :
    ∃ recs s2 ps ps2,
      save_database fuel (some s) (some filename) true fwrite_ok
        = some { ret := 1, opened := true,
                 file := some { count := s.size, records := recs },
                 records_written := s.size, warned := false } ∧
      load_database fuel (some { count := s.size, records := recs }) true (draws_ok cs)
        = some (some s2, s2.size) ∧
      traverse fuel s = some ps ∧ traverse fuel s2 = some ps2 ∧
      (ps2 = ps ↔ Keyed ps) := by
  obtain ⟨fuel0, ops, tr, hrun⟩ := h
  obtain ⟨s1, ns, hs, hwf, _⟩ := run_create hrun
  cases hs
  have hfl : ns.length < fuel := by rw [← hwf.2.1]; exact hf
  have hrl : (ns.filterMap (valueOf s.mem)).length = ns.length := (filterMap_values hwf).2
  obtain ⟨s2, ns2, hload, hwf2, hent2⟩ := load_database_refines cs s.size
    (ns.filterMap (valueOf s.mem)) (by rw [hrl]; exact hfl)
  have hlen2 : ns2.length ≤ fuel := by
    have := congrArg List.length hent2
    rw [entries_length] at this
    have hle := load_pairs_length_le (ns.filterMap (valueOf s.mem)) []
    simp only [List.length_nil] at hle
    omega
  refine ⟨_, s2, entries s.mem ns, entries s2.mem ns2,
    save_database_wf hwf (le_of_lt hfl) filename hw, hload,
    traverse_wf hwf (le_of_lt hfl), traverse_wf hwf2 hlen2, ?_, ?_⟩
  · intro e
    rw [← e, hent2]
    exact keyed_load_pairs _
  · intro hkey
    have hrecs : (ns.filterMap (valueOf s.mem)).map (fun r => (r.id, some r))
        = entries s.mem ns := by
      rw [← filterMap_entries]
      exact keyed_records hkey
    rw [hent2, load_pairs_sorted _ [] (by rw [List.nil_append, hrecs]; exact sorted_entries hwf)]
    · rw [List.nil_append, hrecs]
    · intro r hr
      have : (r.id, some r) ∈ entries s.mem ns := by
        rw [← hrecs]
        exact List.mem_map_of_mem _ hr
      exact (wf_entries_ok hwf _ this).1

theorem snapshot_round_trip_witness :
    Reachable demo_list ∧ demo_list.size < 5 ∧
    (∀ i, i ≤ demo_list.size → (fun _ => true) i = true) ∧
    ∃ recs s2 ps ps2,
      save_database 5 (some demo_list) (some DB_FILENAME) true (fun _ => true)
        = some { ret := 1, opened := true,
                 file := some { count := demo_list.size, records := recs },
                 records_written := demo_list.size, warned := false } ∧
      load_database 5 (some { count := demo_list.size, records := recs }) true
        (draws_ok (fun _ _ => true)) = some (some s2, s2.size) ∧
      traverse 5 demo_list = some ps ∧ traverse 5 s2 = some ps2 ∧
      (ps2 = ps ↔ Keyed ps) :=
  ⟨⟨5, demo_ops, demo_trace, rfl⟩, by decide, fun _ _ => rfl,
    snapshot_round_trip demo_list ⟨5, demo_ops, demo_trace, rfl⟩ 5 (by decide) DB_FILENAME
      (fun _ => true) (fun _ _ => rfl) (fun _ _ => true)⟩

/-- C19. Loading any sequence of records into a fresh list, with any coin flips
and allocations that succeed, returns a list whose level-0 sequence is in
strictly ascending key order and holds exactly, for each non-negative id of the
input, the first record carrying it, under that id: a record refused by the
insert (negative or repeated id) is skipped and the records after it are still
loaded.  The final `records_read` is the `size` of the list. -/
theorem load_skips_rejected (count : Nat) (recs : List Record) (cs : Nat → Nat → Bool)
    (fuel : Nat) (hf : recs.length < fuel) :
    ∃ s ps,
      load_database fuel (some { count := count, records := recs }) true (draws_ok cs)
        = some (some s, s.size) ∧
      traverse fuel s = some ps ∧ (ps.map Prod.fst).Pairwise (· < ·) ∧
      ∀ (k : Int) (v : Option Record), (k, v) ∈ ps ↔
        (0 ≤ k ∧ ∃ r, recs.find? (fun r => decide (r.id = k)) = some r ∧ v = some r) := by
  obtain ⟨s, ns, hload, hwf, hent⟩ := load_database_refines cs count recs hf
  have hlen : ns.length ≤ fuel := by
    have := congrArg List.length hent
    rw [entries_length] at this
    have hle := load_pairs_length_le recs []
    simp only [List.length_nil] at hle
    omega
  refine ⟨s, entries s.mem ns, hload, traverse_wf hwf hlen, sorted_entries hwf, ?_⟩
  intro k v
  rw [hent, mem_load_pairs]
  simp

theorem load_skips_rejected_witness :
    [demo_record 5, demo_record 1, demo_record (-2), demo_record 5].length < 5 ∧
    ∃ s ps,
      load_database 5 (some { count := 9, records :=
          [demo_record 5, demo_record 1, demo_record (-2), demo_record 5] }) true
          (draws_ok (fun _ _ => true))
        = some (some s, s.size) ∧
      traverse 5 s = some ps ∧ (ps.map Prod.fst).Pairwise (· < ·) ∧
      ∀ (k : Int) (v : Option Record), (k, v) ∈ ps ↔
        (0 ≤ k ∧ ∃ r, [demo_record 5, demo_record 1, demo_record (-2), demo_record 5].find?
          (fun r => decide (r.id = k)) = some r ∧ v = some r) :=
  ⟨by decide,
    load_skips_rejected 9 [demo_record 5, demo_record 1, demo_record (-2), demo_record 5]
      (fun _ _ => true) 5 (by decide)⟩

/-- C20 (as stated, refuted). The reachable list `demo_list` holds four
records; when the `fwrite` of its second record fails, `save_database` returns
0 having written the count 4 followed by one record only. -/
theorem save_stops_at_failed_write :
    Reachable demo_list ∧ demo_list.size = 4 ∧
    traverse 4 demo_list
      = some [(1, some (demo_record 1)), (3, some (demo_record 3)),
              (5, some (demo_record 5)), (9, some (demo_record 9))] ∧
    save_database 4 (some demo_list) (some DB_FILENAME) true (fun n => decide (n < 2))
      = some { ret := 0, opened := true,
               file := some { count := 4, records := [demo_record 1] },
               records_written := 1, warned := false } :=
  ⟨⟨5, demo_ops, demo_trace, rfl⟩, rfl, by decide, by decide⟩

/-- C20 (amended). For every reachable list, a non-null file name, `fopen`
succeeding and every `fwrite` the call makes succeeding, `save_database`
returns 1 and writes the count `size` followed by exactly `size` records, the
values of the level-0 chain in ascending key order; every stored value is
non-null, so no node is skipped, `records_written` is `size` and the mismatch
warning is not taken. -/
theorem save_writes_all_records (s : SkipList) (h : Reachable s) (fuel : Nat)
    (hf : s.size ≤ fuel) (filename : List Nat) (fwrite_ok : Nat → Bool)
    (hw : ∀ i, i ≤ s.size → fwrite_ok i = true) :
    ∃ recs ps,
      save_database fuel (some s) (some filename) true fwrite_ok
        = some { ret := 1, opened := true,
                 file := some { count := s.size, records := recs },
                 records_written := s.size, warned := false } ∧
      recs.length = s.size ∧ traverse fuel s = some ps ∧
      ps.map Prod.snd = recs.map some ∧ (ps.map Prod.fst).Pairwise (· < ·) ∧
      ∀ p ∈ ps, p.2 ≠ none := by
  obtain ⟨fuel0, ops, tr, hrun⟩ := h
  obtain ⟨s1, ns, hs, hwf, _⟩ := run_create hrun
  cases hs
  have hfl : ns.length ≤ fuel := by rw [← hwf.2.1]; exact hf
  obtain ⟨hv1, hv2⟩ := filterMap_values hwf
  exact ⟨_, entries s.mem ns, save_database_wf hwf hfl filename hw, by rw [hv2, hwf.2.1],
    traverse_wf hwf hfl, hv1.symm, sorted_entries hwf, fun p hp => (wf_entries_ok hwf p hp).2⟩

theorem save_writes_all_records_witness :
    Reachable demo_list ∧ demo_list.size ≤ 4 ∧
    (∀ i, i ≤ demo_list.size → (fun _ => true) i = true) ∧
    ∃ recs ps,
      save_database 4 (some demo_list) (some DB_FILENAME) true (fun _ => true)
        = some { ret := 1, opened := true,
                 file := some { count := demo_list.size, records := recs },
                 records_written := demo_list.size, warned := false } ∧
      recs.length = demo_list.size ∧ traverse 4 demo_list = some ps ∧
      ps.map Prod.snd = recs.map some ∧ (ps.map Prod.fst).Pairwise (· < ·) ∧
      ∀ p ∈ ps, p.2 ≠ none :=
  ⟨⟨5, demo_ops, demo_trace, rfl⟩, by decide, fun _ _ => rfl,
    save_writes_all_records demo_list ⟨5, demo_ops, demo_trace, rfl⟩ 4 (by decide)
      DB_FILENAME (fun _ => true) (fun _ _ => rfl)⟩

/-- C21. For every id, name and value, `create_record` (allocation succeeding)
returns a record with the given id and value whose name field has 64 bytes: the
first min(length(name), 63) bytes of the name, then NUL bytes, the first of them
right after the copied bytes.  So the string stored is the name itself when it
has at most 63 bytes, and its first 63 bytes when it is longer. -/
theorem create_record_fields (id : Int) (name : List Nat) (value : Nat) :
    ∃ r, create_record true id name value = some r ∧ r.id = id ∧ r.value = value ∧
      r.name.length = 64 ∧
      r.name = (c_string name).take 63
        ++ List.replicate (64 - min (c_string name).length 63) 0 ∧
      r.name.take (min (c_string name).length 63) = (c_string name).take 63 ∧
      r.name[min (c_string name).length 63]? = some 0 ∧
      ((c_string name).length ≤ 63 → c_string r.name = c_string name) ∧
      (63 < (c_string name).length → c_string r.name = (c_string name).take 63) := by
  have hname : strncpy name (MAX_NAME_LEN - 1) ++ [0]
      = (c_string name).take 63 ++ List.replicate (64 - min (c_string name).length 63) 0 := by
    rw [show MAX_NAME_LEN - 1 = 63 from rfl, strncpy_eq, List.append_assoc]
    congr 1
    have : 64 - min (c_string name).length 63 = (63 - min (c_string name).length 63) + 1 := by
      omega
    rw [this, List.replicate_succ']
  have htl : ((c_string name).take 63).length = min (c_string name).length 63 := by
    rw [List.length_take]
    omega
  have hk : 64 - min (c_string name).length 63 = (63 - min (c_string name).length 63) + 1 := by
    omega
  have hnn : ∀ c ∈ (c_string name).take 63, c ≠ 0 :=
    fun c hc => c_string_no_nul name c (List.mem_of_mem_take hc)
  refine ⟨_, rfl, rfl, rfl, ?_, hname, ?_, ?_, ?_, ?_⟩
  · show (strncpy name (MAX_NAME_LEN - 1) ++ [0]).length = 64
    rw [List.length_append, strncpy_length]
    rfl
  · show (strncpy name (MAX_NAME_LEN - 1) ++ [0]).take _ = _
    rw [hname, ← htl, List.take_left]
  · show (strncpy name (MAX_NAME_LEN - 1) ++ [0])[_]? = _
    rw [hname, ← htl, List.getElem?_append_right (le_refl _), Nat.sub_self, htl, hk,
      List.replicate_succ]
    simp
  · intro hle
    show c_string (strncpy name (MAX_NAME_LEN - 1) ++ [0]) = _
    rw [hname, hk, c_string_append_nul _ hnn, List.take_of_length_le hle]
  · intro _
    show c_string (strncpy name (MAX_NAME_LEN - 1) ++ [0]) = _
    rw [hname, hk, c_string_append_nul _ hnn]

theorem create_record_fields_witness :
    ∃ r, create_record true 7 [72, 105] 3 = some r ∧ r.id = 7 ∧ r.value = 3 ∧
      r.name.length = 64 ∧
      r.name = (c_string [72, 105]).take 63
        ++ List.replicate (64 - min (c_string [72, 105]).length 63) 0 ∧
      r.name.take (min (c_string [72, 105]).length 63) = (c_string [72, 105]).take 63 ∧
      r.name[min (c_string [72, 105]).length 63]? = some 0 ∧
      ((c_string [72, 105]).length ≤ 63 → c_string r.name = c_string [72, 105]) ∧
      (63 < (c_string [72, 105]).length → c_string r.name = (c_string [72, 105]).take 63) :=
  create_record_fields 7 [72, 105] 3

/-- C22 (the code at the failing input). For the negative id -3 the command
`add` returns before any engine call, but the command `del`, which has no such
check, calls `delete_skiplist` with -3. -/
theorem del_command_passes_negative_id :
    command_add 5 demo_list 3 (-3) [72, 105] 3 true (fun _ => true) true
      = some ([], demo_list) ∧
    command_del 5 demo_list 1 (-3) = some ([EngineCall.delete (-3)], demo_list) := by
  decide

/-- C23. Predecessor tracking: on a well-formed list, for every key, the
descent loop of insert and delete ends, and for each level `i` up to the level
of the list `update[i]` is the last node of the level-`i` chain whose key is
below `key`, or the header when there is none; the descent ends at `update[0]`,
whose level-0 link is the first node of the level-0 chain whose key is not
below `key` (`NULL` when there is none). -/
theorem predecessor_tracking (s : SkipList) (ns : List Nat) (h : WF s ns) (key : Int)
    (fuel : Nat) (hf : ns.length < fuel) :
    ∃ cur upd, find_update fuel s.mem key s.level s.header update_init = some (cur, upd) ∧
      (∀ i, i ≤ s.level → ∃ ci, level_chain fuel s i = some ci ∧
        upd[i]? = some (some (lastFrom s.header
          (ci.filter (fun a => decide (keyOf s.mem a < key)))))) ∧
      upd[0]? = some (some cur) ∧
      ∃ c0, level_chain fuel s 0 = some c0 ∧
        fwd s.mem cur 0 = some (c0.find? (fun a => decide (key ≤ keyOf s.mem a))) := by
  obtain ⟨L, R, rfl, h1, h2⟩ := split_at_key s.mem key ns (wf_sorted h)
  obtain ⟨upd, he, _, hua, _⟩ := descent_wf h h1 h2 hf
  have h0 := level_chain_wf h (i := 0) (by decide) (le_of_lt hf)
  rw [atLevel_zero] at h0
  refine ⟨_, upd, he, ?_, ?_, L ++ R, h0, ?_⟩
  · intro i hi
    refine ⟨_, level_chain_wf h (lt_of_le_of_lt hi h.1) (le_of_lt hf), ?_⟩
    rw [filter_below_split h1 h2, hua i hi]
  · rw [hua 0 (Nat.zero_le _), atLevel_zero]
  · rw [pred_link_wf h, find_from_split h1 h2]

theorem predecessor_tracking_witness :
    WF demo_list demo_chain ∧ demo_chain.length < 5 ∧
    ∃ cur upd, find_update 5 demo_list.mem 4 demo_list.level demo_list.header update_init
        = some (cur, upd) ∧
      (∀ i, i ≤ demo_list.level → ∃ ci, level_chain 5 demo_list i = some ci ∧
        upd[i]? = some (some (lastFrom demo_list.header
          (ci.filter (fun a => decide (keyOf demo_list.mem a < 4)))))) ∧
      upd[0]? = some (some cur) ∧
      ∃ c0, level_chain 5 demo_list 0 = some c0 ∧
        fwd demo_list.mem cur 0
          = some (c0.find? (fun a => decide ((4 : Int) ≤ keyOf demo_list.mem a))) :=
  ⟨by decide, by decide, predecessor_tracking demo_list demo_chain (by decide) 4 5 (by decide)⟩

/-- C24. Search refines a linear scan: on every list with strictly increasing
keys, monotone participation of the nodes in the levels, and a level at least
that of every node, the level-0 traversal ends and `search_skiplist` returns
what a plain left-to-right lookup of the key in that traversal returns. -/
theorem search_refines_lookup (s : SkipList) (ns : List Nat) (h : Linked s ns) (key : Int)
    (fuel : Nat) (hf : ns.length < fuel) :
    ∃ ps, traverse fuel s = some ps ∧
      search_skiplist fuel (some s) key = some (lookup ps key) :=
  ⟨entries s.mem ns, traverse_linked h (le_of_lt hf), search_linked h key hf⟩

theorem search_refines_lookup_witness :
    Linked demo_list demo_chain ∧ demo_chain.length < 5 ∧
    ∃ ps, traverse 5 demo_list = some ps ∧
      search_skiplist 5 (some demo_list) 9 = some (lookup ps 9) :=
  ⟨by decide, by decide, search_refines_lookup demo_list demo_chain (by decide) 9 5 (by decide)⟩

/-- C25. In `delete_skiplist` on a reachable list holding the key: the descent
ends at the predecessor of the node `c` carrying the key; at every level `i` up
to the level of `c` the recorded `update[i]` has its level-`i` link equal to
`c`, and the guard `update[i]->forward[i] == current` is true at every
iteration of the loop.  After the call the cell of `c` is freed, `c` is not on
the level-0 chain, and no link, at any level, of the header or of a remaining
node points at `c`. -/
theorem delete_unlinks_every_level (s : SkipList) (h : Reachable s) (fuel : Nat)
    (hf : s.size < fuel) (key : Int) (ps : List (Int × Option Record))
    (hps : traverse fuel s = some ps) (hk : key ∈ ps.map Prod.fst) :
    ∃ cur upd c n s1 rest,
      find_update fuel s.mem key s.level s.header update_init = some (cur, upd) ∧
      fwd s.mem cur 0 = some (some c) ∧ nodeAt s.mem c = some n ∧ n.key = key ∧
      (∀ i, i ≤ n.level → ∃ p, upd[i]? = some (some p) ∧ fwd s.mem p i = some (some c)) ∧
      unlink_guards c upd 0 (n.level + 1) s.mem = some (List.replicate (n.level + 1) true) ∧
      delete_skiplist fuel (some s) key = some (1, some s1) ∧
      nodeAt s1.mem c = none ∧ level_chain fuel s1 0 = some rest ∧ c ∉ rest ∧
      ∀ x ∈ s1.header :: rest, ∀ i, fwd s1.mem x i ≠ some (some c) := by
  obtain ⟨fuel0, ops, tr, hrun⟩ := h
  obtain ⟨s0, ns, hs, hwf, _⟩ := run_create hrun
  cases hs
  have hfl : ns.length < fuel := by rw [← hwf.2.1]; exact hf
  rw [traverse_wf hwf (le_of_lt hfl)] at hps
  cases hps
  obtain ⟨L, c, R, rfl, h1, hck⟩ := split_present hwf hk
  obtain ⟨upd, n, mem1, l1, he, hlink, hn, hkey, hupd, hg, hdel, hwf1, hfree, hcn⟩ :=
    delete_present_detail hwf h1 hck hfl
  have hlen : (L ++ R).length ≤ fuel := by
    simp only [List.length_append, List.length_cons] at hfl ⊢
    omega
  have hc0 := level_chain_wf hwf1 (i := 0) (by decide) hlen
  rw [atLevel_zero] at hc0
  exact ⟨_, upd, c, n, _, L ++ R, he, hlink, hn, hkey, hupd, hg, hdel, hfree, hc0, hcn,
    wf_no_link_to hwf1 hcn⟩

theorem delete_unlinks_every_level_witness :
    Reachable demo_list ∧ demo_list.size < 5 ∧
    traverse 5 demo_list = some (entries demo_list.mem demo_chain) ∧
    (9 : Int) ∈ (entries demo_list.mem demo_chain).map Prod.fst ∧
    ∃ cur upd c n s1 rest,
      find_update 5 demo_list.mem 9 demo_list.level demo_list.header update_init
        = some (cur, upd) ∧
      fwd demo_list.mem cur 0 = some (some c) ∧ nodeAt demo_list.mem c = some n ∧ n.key = 9 ∧
      (∀ i, i ≤ n.level → ∃ p, upd[i]? = some (some p) ∧
        fwd demo_list.mem p i = some (some c)) ∧
      unlink_guards c upd 0 (n.level + 1) demo_list.mem
        = some (List.replicate (n.level + 1) true) ∧
      delete_skiplist 5 (some demo_list) 9 = some (1, some s1) ∧
      nodeAt s1.mem c = none ∧ level_chain 5 s1 0 = some rest ∧ c ∉ rest ∧
      ∀ x ∈ s1.header :: rest, ∀ i, fwd s1.mem x i ≠ some (some c) :=
  ⟨⟨5, demo_ops, demo_trace, rfl⟩, by decide, by decide, by decide,
    delete_unlinks_every_level demo_list ⟨5, demo_ops, demo_trace, rfl⟩ 5 (by decide) 9
      (entries demo_list.mem demo_chain) (by decide) (by decide)⟩

/-- C26. Index safety: in every reachable list the level is at most
`MAX_LEVEL - 1`, the header has `MAX_LEVEL` links, and every node of the
level-0 chain has a level not above that of the list and a forward array of
`level + 1` slots.  Hence the descent writes `update[0..level]` inside the
array, and `insert_skiplist` and `delete_skiplist`, whatever their arguments,
coin flips and allocation outcome, run to their `return`: no index leaves its
array and no slot of `update` is read before it is written (either would make
the embedding return `none`). -/
theorem index_safety (s : SkipList) (h : Reachable s) (fuel : Nat) (hf : s.size < fuel)
    (key : Int) (value : Option Record) (coins : Nat → Bool) (alloc_ok : Bool) :
    s.level ≤ MAX_LEVEL - 1 ∧
    (∃ hd, nodeAt s.mem s.header = some hd ∧ hd.forward.length = MAX_LEVEL) ∧
    (∃ c0, level_chain fuel s 0 = some c0 ∧ ∀ a ∈ c0, ∃ n, nodeAt s.mem a = some n ∧
      n.level ≤ s.level ∧ n.forward.length = n.level + 1) ∧
    (∃ cur upd, find_update fuel s.mem key s.level s.header update_init = some (cur, upd) ∧
      upd.length = MAX_LEVEL ∧ ∀ i, i ≤ s.level → ∃ p, upd[i]? = some (some p)) ∧
    (∃ r s1, insert_skiplist fuel (some s) key value coins alloc_ok = some (r, some s1)) ∧
    ∃ r s1, delete_skiplist fuel (some s) key = some (r, some s1) := by
  obtain ⟨fuel0, ops, tr, hrun⟩ := h
  obtain ⟨s0, ns, hs, hwf, _⟩ := run_create hrun
  cases hs
  have hfl : ns.length < fuel := by rw [← hwf.2.1]; exact hf
  have h0 := level_chain_wf hwf (i := 0) (by decide) (le_of_lt hfl)
  rw [atLevel_zero] at h0
  obtain ⟨L, R, hsplit, h1, h2⟩ := split_at_key s.mem key ns (wf_sorted hwf)
  obtain ⟨s1, _, hins, _⟩ := insert_refines hwf hfl key value coins alloc_ok
  obtain ⟨s2, _, hdel, _⟩ := delete_refines hwf hfl key
  refine ⟨?_, wf_header hwf, ⟨ns, h0, ?_⟩, ?_, ⟨_, s1, hins⟩, ⟨_, s2, hdel⟩⟩
  · have := hwf.1
    unfold MAX_LEVEL at *
    omega
  · intro a ha
    obtain ⟨n, hn, e1, e2, _⟩ := wf_node hwf ha
    exact ⟨n, hn, e2, e1⟩
  · subst hsplit
    obtain ⟨upd, he, hul, hua, _⟩ := descent_wf hwf h1 h2 hfl
    exact ⟨_, upd, he, hul, fun i hi => ⟨_, hua i hi⟩⟩

theorem index_safety_witness :
    Reachable demo_list ∧ demo_list.size < 5 ∧
    (demo_list.level ≤ MAX_LEVEL - 1 ∧
    (∃ hd, nodeAt demo_list.mem demo_list.header = some hd ∧ hd.forward.length = MAX_LEVEL) ∧
    (∃ c0, level_chain 5 demo_list 0 = some c0 ∧ ∀ a ∈ c0, ∃ n,
      nodeAt demo_list.mem a = some n ∧
      n.level ≤ demo_list.level ∧ n.forward.length = n.level + 1) ∧
    (∃ cur upd, find_update 5 demo_list.mem 4 demo_list.level demo_list.header update_init
        = some (cur, upd) ∧
      upd.length = MAX_LEVEL ∧ ∀ i, i ≤ demo_list.level → ∃ p, upd[i]? = some (some p)) ∧
    (∃ r s1, insert_skiplist 5 (some demo_list) 4 (some (demo_record 4)) (fun _ => true) true
        = some (r, some s1)) ∧
    ∃ r s1, delete_skiplist 5 (some demo_list) 4 = some (r, some s1)) :=
  ⟨⟨5, demo_ops, demo_trace, rfl⟩, by decide,
    index_safety demo_list ⟨5, demo_ops, demo_trace, rfl⟩ 5 (by decide) 4
      (some (demo_record 4)) (fun _ => true) true⟩

/-- C27. The observable results do not depend on the heights: two runs of the
same sequence of insert, delete and search calls on a fresh list, drawing any
two families of coin flips (no allocation failing), both end and give the same
observations: after every call, the same returned value, the same `size` and
the same level-0 sequence of pairs. -/
theorem results_independent_of_heights (calls : List Call) (cs1 cs2 : Nat → Nat → Bool)
    (fuel1 fuel2 : Nat) (h1 : calls.length < fuel1) (h2 : calls.length < fuel2) :
    create_skiplist true = some fresh_list ∧
    ∃ obs, run_calls fuel1 cs1 0 fresh_list calls = some obs ∧
      run_calls fuel2 cs2 0 fresh_list calls = some obs ∧ obs.length = calls.length := by
  have hwf : WF fresh_list [] := wf_create create_skiplist_eq
  refine ⟨rfl, _, run_calls_refines cs1 calls 0 fresh_list [] hwf (by simpa using h1),
    run_calls_refines cs2 calls 0 fresh_list [] hwf (by simpa using h2),
    abstract_calls_length _ _⟩

theorem results_independent_of_heights_witness :
    [Call.insert 5 (some (demo_record 5)), Call.search 5, Call.insert 2 (some (demo_record 2)),
      Call.delete 5, Call.search 5].length < 6 ∧
    [Call.insert 5 (some (demo_record 5)), Call.search 5, Call.insert 2 (some (demo_record 2)),
      Call.delete 5, Call.search 5].length < 9 ∧
    (create_skiplist true = some fresh_list ∧
    ∃ obs, run_calls 6 (fun _ _ => true) 0 fresh_list
        [Call.insert 5 (some (demo_record 5)), Call.search 5,
          Call.insert 2 (some (demo_record 2)), Call.delete 5, Call.search 5] = some obs ∧
      run_calls 9 (fun _ _ => false) 0 fresh_list
        [Call.insert 5 (some (demo_record 5)), Call.search 5,
          Call.insert 2 (some (demo_record 2)), Call.delete 5, Call.search 5] = some obs ∧
      obs.length = [Call.insert 5 (some (demo_record 5)), Call.search 5,
        Call.insert 2 (some (demo_record 2)), Call.delete 5, Call.search 5].length) :=
  ⟨by decide, by decide,
    results_independent_of_heights
      [Call.insert 5 (some (demo_record 5)), Call.search 5, Call.insert 2 (some (demo_record 2)),
        Call.delete 5, Call.search 5] (fun _ _ => true) (fun _ _ => false) 6 9 (by decide)
      (by decide)⟩

/-- C28. `shuffle_ids` yields a permutation: for every array holding at least
`n` ints and every sequence of values of `rand()`, the call ends with an array
holding the same elements with the same multiplicities, unchanged when
`n ≤ 1`; so when the ids are distinct, the first `m` entries of the shuffled
array are distinct, and there are `m` of them when `m` is at most the length. -/
theorem shuffle_ids_permutes (draws : Nat → Nat) (array : List Int) (n : Nat)
    (hn : n ≤ array.length) :
    ∃ array1, shuffle_ids draws array n = some array1 ∧ array1.Perm array ∧
      (n ≤ 1 → array1 = array) ∧
      (array.Nodup → ∀ m, (array1.take m).Nodup ∧
        (m ≤ array.length → (array1.take m).length = m)) := by
  have hmain : ∃ array1, shuffle_ids draws array n = some array1 ∧ array1.Perm array ∧
      (n ≤ 1 → array1 = array) := by
    unfold shuffle_ids
    by_cases h1 : n > 1
    · rw [if_pos h1]
      obtain ⟨a1, e1, e2⟩ := shuffle_loop_perm draws (n - 1) 0 array (by omega)
      exact ⟨a1, e1, e2, fun hle => by omega⟩
    · rw [if_neg h1]
      exact ⟨array, rfl, List.Perm.refl _, fun _ => rfl⟩
  obtain ⟨a1, e1, e2, e3⟩ := hmain
  refine ⟨a1, e1, e2, e3, fun hnd m => ⟨?_, fun hm => ?_⟩⟩
  · exact List.Nodup.sublist (List.take_sublist _ _) (e2.nodup_iff.2 hnd)
  · rw [List.length_take, e2.length_eq]
    omega

theorem shuffle_ids_permutes_witness :
    6 ≤ ([0, 1, 2, 3, 4, 5] : List Int).length ∧
    ∃ array1, shuffle_ids (fun k => 7 * k + 3) [0, 1, 2, 3, 4, 5] 6 = some array1 ∧
      array1.Perm [0, 1, 2, 3, 4, 5] ∧
      (6 ≤ 1 → array1 = [0, 1, 2, 3, 4, 5]) ∧
      (([0, 1, 2, 3, 4, 5] : List Int).Nodup → ∀ m, (array1.take m).Nodup ∧
        (m ≤ ([0, 1, 2, 3, 4, 5] : List Int).length → (array1.take m).length = m)) :=
  ⟨by decide, shuffle_ids_permutes (fun k => 7 * k + 3) [0, 1, 2, 3, 4, 5] 6 (by decide)⟩

end SkipListIndex
